import Mathlib

/-!
# The Hungarian (Munkres) assignment solver of `rharel/cpp-hungarian-algorithm`

A shallow embedding of `sources/hungarian_algorithm.cpp` and
`include/hungarian_algorithm.hpp`.

* `unsigned int` values are natural numbers below `2 ^ 32`; every arithmetic
  operation of the source is reduced modulo `2 ^ 32` explicitly.
* The `n` by `n` cost matrix, the assignment buffer and the two coverage vectors
  are functions on `Fin n`; the problem size `n` is a constant of the instance.
* The two `Eigen::SparseMatrix<bool>` masks are boolean functions on the cells: a
  cell is marked when the sparse matrix stores the value `true` for it.  Iterating a
  column with `InnerIterator` visits the stored cells by increasing row, and a
  cell that is absent or stores `false` never passes the test `cmi.value()`.
* The three `while` loops of the source (`solve`, `step_4`, `step_5`) take a
  fuel argument and return `none` when it runs out.
-/

namespace Hungarian

/-- The value `std::numeric_limits<unsigned int>::max()`. -/
def UINT_MAX : Nat := 2 ^ 32 - 1

/-- Conversion of an `unsigned int` to `int` (two's complement), as happens when
an `unsigned int` argument is passed for the parameter `const int value`. -/
def to_int (v : Nat) : Int :=
  if v % 2 ^ 32 < 2 ^ 31 then ((v % 2 ^ 32 : Nat) : Int)
  else ((v % 2 ^ 32 : Nat) : Int) - 2 ^ 32

/-- The expression `-1 * m` for an `unsigned int` operand `m`: the literal is
converted to `unsigned int` and the product is taken modulo `2 ^ 32`. -/
def neg_one_times (m : Nat) : Nat := ((2 ^ 32 - 1) * m) % 2 ^ 32

/-- The statement `x += value` for an `unsigned int` cell and an `int` value. -/
def add_assign (x : Nat) (value : Int) : Nat := (((x : Int) + value) % 2 ^ 32).toNat

/-- Write `v` at index `i` of a one-dimensional buffer. -/
def write1 {n : Nat} {α : Type} (f : Fin n → α) (i : Fin n) (v : α) : Fin n → α :=
  fun k => if k = i then v else f k

/-- Write `v` at cell `(i, j)` of a two-dimensional buffer. -/
def write2 {n : Nat} {α : Type} (f : Fin n → Fin n → α) (i j : Fin n) (v : α) :
    Fin n → Fin n → α :=
  fun r c => if r = i ∧ c = j then v else f r c

/-- The enumeration `Problem::Step`. -/
inductive Step where
  | Done | One | Two | Three | Four | Five | Six
  deriving DecidableEq, Repr

/-- The data members of `class Problem`, for the problem size `n`.  The member
`uncovered_prime_zero` is `none` as long as it is uninitialised. -/
structure Problem (n : Nat) where
  C : Fin n → Fin n → Nat
  S : Fin n → Fin n → Bool
  P : Fin n → Fin n → Bool
  is_covered_row : Fin n → Bool
  is_covered_column : Fin n → Bool
  uncovered_prime_zero : Option (Fin n × Fin n)
  current_step : Step

/-- The constructor `Problem::Problem`: empty masks, nothing covered, first step;
`uncovered_prime_zero` is left uninitialised. -/
def construct (size : Nat) (cost_matrix : Fin size → Fin size → Nat) : Problem size :=
  { C := cost_matrix
    S := fun _ _ => false
    P := fun _ _ => false
    is_covered_row := fun _ => false
    is_covered_column := fun _ => false
    uncovered_prime_zero := none
    current_step := Step.One }

/-- The function `Problem::minimum_in_row`; the loop starts at column `1`. -/
def minimum_in_row {n : Nat} (p : Problem n) (i : Fin n) : Nat :=
  ((List.finRange n).filter fun j => decide (1 ≤ j.val)).foldl
    (fun minimum j => if p.C i j < minimum then p.C i j else minimum)
    (p.C i ⟨0, Fin.pos i⟩)

/-- The function `Problem::minimum_uncovered`. -/
def minimum_uncovered {n : Nat} (p : Problem n) : Nat :=
  (List.finRange n).foldl
    (fun minimum i =>
      if p.is_covered_row i then minimum
      else (List.finRange n).foldl
        (fun minimum j =>
          if p.is_covered_column j then minimum
          else if p.C i j < minimum then p.C i j else minimum) minimum)
    UINT_MAX

/-- The function `Problem::add_to_row`. -/
def add_to_row {n : Nat} (p : Problem n) (i : Fin n) (value : Int) : Problem n :=
  (List.finRange n).foldl
    (fun q j => { q with C := write2 q.C i j (add_assign (q.C i j) value) }) p

/-- The function `Problem::add_to_column`. -/
def add_to_column {n : Nat} (p : Problem n) (j : Fin n) (value : Int) : Problem n :=
  (List.finRange n).foldl
    (fun q i => { q with C := write2 q.C i j (add_assign (q.C i j) value) }) p

/-- The function `Problem::find_uncovered_zero`: the first zero, in row-major order, whose row
and column are both uncovered. -/
def find_uncovered_zero {n : Nat} (p : Problem n) : Option (Fin n × Fin n) :=
  (List.finRange n).findSome? fun i =>
    if p.is_covered_row i then none
    else (List.finRange n).findSome? fun j =>
      if p.is_covered_column j then none
      else if p.C i j = 0 then some (i, j) else none

/-- The inner loop of `find_starred_zero_in_row` and `find_primed_zero_in_row`:
walk down column `j` of the mask and stop after row `row_index`; report whether
the cell in that row is marked. -/
def column_has_row {n : Nat} (mask : Fin n → Fin n → Bool) (row_index j : Fin n) : Bool :=
  ((List.finRange n).takeWhile fun i => decide (i ≤ row_index)).any
    fun i => decide (i = row_index) && mask i j

/-- The function `Problem::find_starred_zero_in_row`. -/
def find_starred_zero_in_row {n : Nat} (p : Problem n) (row_index : Fin n) :
    Option (Fin n) :=
  (List.finRange n).find? fun j => column_has_row p.S row_index j

/-- The function `Problem::find_starred_zero_in_column`. -/
def find_starred_zero_in_column {n : Nat} (p : Problem n) (column_index : Fin n) :
    Option (Fin n) :=
  (List.finRange n).find? fun i => p.S i column_index

/-- The function `Problem::find_primed_zero_in_row`. -/
def find_primed_zero_in_row {n : Nat} (p : Problem n) (row_index : Fin n) :
    Option (Fin n) :=
  (List.finRange n).find? fun j => column_has_row p.P row_index j

/-- The function `Problem::step_1`. -/
def step_1 {n : Nat} (p : Problem n) : Problem n × Step :=
  ((List.finRange n).foldl
    (fun q i => add_to_row q i (to_int (neg_one_times (minimum_in_row q i)))) p,
   Step.Two)

/-- The function `Problem::step_2`.  The local vector `is_starred_column` is threaded through
the loop over the rows. -/
def step_2 {n : Nat} (p : Problem n) : Problem n × Step :=
  let r := (List.finRange n).foldl
    (fun (acc : (Fin n → Fin n → Bool) × (Fin n → Bool)) i =>
      match (List.finRange n).find? fun j => !acc.2 j && decide (p.C i j = 0) with
      | some j => (write2 acc.1 i j true, write1 acc.2 j true)
      | none => acc)
    (p.S, fun _ => false)
  ({ p with S := r.1 }, Step.Three)

/-- The function `Problem::step_3`. -/
def step_3 {n : Nat} (p : Problem n) : Problem n × Step :=
  let r := (List.finRange n).foldl
    (fun (acc : (Fin n → Bool) × Nat) j =>
      match find_starred_zero_in_column p j with
      | some _ => (write1 acc.1 j true, acc.2 + 1)
      | none => acc)
    (p.is_covered_column, 0)
  ({ p with is_covered_column := r.1 }, if r.2 = n then Step.Done else Step.Four)

/-- The function `Problem::step_4`; one unit of fuel per iteration of its `while` loop. -/
def step_4 {n : Nat} : Nat → Problem n → Option (Problem n × Step)
  | 0, _ => none
  | fuel + 1, p =>
    match find_uncovered_zero p with
    | none => some (p, Step.Six)
    | some (i, j) =>
      let q := { p with P := write2 p.P i j true }
      match find_starred_zero_in_row q i with
      | some k =>
        step_4 fuel { q with is_covered_row := write1 q.is_covered_row i true
                             is_covered_column := write1 q.is_covered_column k false }
      | none => some ({ q with uncovered_prime_zero := some (i, j) }, Step.Five)

/-- The path walk of `Problem::step_5` (its `while` loop); one unit of fuel per
iteration.  The result of `find_primed_zero_in_row` is ignored by the source, so
`j` keeps its value when no primed cell is found. -/
def step_5_walk {n : Nat} : Nat → Problem n → Fin n → List (Fin n × Fin n) →
    List (Fin n × Fin n) → Option (List (Fin n × Fin n) × List (Fin n × Fin n))
  | 0, _, _, _, _ => none
  | fuel + 1, p, j, primed_zeroes, starred_zeroes =>
    match find_starred_zero_in_column p j with
    | none => some (primed_zeroes, starred_zeroes)
    | some i =>
      let j2 := (find_primed_zero_in_row p i).getD j
      step_5_walk fuel p j2 (primed_zeroes ++ [(i, j2)]) (starred_zeroes ++ [(i, j)])

/-- The function `Problem::step_5`.  Reading an uninitialised `uncovered_prime_zero` gives no
result. -/
def step_5 {n : Nat} (fuel : Nat) (p : Problem n) : Option (Problem n × Step) :=
  match p.uncovered_prime_zero with
  | none => none
  | some z =>
    match step_5_walk fuel p z.2 [z] [] with
    | none => none
    | some (primed_zeroes, starred_zeroes) =>
      let S1 := primed_zeroes.foldl (fun S l => write2 S l.1 l.2 true) p.S
      let S2 := starred_zeroes.foldl (fun S l => write2 S l.1 l.2 false) S1
      some ({ p with S := S2
                     P := fun _ _ => false
                     is_covered_row := fun _ => false
                     is_covered_column := fun _ => false }, Step.Three)

/-- The function `Problem::step_6`. -/
def step_6 {n : Nat} (p : Problem n) : Problem n × Step :=
  let m := minimum_uncovered p
  let q := (List.finRange n).foldl
    (fun q i => if q.is_covered_row i then add_to_row q i (to_int m) else q) p
  let r := (List.finRange n).foldl
    (fun q j => if !q.is_covered_column j then add_to_column q j (to_int (neg_one_times m))
                else q) q
  (r, Step.Four)

/-- The function `Problem::step`: run the current step, store the step it returns, and report
whether the stored step is `Done`.  The `switch` has no case for `Done`. -/
def step {n : Nat} (fuel : Nat) (p : Problem n) : Option (Problem n × Bool) :=
  let r : Option (Problem n × Step) :=
    match p.current_step with
    | Step.One => some (step_1 p)
    | Step.Two => some (step_2 p)
    | Step.Three => some (step_3 p)
    | Step.Four => step_4 fuel p
    | Step.Five => step_5 fuel p
    | Step.Six => some (step_6 p)
    | Step.Done => some (p, Step.Done)
  r.map fun x => ({ x.1 with current_step := x.2 }, decide (x.2 = Step.Done))

/-- The function `Problem::output_solution`. -/
def output_solution {n : Nat} (p : Problem n) (assignment : Fin n → Nat) : Fin n → Nat :=
  (List.finRange n).foldl
    (fun a j =>
      match find_starred_zero_in_column p j with
      | some i => write1 a i j.val
      | none => a)
    assignment

/-- The loop `while (current_step != Step::Done) { step(); }` of `Problem::solve`;
one unit of fuel per call of `step`, which receives `inner` as the fuel of its
own loops. -/
def solve_loop {n : Nat} (inner : Nat) : Nat → Problem n → Option (Problem n)
  | 0, p => if p.current_step = Step.Done then some p else none
  | fuel + 1, p =>
    if p.current_step = Step.Done then some p
    else
      match step inner p with
      | none => none
      | some r => solve_loop inner fuel r.1

/-- The function `Problem::solve`: the final problem state and the assignment buffer. -/
def solve {n : Nat} (fuel : Nat) (p : Problem n) (assignment : Fin n → Nat) :
    Option (Problem n × (Fin n → Nat)) :=
  (solve_loop fuel fuel p).map fun q => (q, output_solution q assignment)

/-- The function `solve_for_minimum_cost_assignment` on a cost matrix: the
contents of the cost matrix and of the assignment buffer after the call. -/
def solve_for_minimum_cost_assignment (fuel : Nat) (problem_size : Nat)
    (cost_matrix : Fin problem_size → Fin problem_size → Nat)
    (assignment : Fin problem_size → Nat) :
    Option ((Fin problem_size → Fin problem_size → Nat) × (Fin problem_size → Nat)) :=
  if problem_size = 0 then some (cost_matrix, assignment)
  else if problem_size = 1 then
    some (cost_matrix, fun i => if i.val = 0 then 0 else assignment i)
  else (solve fuel (construct problem_size cost_matrix) assignment).map
    fun r => (r.1.C, r.2)

/-- The function `detail::compute_cost_matrix`: cell `(i, j)` receives
`static_cast<unsigned int>(c(i, j))`. -/
def compute_cost_matrix (n : Nat) (c : Nat → Nat → Nat) (C : Fin n → Fin n → Nat) :
    Fin n → Fin n → Nat :=
  (List.finRange n).foldl
    (fun M i => (List.finRange n).foldl
      (fun M j => write2 M i j (c i.val j.val % 2 ^ 32)) M) C

/-- The cost-function overload of `solve_for_minimum_cost_assignment`: it builds
the matrix in zero-initialised vectors and delegates to the matrix version. -/
def solve_for_minimum_cost_assignment_fn (fuel : Nat) (n : Nat) (c : Nat → Nat → Nat)
    (A : Fin n → Nat) : Option (Fin n → Nat) :=
  (solve_for_minimum_cost_assignment fuel n
    (compute_cost_matrix n c fun _ _ => 0) A).map fun r => r.2

/-- The rows of a square table, as lists. -/
def rows_of {n : Nat} {α : Type} (f : Fin n → Fin n → α) : List (List α) :=
  (List.finRange n).map fun i => (List.finRange n).map (f i)

/-- The entries of a vector, as a list. -/
def entries_of {n : Nat} {α : Type} (f : Fin n → α) : List α :=
  (List.finRange n).map f

/-- The square table with the given rows (and `d` where a row is too short). -/
def of_rows {α : Type} (d : α) (n : Nat) (rows : List (List α)) : Fin n → Fin n → α :=
  fun i j => (rows.getD i.val []).getD j.val d

/-- The vector with the given entries (and `d` beyond them). -/
def of_entries {α : Type} (d : α) (n : Nat) (l : List α) : Fin n → α :=
  fun i => l.getD i.val d

/-- All the data of a problem state in first-order form. -/
structure Snapshot where
  cost : List (List Nat)
  stars : List (List Bool)
  primes : List (List Bool)
  covered_rows : List Bool
  covered_columns : List Bool
  seed : Option (Nat × Nat)
  current : Step
  deriving DecidableEq, Repr

/-- The first-order form of a problem state. -/
def snapshot {n : Nat} (p : Problem n) : Snapshot :=
  { cost := rows_of p.C
    stars := rows_of p.S
    primes := rows_of p.P
    covered_rows := entries_of p.is_covered_row
    covered_columns := entries_of p.is_covered_column
    seed := p.uncovered_prime_zero.map fun z => (z.1.val, z.2.val)
    current := p.current_step }

/-- Run `k` calls of `step`, each with fuel `fuel`. -/
def run_steps {n : Nat} (fuel : Nat) : Nat → Problem n → Option (Problem n)
  | 0, p => some p
  | k + 1, p =>
    match step fuel p with
    | none => none
    | some r => run_steps fuel k r.1

/-! ## Invariants, measures and test data -/

/-- The number of covered rows. -/
def covered_row_count {n : Nat} (p : Problem n) : Nat :=
  (Finset.univ.filter fun i : Fin n => p.is_covered_row i = true).card

/-- The number of columns that hold no starred cell. -/
def free_column_count {n : Nat} (p : Problem n) : Nat :=
  (Finset.univ.filter fun j : Fin n => ∀ i, p.S i j = false).card

/-- The facts about the cost matrix and the masks that hold in every state of a run:
entries fit an `unsigned int`, a row or a column has at most one star, and marked
cells hold zero. -/
structure StarInv {n : Nat} (p : Problem n) : Prop where
  bounded : ∀ i j, p.C i j < 2 ^ 32
  star_row : ∀ i j k, p.S i j = true → p.S i k = true → j = k
  star_col : ∀ i k j, p.S i j = true → p.S k j = true → i = k
  star_zero : ∀ i j, p.S i j = true → p.C i j = 0
  prime_zero : ∀ i j, p.P i j = true → p.C i j = 0

/-- No cell is primed and no line is covered. -/
structure Clear {n : Nat} (p : Problem n) : Prop where
  no_prime : ∀ i j, p.P i j = false
  no_row : ∀ i, p.is_covered_row i = false
  no_column : ∀ j, p.is_covered_column j = false

/-- The relation between stars, primes and covered lines during the search for an
augmenting path (steps 4, 5 and 6). -/
structure SearchInv {n : Nat} (p : Problem n) : Prop where
  free_column : ∃ j, ∀ i, p.S i j = false
  star_cover : ∀ i j, p.S i j = true →
    (p.is_covered_row i = true ↔ p.is_covered_column j = false)
  column_star : ∀ j, p.is_covered_column j = true → ∃ i, p.S i j = true
  row_star : ∀ i, p.is_covered_row i = true → ∃ j, p.S i j = true
  row_prime : ∀ i, p.is_covered_row i = true → ∃ j, p.P i j = true
  prime_column : ∀ i j, p.P i j = true → p.is_covered_column j = false

/-- A ranking of the rows by the time at which they were primed: the star in the
column of a primed cell lies in a row that was primed earlier. -/
structure RankInv {n : Nat} (p : Problem n) (t : Fin n → Nat) : Prop where
  covered_lt : ∀ i, p.is_covered_row i = true → t i < covered_row_count p
  star_lt : ∀ i j k, p.P i j = true → p.S k j = true → t k < t i

/-- The loop invariant of the path walk of `step_5`: `(ic, jc)` is the primed cell
the walk stands on, `PL0` lists the primed cells before it and `SL` the starred
cells collected so far. -/
structure WalkInv {n : Nat} (p : Problem n) (t : Fin n → Nat) (ic jc : Fin n)
    (PL0 SL : List (Fin n × Fin n)) : Prop where
  cur_prime : p.P ic jc = true
  primed : ∀ x ∈ PL0, p.P x.1 x.2 = true
  starred : ∀ x ∈ SL, p.S x.1 x.2 = true
  rank_lt : ∀ x ∈ PL0, t ic < t x.1
  col_stars : ∀ x ∈ PL0, ∀ k, p.S k x.2 = true → (k, x.2) ∈ SL
  row_stars : ∀ x ∈ PL0, ∀ k, p.S x.1 k = true → (x.1, k) ∈ SL
  cur_row_stars : ∀ k, p.S ic k = true → (ic, k) ∈ SL
  star_row_prime : ∀ x ∈ SL, ∃ k, (x.1, k) ∈ PL0 ∨ (x.1 = ic ∧ k = jc)
  star_col_prime : ∀ x ∈ SL, ∃ k, (k, x.2) ∈ PL0
  col_has_star : ∀ x ∈ PL0, ∃ r, p.S r x.2 = true ∧ t ic ≤ t r
  cur_col_new : ∀ x ∈ PL0, x.2 ≠ jc
  rows_inj : ∀ x ∈ PL0, ∀ y ∈ PL0, x.1 = y.1 → x = y
  cols_inj : ∀ x ∈ PL0, ∀ y ∈ PL0, x.2 = y.2 → x = y

/-- The invariant of a state in which `step` is about to run the given step. -/
def PhaseInv {n : Nat} (p : Problem n) : Step → Prop
  | Step.One => Clear p ∧ ∀ i j, p.S i j = false
  | Step.Two => Clear p ∧ ∀ i j, p.S i j = false
  | Step.Three => Clear p
  | Step.Four => SearchInv p ∧ ∃ t, RankInv p t
  | Step.Five => SearchInv p ∧ ∃ z, p.uncovered_prime_zero = some z ∧
      p.P z.1 z.2 = true ∧ p.is_covered_row z.1 = false ∧ (∀ j, p.S z.1 j = false) ∧
      ∃ t, RankInv p t ∧ t z.1 ≤ covered_row_count p
  | Step.Six => SearchInv p ∧ (∃ t, RankInv p t) ∧
      ∀ i j, p.is_covered_row i = false → p.is_covered_column j = false → p.C i j ≠ 0
  | Step.Done => ∀ j, ∃ i, p.S i j = true

/-- The invariant of the solver states. -/
def Inv {n : Nat} (p : Problem n) : Prop := StarInv p ∧ PhaseInv p p.current_step

/-- The states that a sequence of `step` calls reaches from the constructed state. -/
inductive Reachable {n : Nat} (M : Fin n → Fin n → Nat) : Problem n → Prop where
  | init : Reachable M (construct n M)
  | next (fuel : Nat) (p : Problem n) (r : Problem n × Bool) :
      Reachable M p → step fuel p = some r → Reachable M r.1

/-- Row and column potentials `u`, `v` of a state for the input matrix `M`: the
working matrix is `M` reduced by them, without any wrap-around. -/
structure PotInv {n : Nat} (M : Fin n → Fin n → Nat) (p : Problem n) (u v : Fin n → Int) :
    Prop where
  reduced : ∀ i j, (p.C i j : Int) = (M i j : Int) - u i - v j
  col_nonneg : ∀ j, 0 ≤ v j
  free_row_nonneg : ∀ i, (∀ j, p.S i j = false) → 0 ≤ u i

/-- The total cost of an assignment `a` of columns to the rows, for the matrix `M`;
an entry of `a` that is not a column index counts as zero. -/
def total_cost {n : Nat} (M : Fin n → Fin n → Nat) (a : Fin n → Nat) : Nat :=
  ∑ i : Fin n, if h : a i < n then M i ⟨a i, h⟩ else 0

/-- The number of `step` calls and of inner-loop iterations that always suffice for
a problem of size `n`. -/
def enough_fuel (n : Nat) : Nat := 2 * (n + 1) * (n + 3)

/-- The problem state with the given first-order form. -/
def of_snapshot (n : Nat) (s : Snapshot) : Problem n :=
  { C := of_rows 0 n s.cost
    S := of_rows false n s.stars
    P := of_rows false n s.primes
    is_covered_row := of_entries false n s.covered_rows
    is_covered_column := of_entries false n s.covered_columns
    uncovered_prime_zero := s.seed.bind fun z =>
      if h : z.1 < n ∧ z.2 < n then some (⟨z.1, h.1⟩, ⟨z.2, h.2⟩) else none
    current_step := s.current }

/-- The matrix obtained from `M` by adding `k` to every entry of column `j`. -/
def shift_column {n : Nat} (M : Fin n → Fin n → Nat) (j : Fin n) (k : Nat) :
    Fin n → Fin n → Nat :=
  fun r c => if c = j then M r c + k else M r c

/-- The matrix obtained from `M` by adding `k` to every entry of row `i`. -/
def shift_row {n : Nat} (M : Fin n → Fin n → Nat) (i : Fin n) (k : Nat) :
    Fin n → Fin n → Nat :=
  fun r c => if r = i then M r c + k else M r c

/-- The cost function of `tests/sources/worst_case.cpp`: `(i + 1) * (j + 1)` in
`unsigned int` arithmetic. -/
def worst_case_cost (i j : Nat) : Nat := ((i + 1) % 2 ^ 32 * ((j + 1) % 2 ^ 32)) % 2 ^ 32

/-- The table of the steps that may follow a step. -/
def allowed_next : Step → Step → Bool
  | Step.One, Step.Two => true
  | Step.Two, Step.Three => true
  | Step.Three, Step.Done => true
  | Step.Three, Step.Four => true
  | Step.Four, Step.Five => true
  | Step.Four, Step.Six => true
  | Step.Five, Step.Three => true
  | Step.Six, Step.Four => true
  | _, _ => false

/-- The number of covered columns. -/
def covered_column_count {n : Nat} (p : Problem n) : Nat :=
  (Finset.univ.filter fun j : Fin n => p.is_covered_column j = true).card

/-- The number of starred cells. -/
def star_count {n : Nat} (p : Problem n) : Nat :=
  (Finset.univ.filter fun x : Fin n × Fin n => p.S x.1 x.2 = true).card

/-- Whether row `i` of a mask holds a marked cell. -/
def row_has_mark {n : Nat} (mask : Fin n → Fin n → Bool) (i : Fin n) : Bool :=
  (List.finRange n).any fun k => mask i k

/-- Whether column `j` of a mask holds a marked cell. -/
def column_has_mark {n : Nat} (mask : Fin n → Fin n → Bool) (j : Fin n) : Bool :=
  (List.finRange n).any fun r => mask r j

/-- The procedure that the header documents for `step_2`, started on an empty star
mask: visit every cell of `C` in row-major order and star it if and only if it holds
zero and neither its row nor its column already contains a star. -/
def step_2_documented {n : Nat} (C : Fin n → Fin n → Nat) : Fin n → Fin n → Bool :=
  (List.finRange n).foldl
    (fun S i => (List.finRange n).foldl
      (fun S j =>
        if C i j = 0 ∧ row_has_mark S i = false ∧ column_has_mark S j = false then
          write2 S i j true
        else S) S)
    (fun _ _ => false)

/-- The calls of `find_primed_zero_in_row` that the path walk of `step_5` makes when
it starts in column `j`: the row passed to each call and the result of the call, in
the order of the calls. -/
def step_5_walk_calls {n : Nat} : Nat → Problem n → Fin n → List (Fin n × Option (Fin n))
  | 0, _, _ => []
  | fuel + 1, p, j =>
    match find_starred_zero_in_column p j with
    | none => []
    | some i =>
      (i, find_primed_zero_in_row p i) ::
        step_5_walk_calls fuel p ((find_primed_zero_in_row p i).getD j)

/-- An upper bound on the number of `step` calls a state still needs to reach
`Done`; it decreases with every call. -/
def steps_left {n : Nat} (p : Problem n) : Nat :=
  match p.current_step with
  | Step.Done => 0
  | Step.One => n * (2 * n + 6) + 2 * n + 6
  | Step.Two => n * (2 * n + 6) + 2 * n + 5
  | Step.Three => free_column_count p * (2 * n + 6) + 2 * n + 4
  | Step.Four => free_column_count p * (2 * n + 6) + 2 * (n - covered_row_count p) +
      (if (find_uncovered_zero p).isSome = true then 0 else 2)
  | Step.Five => free_column_count p * (2 * n + 6) - 1
  | Step.Six => free_column_count p * (2 * n + 6) + 2 * (n - covered_row_count p) + 1

/-- The loop invariant of `step_2`: stars sit on zeros in columns recorded as
starred, and no line holds two of them. -/
structure Step2Inv {n : Nat} (p : Problem n) (acc : (Fin n → Fin n → Bool) × (Fin n → Bool)) :
    Prop where
  zero : ∀ i j, acc.1 i j = true → p.C i j = 0
  recorded : ∀ i j, acc.1 i j = true → acc.2 j = true
  row : ∀ i j k, acc.1 i j = true → acc.1 i k = true → j = k
  col : ∀ i k j, acc.1 i j = true → acc.1 k j = true → i = k

/-- A cost matrix of `unsigned int` entries on which an addition of step 6 wraps
around. -/
def overflow_matrix : Fin 4 → Fin 4 → Nat := of_rows 0 4
  [[1, 1, 0, 1], [0, 0, 4294967295, 0], [1, 1, 0, 4294967295], [1, 1, 0, 1]]

def overflow_state_1 : Snapshot :=
  Snapshot.mk
    [[1, 1, 0, 1], [0, 0, 4294967295, 0], [1, 1, 0, 4294967295], [1, 1, 0, 1]]
    [[false, false, false, false], [false, false, false, false], [false, false, false, false], [false, false, false, false]]
    [[false, false, false, false], [false, false, false, false], [false, false, false, false], [false, false, false, false]]
    [false, false, false, false] [false, false, false, false]
    none Step.Two

def overflow_state_2 : Snapshot :=
  Snapshot.mk
    [[1, 1, 0, 1], [0, 0, 4294967295, 0], [1, 1, 0, 4294967295], [1, 1, 0, 1]]
    [[false, false, true, false], [true, false, false, false], [false, false, false, false], [false, false, false, false]]
    [[false, false, false, false], [false, false, false, false], [false, false, false, false], [false, false, false, false]]
    [false, false, false, false] [false, false, false, false]
    none Step.Three

def overflow_state_3 : Snapshot :=
  Snapshot.mk
    [[1, 1, 0, 1], [0, 0, 4294967295, 0], [1, 1, 0, 4294967295], [1, 1, 0, 1]]
    [[false, false, true, false], [true, false, false, false], [false, false, false, false], [false, false, false, false]]
    [[false, false, false, false], [false, false, false, false], [false, false, false, false], [false, false, false, false]]
    [false, false, false, false] [true, false, true, false]
    none Step.Four

def overflow_state_4 : Snapshot :=
  Snapshot.mk
    [[1, 1, 0, 1], [0, 0, 4294967295, 0], [1, 1, 0, 4294967295], [1, 1, 0, 1]]
    [[false, false, true, false], [true, false, false, false], [false, false, false, false], [false, false, false, false]]
    [[false, false, false, false], [false, true, false, false], [false, false, false, false], [false, false, false, false]]
    [false, true, false, false] [false, false, true, false]
    none Step.Six

def overflow_state_5 : Snapshot :=
  Snapshot.mk
    [[0, 0, 0, 0], [0, 0, 0, 0], [0, 0, 0, 4294967294], [0, 0, 0, 0]]
    [[false, false, true, false], [true, false, false, false], [false, false, false, false], [false, false, false, false]]
    [[false, false, false, false], [false, true, false, false], [false, false, false, false], [false, false, false, false]]
    [false, true, false, false] [false, false, true, false]
    none Step.Four

def overflow_state_6 : Snapshot :=
  Snapshot.mk
    [[0, 0, 0, 0], [0, 0, 0, 0], [0, 0, 0, 4294967294], [0, 0, 0, 0]]
    [[false, false, true, false], [true, false, false, false], [false, false, false, false], [false, false, false, false]]
    [[true, false, false, false], [false, true, false, false], [true, false, false, false], [false, false, false, false]]
    [true, true, false, false] [false, false, false, false]
    (some (2, 0)) Step.Five

def overflow_state_7 : Snapshot :=
  Snapshot.mk
    [[0, 0, 0, 0], [0, 0, 0, 0], [0, 0, 0, 4294967294], [0, 0, 0, 0]]
    [[false, false, true, false], [false, true, false, false], [true, false, false, false], [false, false, false, false]]
    [[false, false, false, false], [false, false, false, false], [false, false, false, false], [false, false, false, false]]
    [false, false, false, false] [false, false, false, false]
    (some (2, 0)) Step.Three

def overflow_state_8 : Snapshot :=
  Snapshot.mk
    [[0, 0, 0, 0], [0, 0, 0, 0], [0, 0, 0, 4294967294], [0, 0, 0, 0]]
    [[false, false, true, false], [false, true, false, false], [true, false, false, false], [false, false, false, false]]
    [[false, false, false, false], [false, false, false, false], [false, false, false, false], [false, false, false, false]]
    [false, false, false, false] [true, true, true, false]
    (some (2, 0)) Step.Four

def overflow_state_9 : Snapshot :=
  Snapshot.mk
    [[0, 0, 0, 0], [0, 0, 0, 0], [0, 0, 0, 4294967294], [0, 0, 0, 0]]
    [[false, false, true, false], [false, true, false, false], [true, false, false, false], [false, false, false, false]]
    [[false, false, false, true], [false, false, true, false], [false, true, false, false], [true, false, false, false]]
    [true, true, true, false] [false, false, false, false]
    (some (3, 0)) Step.Five

def overflow_state_10 : Snapshot :=
  Snapshot.mk
    [[0, 0, 0, 0], [0, 0, 0, 0], [0, 0, 0, 4294967294], [0, 0, 0, 0]]
    [[false, false, false, true], [false, false, true, false], [false, true, false, false], [true, false, false, false]]
    [[false, false, false, false], [false, false, false, false], [false, false, false, false], [false, false, false, false]]
    [false, false, false, false] [false, false, false, false]
    (some (3, 0)) Step.Three

def overflow_state_11 : Snapshot :=
  Snapshot.mk
    [[0, 0, 0, 0], [0, 0, 0, 0], [0, 0, 0, 4294967294], [0, 0, 0, 0]]
    [[false, false, false, true], [false, false, true, false], [false, true, false, false], [true, false, false, false]]
    [[false, false, false, false], [false, false, false, false], [false, false, false, false], [false, false, false, false]]
    [false, false, false, false] [true, true, true, true]
    (some (3, 0)) Step.Done

/-- A two by two cost matrix whose run visits every step. -/
def example_matrix : Fin 2 → Fin 2 → Nat := of_rows 0 2 [[1, 0], [1, 0]]

/-- The two by two cost matrix of zeros. -/
def zero_matrix : Fin 2 → Fin 2 → Nat := of_rows 0 2 [[0, 0], [0, 0]]

def example_state_1 : Snapshot :=
  Snapshot.mk
    [[1, 0], [1, 0]]
    [[false, false], [false, false]]
    [[false, false], [false, false]]
    [false, false] [false, false]
    none Step.Two

def example_state_2 : Snapshot :=
  Snapshot.mk
    [[1, 0], [1, 0]]
    [[false, true], [false, false]]
    [[false, false], [false, false]]
    [false, false] [false, false]
    none Step.Three

def example_state_3 : Snapshot :=
  Snapshot.mk
    [[1, 0], [1, 0]]
    [[false, true], [false, false]]
    [[false, false], [false, false]]
    [false, false] [false, true]
    none Step.Four

def example_state_4 : Snapshot :=
  Snapshot.mk
    [[1, 0], [1, 0]]
    [[false, true], [false, false]]
    [[false, false], [false, false]]
    [false, false] [false, true]
    none Step.Six

def example_state_5 : Snapshot :=
  Snapshot.mk
    [[0, 0], [0, 0]]
    [[false, true], [false, false]]
    [[false, false], [false, false]]
    [false, false] [false, true]
    none Step.Four

def example_state_6 : Snapshot :=
  Snapshot.mk
    [[0, 0], [0, 0]]
    [[false, true], [false, false]]
    [[true, false], [true, false]]
    [true, false] [false, false]
    (some (1, 0)) Step.Five

def example_state_7 : Snapshot :=
  Snapshot.mk
    [[0, 0], [0, 0]]
    [[false, true], [true, false]]
    [[false, false], [false, false]]
    [false, false] [false, false]
    (some (1, 0)) Step.Three

def example_state_8 : Snapshot :=
  Snapshot.mk
    [[0, 0], [0, 0]]
    [[false, true], [true, false]]
    [[false, false], [false, false]]
    [false, false] [true, true]
    (some (1, 0)) Step.Done

/-! ## Unsigned arithmetic -/

theorem add_assign_to_int (x v : Nat) : add_assign x (to_int v) = (x + v) % 2 ^ 32 := by
  unfold add_assign to_int
  split <;> omega

theorem add_assign_lt (x : Nat) (v : Int) : add_assign x v < 2 ^ 32 := by
  unfold add_assign
  omega

theorem add_assign_neg (x m : Nat) (hx : x < 2 ^ 32) (hm : m ≤ x) :
    add_assign x (to_int (neg_one_times m)) = x - m := by
  rw [add_assign_to_int]
  unfold neg_one_times
  omega

theorem add_assign_add_neg (x m : Nat) (hx : x < 2 ^ 32) :
    add_assign (add_assign x (to_int m)) (to_int (neg_one_times m)) = x := by
  rw [add_assign_to_int, add_assign_to_int]
  unfold neg_one_times
  omega

/-! ## Buffers -/

@[simp] theorem write1_apply {n : Nat} {α : Type} (f : Fin n → α) (i : Fin n) (v : α)
    (k : Fin n) : write1 f i v k = if k = i then v else f k := rfl

@[simp] theorem write2_apply {n : Nat} {α : Type} (f : Fin n → Fin n → α) (i j : Fin n)
    (v : α) (r c : Fin n) : write2 f i j v r c = if r = i ∧ c = j then v else f r c := rfl

/-! ## `add_to_row`, `add_to_column` -/

theorem add_to_row_loop {n : Nat} (i : Fin n) (v : Int) (l : List (Fin n)) (hl : l.Nodup)
    (p : Problem n) :
    l.foldl (fun q j => { q with C := write2 q.C i j (add_assign (q.C i j) v) }) p =
      { p with C := fun r c => if r = i ∧ c ∈ l then add_assign (p.C r c) v else p.C r c } := by
  induction l generalizing p with
  | nil => simp
  | cons a l ih =>
    rw [List.nodup_cons] at hl
    rw [List.foldl_cons, ih hl.2]
    congr 1
    funext r c
    by_cases hr : r = i
    · by_cases hc : c = a
      · subst hr hc
        simp [hl.1]
      · by_cases hcl : c ∈ l <;> simp [hr, hc, hcl]
    · simp [hr]

theorem add_to_row_eq {n : Nat} (p : Problem n) (i : Fin n) (v : Int) :
    add_to_row p i v =
      { p with C := fun r c => if r = i then add_assign (p.C r c) v else p.C r c } := by
  unfold add_to_row
  rw [add_to_row_loop i v _ (List.nodup_finRange n)]
  simp [List.mem_finRange]

theorem add_to_column_loop {n : Nat} (j : Fin n) (v : Int) (l : List (Fin n)) (hl : l.Nodup)
    (p : Problem n) :
    l.foldl (fun q i => { q with C := write2 q.C i j (add_assign (q.C i j) v) }) p =
      { p with C := fun r c => if r ∈ l ∧ c = j then add_assign (p.C r c) v else p.C r c } := by
  induction l generalizing p with
  | nil => simp
  | cons a l ih =>
    rw [List.nodup_cons] at hl
    rw [List.foldl_cons, ih hl.2]
    congr 1
    funext r c
    by_cases hc : c = j
    · by_cases hr : r = a
      · subst hr hc
        simp [hl.1]
      · by_cases hrl : r ∈ l <;> simp [hr, hc, hrl]
    · simp [hc]

theorem add_to_column_eq {n : Nat} (p : Problem n) (j : Fin n) (v : Int) :
    add_to_column p j v =
      { p with C := fun r c => if c = j then add_assign (p.C r c) v else p.C r c } := by
  unfold add_to_column
  rw [add_to_column_loop j v _ (List.nodup_finRange n)]
  simp [List.mem_finRange]

/-! ## Minima -/

theorem foldl_min_spec {α : Type} (f : α → Nat) (c : α → Bool) (l : List α) (a : Nat) :
    let r := l.foldl (fun m j => if c j then m else if f j < m then f j else m) a
    r ≤ a ∧ (∀ j ∈ l, c j = false → r ≤ f j) ∧
      (r = a ∨ ∃ j ∈ l, c j = false ∧ r = f j) := by
  induction l generalizing a with
  | nil => simp
  | cons x l ih =>
    simp only [List.foldl_cons]
    by_cases hc : c x = true
    · simp only [hc, if_true]
      obtain ⟨h1, h2, h3⟩ := ih a
      refine ⟨h1, ?_, ?_⟩
      · intro j hj hcj
        rcases List.mem_cons.1 hj with rfl | hj
        · simp [hc] at hcj
        · exact h2 j hj hcj
      · rcases h3 with h3 | ⟨j, hj, hcj, h3⟩
        · exact Or.inl h3
        · exact Or.inr ⟨j, List.mem_cons_of_mem _ hj, hcj, h3⟩
    · have hc2 : c x = false := by simpa using hc
      simp only [hc2, Bool.false_eq_true, if_false]
      by_cases hlt : f x < a
      · simp only [hlt, if_true]
        obtain ⟨h1, h2, h3⟩ := ih (f x)
        refine ⟨by omega, ?_, ?_⟩
        · intro j hj hcj
          rcases List.mem_cons.1 hj with rfl | hj
          · exact h1
          · exact h2 j hj hcj
        · rcases h3 with h3 | ⟨j, hj, hcj, h3⟩
          · exact Or.inr ⟨x, List.mem_cons_self _ _, hc2, h3⟩
          · exact Or.inr ⟨j, List.mem_cons_of_mem _ hj, hcj, h3⟩
      · simp only [hlt, if_false]
        obtain ⟨h1, h2, h3⟩ := ih a
        refine ⟨h1, ?_, ?_⟩
        · intro j hj hcj
          rcases List.mem_cons.1 hj with rfl | hj
          · omega
          · exact h2 j hj hcj
        · rcases h3 with h3 | ⟨j, hj, hcj, h3⟩
          · exact Or.inl h3
          · exact Or.inr ⟨j, List.mem_cons_of_mem _ hj, hcj, h3⟩

theorem minimum_in_row_le {n : Nat} (p : Problem n) (i j : Fin n) :
    minimum_in_row p i ≤ p.C i j := by
  have h := foldl_min_spec (fun j => p.C i j) (fun _ => false)
    ((List.finRange n).filter fun j => decide (1 ≤ j.val)) (p.C i ⟨0, Fin.pos i⟩)
  simp only [if_false, Bool.false_eq_true] at h
  obtain ⟨h1, h2, -⟩ := h
  by_cases hj : 1 ≤ j.val
  · exact h2 j (by simp [List.mem_filter, List.mem_finRange, hj]) trivial
  · have : j = ⟨0, Fin.pos i⟩ := by
      apply Fin.ext
      simp only
      omega
    rw [this]
    exact h1

theorem minimum_in_row_attained {n : Nat} (p : Problem n) (i : Fin n) :
    ∃ j, minimum_in_row p i = p.C i j := by
  have h := foldl_min_spec (fun j => p.C i j) (fun _ => false)
    ((List.finRange n).filter fun j => decide (1 ≤ j.val)) (p.C i ⟨0, Fin.pos i⟩)
  simp only [if_false, Bool.false_eq_true] at h
  obtain ⟨-, -, h3⟩ := h
  rcases h3 with h3 | ⟨j, -, -, h3⟩
  · exact ⟨_, h3⟩
  · exact ⟨j, h3⟩

theorem minimum_in_row_congr {n : Nat} (p q : Problem n) (i : Fin n)
    (h : ∀ c, q.C i c = p.C i c) : minimum_in_row q i = minimum_in_row p i := by
  unfold minimum_in_row
  simp only [h]

theorem foldl_min2_spec {α : Type} (f : α → α → Nat) (rc cc : α → Bool) (l : List α)
    (L : List α) (a : Nat) :
    let r := L.foldl (fun m i => if rc i then m else
      l.foldl (fun m j => if cc j then m else if f i j < m then f i j else m) m) a
    r ≤ a ∧ (∀ i ∈ L, rc i = false → ∀ j ∈ l, cc j = false → r ≤ f i j) ∧
      (r = a ∨ ∃ i ∈ L, ∃ j ∈ l, rc i = false ∧ cc j = false ∧ r = f i j) := by
  induction L generalizing a with
  | nil => simp
  | cons x L ih =>
    simp only [List.foldl_cons]
    by_cases hc : rc x = true
    · simp only [hc, if_true]
      obtain ⟨h1, h2, h3⟩ := ih a
      refine ⟨h1, ?_, ?_⟩
      · intro i hi hci
        rcases List.mem_cons.1 hi with rfl | hi
        · simp [hc] at hci
        · exact h2 i hi hci
      · rcases h3 with h3 | ⟨i, hi, h3⟩
        · exact Or.inl h3
        · exact Or.inr ⟨i, List.mem_cons_of_mem _ hi, h3⟩
    · have hc2 : rc x = false := by simpa using hc
      simp only [hc2, Bool.false_eq_true, if_false]
      obtain ⟨g1, g2, g3⟩ := foldl_min_spec (fun j => f x j) cc l a
      obtain ⟨h1, h2, h3⟩ := ih (l.foldl
        (fun m j => if cc j then m else if f x j < m then f x j else m) a)
      refine ⟨le_trans h1 g1, ?_, ?_⟩
      · intro i hi hci
        rcases List.mem_cons.1 hi with rfl | hi
        · intro j hj hcj
          exact le_trans h1 (g2 j hj hcj)
        · exact h2 i hi hci
      · rcases h3 with h3 | ⟨i, hi, h3⟩
        · rcases g3 with g3 | ⟨j, hj, hcj, g3⟩
          · exact Or.inl (h3.trans g3)
          · exact Or.inr ⟨x, List.mem_cons_self _ _, j, hj, hc2, hcj, h3.trans g3⟩
        · exact Or.inr ⟨i, List.mem_cons_of_mem _ hi, h3⟩

theorem minimum_uncovered_le_max {n : Nat} (p : Problem n) : minimum_uncovered p ≤ UINT_MAX :=
  (foldl_min2_spec p.C p.is_covered_row p.is_covered_column (List.finRange n)
    (List.finRange n) UINT_MAX).1

theorem minimum_uncovered_le {n : Nat} (p : Problem n) (i j : Fin n)
    (hi : p.is_covered_row i = false) (hj : p.is_covered_column j = false) :
    minimum_uncovered p ≤ p.C i j :=
  (foldl_min2_spec p.C p.is_covered_row p.is_covered_column (List.finRange n)
    (List.finRange n) UINT_MAX).2.1 i (List.mem_finRange i) hi j (List.mem_finRange j) hj

theorem minimum_uncovered_attained {n : Nat} (p : Problem n) :
    minimum_uncovered p = UINT_MAX ∨ ∃ i j, p.is_covered_row i = false ∧
      p.is_covered_column j = false ∧ minimum_uncovered p = p.C i j := by
  rcases (foldl_min2_spec p.C p.is_covered_row p.is_covered_column (List.finRange n)
    (List.finRange n) UINT_MAX).2.2 with h | ⟨i, -, j, -, h⟩
  · exact Or.inl h
  · exact Or.inr ⟨i, j, h⟩

/-! ## Searches -/

theorem find_uncovered_zero_some {n : Nat} (p : Problem n) (i j : Fin n)
    (h : find_uncovered_zero p = some (i, j)) :
    p.is_covered_row i = false ∧ p.is_covered_column j = false ∧ p.C i j = 0 := by
  unfold find_uncovered_zero at h
  obtain ⟨a, -, ha⟩ := List.exists_of_findSome?_eq_some h
  by_cases hr : p.is_covered_row a = true
  · simp [hr] at ha
  · simp only [hr, if_false, Bool.false_eq_true] at ha
    obtain ⟨b, -, hb⟩ := List.exists_of_findSome?_eq_some ha
    by_cases hc : p.is_covered_column b = true
    · simp [hc] at hb
    · simp only [hc, if_false, Bool.false_eq_true] at hb
      by_cases hz : p.C a b = 0
      · simp only [hz, if_true, Option.some.injEq, Prod.mk.injEq] at hb
        obtain ⟨rfl, rfl⟩ := hb
        exact ⟨by simpa using hr, by simpa using hc, hz⟩
      · simp [hz] at hb

theorem find_uncovered_zero_none {n : Nat} (p : Problem n)
    (h : find_uncovered_zero p = none) (i j : Fin n)
    (hi : p.is_covered_row i = false) (hj : p.is_covered_column j = false) :
    p.C i j ≠ 0 := by
  unfold find_uncovered_zero at h
  rw [List.findSome?_eq_none_iff] at h
  have h1 := h i (List.mem_finRange i)
  simp only [hi, Bool.false_eq_true, if_false] at h1
  rw [List.findSome?_eq_none_iff] at h1
  have h2 := h1 j (List.mem_finRange j)
  simp only [hj, Bool.false_eq_true, if_false] at h2
  intro hz
  simp [hz] at h2

theorem find_uncovered_zero_isSome {n : Nat} (p : Problem n) (i j : Fin n)
    (hi : p.is_covered_row i = false) (hj : p.is_covered_column j = false)
    (hz : p.C i j = 0) : ∃ z, find_uncovered_zero p = some z := by
  cases h : find_uncovered_zero p with
  | none => exact absurd hz (find_uncovered_zero_none p h i j hi hj)
  | some z => exact ⟨z, rfl⟩

theorem mem_takeWhile_le_of_sorted {n : Nat} (l : List (Fin n)) (hl : l.Pairwise (· < ·))
    (x : Fin n) (hx : x ∈ l) : x ∈ l.takeWhile fun i => decide (i ≤ x) := by
  induction l with
  | nil => simp at hx
  | cons a t ih =>
    rw [List.pairwise_cons] at hl
    rcases List.mem_cons.1 hx with rfl | hxt
    · simp [List.takeWhile_cons]
    · have hax : a ≤ x := le_of_lt (hl.1 x hxt)
      simp only [List.takeWhile_cons, hax, decide_True, if_true]
      exact List.mem_cons_of_mem _ (ih hl.2 hxt)

theorem column_has_row_eq {n : Nat} (mask : Fin n → Fin n → Bool) (row_index j : Fin n) :
    column_has_row mask row_index j = mask row_index j := by
  unfold column_has_row
  cases hm : mask row_index j with
  | false =>
    rw [List.any_eq_false]
    intro x _
    by_cases hx : x = row_index
    · subst hx; simp [hm]
    · simp [hx]
  | true =>
    rw [List.any_eq_true]
    refine ⟨row_index, ?_, by simp [hm]⟩
    exact mem_takeWhile_le_of_sorted _ (List.pairwise_lt_finRange n) _ (List.mem_finRange _)

theorem find_starred_zero_in_row_some {n : Nat} (p : Problem n) (i j : Fin n)
    (h : find_starred_zero_in_row p i = some j) : p.S i j = true := by
  unfold find_starred_zero_in_row at h
  have := List.find?_some h
  rwa [column_has_row_eq] at this

theorem find_starred_zero_in_row_none {n : Nat} (p : Problem n) (i : Fin n)
    (h : find_starred_zero_in_row p i = none) (j : Fin n) : p.S i j = false := by
  unfold find_starred_zero_in_row at h
  rw [List.find?_eq_none] at h
  have := h j (List.mem_finRange j)
  rw [column_has_row_eq] at this
  simpa using this

theorem find_primed_zero_in_row_some {n : Nat} (p : Problem n) (i j : Fin n)
    (h : find_primed_zero_in_row p i = some j) : p.P i j = true := by
  unfold find_primed_zero_in_row at h
  have := List.find?_some h
  rwa [column_has_row_eq] at this

theorem find_primed_zero_in_row_none {n : Nat} (p : Problem n) (i : Fin n)
    (h : find_primed_zero_in_row p i = none) (j : Fin n) : p.P i j = false := by
  unfold find_primed_zero_in_row at h
  rw [List.find?_eq_none] at h
  have := h j (List.mem_finRange j)
  rw [column_has_row_eq] at this
  simpa using this

theorem find_starred_zero_in_column_some {n : Nat} (p : Problem n) (i j : Fin n)
    (h : find_starred_zero_in_column p j = some i) : p.S i j = true := by
  unfold find_starred_zero_in_column at h
  have := List.find?_some h
  simpa using this

theorem find_starred_zero_in_column_none {n : Nat} (p : Problem n) (j : Fin n)
    (h : find_starred_zero_in_column p j = none) (i : Fin n) : p.S i j = false := by
  unfold find_starred_zero_in_column at h
  rw [List.find?_eq_none] at h
  simpa using h i (List.mem_finRange i)

/-! ## Closed forms of the steps that change the cost matrix -/

theorem step_1_loop {n : Nat} (l : List (Fin n)) (hl : l.Nodup) (p : Problem n) :
    l.foldl (fun q i => add_to_row q i (to_int (neg_one_times (minimum_in_row q i)))) p =
      { p with C := fun r c =>
          if r ∈ l then add_assign (p.C r c) (to_int (neg_one_times (minimum_in_row p r)))
          else p.C r c } := by
  induction l generalizing p with
  | nil => simp
  | cons a l ih =>
    rw [List.nodup_cons] at hl
    rw [List.foldl_cons, ih hl.2, add_to_row_eq]
    congr 1
    funext r c
    by_cases hr : r = a
    · subst hr
      simp [hl.1]
    · by_cases hrl : r ∈ l
      · have hm : minimum_in_row
            { p with C := fun r c =>
                if r = a then
                  add_assign (p.C r c) (to_int (neg_one_times (minimum_in_row p a)))
                else p.C r c } r = minimum_in_row p r :=
          minimum_in_row_congr _ _ _ (fun c => by simp [hr])
        simp [hr, hrl, hm]
      · simp [hr, hrl]

theorem step_1_eq {n : Nat} (p : Problem n) :
    step_1 p =
      ({ p with C := fun r c =>
          add_assign (p.C r c) (to_int (neg_one_times (minimum_in_row p r))) }, Step.Two) := by
  unfold step_1
  rw [step_1_loop _ (List.nodup_finRange n)]
  simp [List.mem_finRange]

theorem step_1_C {n : Nat} (p : Problem n) (hb : ∀ i j, p.C i j < 2 ^ 32) (r c : Fin n) :
    (step_1 p).1.C r c = p.C r c - minimum_in_row p r := by
  rw [step_1_eq]
  exact add_assign_neg _ _ (hb r c) (minimum_in_row_le p r c)

theorem step_6_rows_loop {n : Nat} (m : Int) (l : List (Fin n)) (hl : l.Nodup)
    (p : Problem n) :
    l.foldl (fun q i => if q.is_covered_row i then add_to_row q i m else q) p =
      { p with C := fun r c =>
          if r ∈ l ∧ p.is_covered_row r = true then add_assign (p.C r c) m else p.C r c } := by
  induction l generalizing p with
  | nil => simp
  | cons a l ih =>
    rw [List.nodup_cons] at hl
    rw [List.foldl_cons, ih hl.2]
    by_cases ha : p.is_covered_row a = true
    · simp only [ha, if_true, add_to_row_eq]
      congr 1
      funext r c
      by_cases hr : r = a
      · subst hr
        simp [hl.1, ha]
      · simp [hr]
    · simp only [ha, if_false, Bool.false_eq_true]
      congr 1
      funext r c
      by_cases hr : r = a
      · subst hr
        simp [hl.1, ha]
      · simp [hr]

theorem step_6_columns_loop {n : Nat} (m : Int) (l : List (Fin n)) (hl : l.Nodup)
    (p : Problem n) :
    l.foldl (fun q j => if !q.is_covered_column j then add_to_column q j m else q) p =
      { p with C := fun r c =>
          if c ∈ l ∧ p.is_covered_column c = false then add_assign (p.C r c) m
          else p.C r c } := by
  induction l generalizing p with
  | nil => simp
  | cons a l ih =>
    rw [List.nodup_cons] at hl
    rw [List.foldl_cons, ih hl.2]
    by_cases ha : p.is_covered_column a = true
    · simp only [ha, Bool.not_true, if_false, Bool.false_eq_true]
      congr 1
      funext r c
      by_cases hc : c = a
      · subst hc
        simp [hl.1, ha]
      · simp [hc]
    · have ha2 : p.is_covered_column a = false := by simpa using ha
      simp only [ha2, Bool.not_false, if_true, add_to_column_eq]
      congr 1
      funext r c
      by_cases hc : c = a
      · subst hc
        simp [hl.1, ha2]
      · simp [hc]

theorem step_6_eq {n : Nat} (p : Problem n) :
    step_6 p =
      ({ p with C := fun r c =>
          if p.is_covered_row r = true then
            (if p.is_covered_column c = false then
              add_assign (add_assign (p.C r c) (to_int (minimum_uncovered p)))
                (to_int (neg_one_times (minimum_uncovered p)))
            else add_assign (p.C r c) (to_int (minimum_uncovered p)))
          else
            (if p.is_covered_column c = false then
              add_assign (p.C r c) (to_int (neg_one_times (minimum_uncovered p)))
            else p.C r c) },
       Step.Four) := by
  unfold step_6
  simp only
  rw [step_6_rows_loop _ _ (List.nodup_finRange n),
    step_6_columns_loop _ _ (List.nodup_finRange n)]
  congr 2
  funext r c
  by_cases hr : p.is_covered_row r = true <;> by_cases hc : p.is_covered_column c = true <;>
    simp [List.mem_finRange, hr, hc]

theorem step_6_C {n : Nat} (p : Problem n) (hb : ∀ i j, p.C i j < 2 ^ 32) (r c : Fin n) :
    (step_6 p).1.C r c =
      if p.is_covered_row r = true then
        (if p.is_covered_column c = true then (p.C r c + minimum_uncovered p) % 2 ^ 32
         else p.C r c)
      else
        (if p.is_covered_column c = true then p.C r c
         else p.C r c - minimum_uncovered p) := by
  rw [step_6_eq]
  by_cases hr : p.is_covered_row r = true
  · by_cases hc : p.is_covered_column c = true
    · simp [hr, hc, add_assign_to_int]
    · have hc2 : p.is_covered_column c = false := by simpa using hc
      simp only [hr, hc2, if_true, Bool.false_eq_true, if_false]
      exact add_assign_add_neg _ _ (hb r c)
  · have hr2 : p.is_covered_row r = false := by simpa using hr
    by_cases hc : p.is_covered_column c = true
    · simp [hr2, hc]
    · have hc2 : p.is_covered_column c = false := by simpa using hc
      simp only [hr2, hc2, if_true, Bool.false_eq_true, if_false]
      exact add_assign_neg _ _ (hb r c) (minimum_uncovered_le p r c hr2 hc2)

/-! ## Construction and step 1 -/

theorem inv_construct {n : Nat} (M : Fin n → Fin n → Nat) (hM : ∀ i j, M i j < 2 ^ 32) :
    Inv (construct n M) := by
  refine ⟨⟨hM, ?_, ?_, ?_, ?_⟩, ⟨⟨?_, ?_, ?_⟩, ?_⟩⟩ <;> intros <;> simp_all [construct]

theorem inv_step_1 {n : Nat} (p : Problem n) (_h1 : StarInv p) (h2 : PhaseInv p Step.One) :
    StarInv (step_1 p).1 ∧ PhaseInv (step_1 p).1 (step_1 p).2 := by
  obtain ⟨hc, hs⟩ := h2
  rw [step_1_eq]
  refine ⟨⟨?_, ?_, ?_, ?_, ?_⟩, ⟨⟨hc.no_prime, hc.no_row, hc.no_column⟩, hs⟩⟩
  · intro i j
    exact add_assign_lt _ _
  · intro i j k hj
    simp [hs] at hj
  · intro i k j hj
    simp [hs] at hj
  · intro i j hj
    simp [hs] at hj
  · intro i j hj
    simp [hc.no_prime] at hj

/-! ## Step 2 -/


theorem step_2_loop {n : Nat} (p : Problem n) (l : List (Fin n)) (hl : l.Nodup)
    (acc : (Fin n → Fin n → Bool) × (Fin n → Bool)) (h : Step2Inv p acc)
    (hfree : ∀ i ∈ l, ∀ j, acc.1 i j = false) :
    Step2Inv p (l.foldl
      (fun (acc : (Fin n → Fin n → Bool) × (Fin n → Bool)) i =>
        match (List.finRange n).find? fun j => !acc.2 j && decide (p.C i j = 0) with
        | some j => (write2 acc.1 i j true, write1 acc.2 j true)
        | none => acc) acc) := by
  induction l generalizing acc with
  | nil => simpa using h
  | cons a l ih =>
    rw [List.nodup_cons] at hl
    rw [List.foldl_cons]
    apply ih hl.2
    · cases hf : (List.finRange n).find? fun j => !acc.2 j && decide (p.C a j = 0) with
      | none => simpa using h
      | some j =>
        have hj := List.find?_some hf
        simp only [Bool.and_eq_true, Bool.not_eq_true', decide_eq_true_eq] at hj
        have ha : ∀ k, acc.1 a k = false := hfree a (List.mem_cons_self _ _)
        have hcol : ∀ i, acc.1 i j = false := by
          intro i
          by_contra hne
          have := h.recorded i j (by simpa using hne)
          simp [hj.1] at this
        refine ⟨?_, ?_, ?_, ?_⟩
        · intro i k hik
          simp only [write2_apply] at hik
          by_cases hc : i = a ∧ k = j
          · rw [hc.1, hc.2]; exact hj.2
          · rw [if_neg hc] at hik
            exact h.zero i k hik
        · intro i k hik
          simp only [write2_apply, write1_apply] at hik ⊢
          by_cases hk : k = j
          · simp [hk]
          · rw [if_neg (fun hc => hk hc.2)] at hik
            simp [hk, h.recorded i k hik]
        · intro i k1 k2 h1 h2
          simp only [write2_apply] at h1 h2
          by_cases hi : i = a
          · subst hi
            by_cases c1 : k1 = j
            · by_cases c2 : k2 = j
              · rw [c1, c2]
              · rw [if_neg (fun hc => c2 hc.2)] at h2
                simp [ha] at h2
            · rw [if_neg (fun hc => c1 hc.2)] at h1
              simp [ha] at h1
          · rw [if_neg (fun hc => hi hc.1)] at h1 h2
            exact h.row i k1 k2 h1 h2
        · intro i1 i2 k h1 h2
          simp only [write2_apply] at h1 h2
          by_cases hk : k = j
          · subst hk
            by_cases c1 : i1 = a
            · by_cases c2 : i2 = a
              · rw [c1, c2]
              · rw [if_neg (fun hc => c2 hc.1)] at h2
                simp [hcol] at h2
            · rw [if_neg (fun hc => c1 hc.1)] at h1
              simp [hcol] at h1
          · rw [if_neg (fun hc => hk hc.2)] at h1 h2
            exact h.col i1 i2 k h1 h2
    · intro i hi k
      have hia : i ≠ a := fun hc => hl.1 (hc ▸ hi)
      cases hf : (List.finRange n).find? fun j => !acc.2 j && decide (p.C a j = 0) with
      | none => simpa using hfree i (List.mem_cons_of_mem _ hi) k
      | some j =>
        simp only [write2_apply, hia, false_and, if_false]
        exact hfree i (List.mem_cons_of_mem _ hi) k

theorem inv_step_2 {n : Nat} (p : Problem n) (h1 : StarInv p) (h2 : PhaseInv p Step.Two) :
    StarInv (step_2 p).1 ∧ PhaseInv (step_2 p).1 (step_2 p).2 := by
  obtain ⟨hc, hs⟩ := h2
  have hloop := step_2_loop p (List.finRange n) (List.nodup_finRange n) (p.S, fun _ => false)
    ⟨fun i j hij => by simp [hs] at hij, fun i j hij => by simp [hs] at hij,
     fun i j k hij => by simp [hs] at hij, fun i k j hij => by simp [hs] at hij⟩
    (fun i _ j => hs i j)
  unfold step_2
  refine ⟨⟨h1.bounded, hloop.row, hloop.col, hloop.zero, h1.prime_zero⟩,
    ⟨hc.no_prime, hc.no_row, hc.no_column⟩⟩

/-! ## Step 3 -/

theorem find_starred_zero_in_column_isSome {n : Nat} (p : Problem n) (j : Fin n) :
    (find_starred_zero_in_column p j).isSome = true ↔ ∃ i, p.S i j = true := by
  constructor
  · intro h
    obtain ⟨i, hi⟩ := Option.isSome_iff_exists.1 h
    exact ⟨i, find_starred_zero_in_column_some p i j hi⟩
  · rintro ⟨i, hi⟩
    cases hf : find_starred_zero_in_column p j with
    | none =>
      have := find_starred_zero_in_column_none p j hf i
      simp [hi] at this
    | some k => rfl

theorem step_3_loop {n : Nat} (p : Problem n) (l : List (Fin n)) (acc : (Fin n → Bool) × Nat) :
    (∀ j, (l.foldl
      (fun (acc : (Fin n → Bool) × Nat) j =>
        match find_starred_zero_in_column p j with
        | some _ => (write1 acc.1 j true, acc.2 + 1)
        | none => acc) acc).1 j =
        (acc.1 j || (decide (j ∈ l) && (find_starred_zero_in_column p j).isSome))) ∧
    (l.foldl
      (fun (acc : (Fin n → Bool) × Nat) j =>
        match find_starred_zero_in_column p j with
        | some _ => (write1 acc.1 j true, acc.2 + 1)
        | none => acc) acc).2 =
      acc.2 + l.countP fun j => (find_starred_zero_in_column p j).isSome := by
  induction l generalizing acc with
  | nil => simp
  | cons a l ih =>
    rw [List.foldl_cons]
    cases hf : find_starred_zero_in_column p a with
    | none =>
      obtain ⟨ih1, ih2⟩ := ih acc
      refine ⟨?_, ?_⟩
      · intro j
        rw [ih1 j]
        by_cases hja : j = a
        · subst hja; simp [hf]
        · simp [hja]
      · rw [ih2, List.countP_cons]
        simp [hf]
    | some i =>
      obtain ⟨ih1, ih2⟩ := ih (write1 acc.1 a true, acc.2 + 1)
      refine ⟨?_, ?_⟩
      · intro j
        rw [ih1 j]
        by_cases hja : j = a
        · subst hja; simp [hf]
        · simp [hja]
      · rw [ih2, List.countP_cons]
        simp [hf]
        omega

theorem step_3_covered {n : Nat} (p : Problem n) (hc : Clear p) (j : Fin n) :
    (step_3 p).1.is_covered_column j = true ↔ ∃ i, p.S i j = true := by
  have h : (step_3 p).1.is_covered_column j = (p.is_covered_column j ||
      (decide (j ∈ List.finRange n) && (find_starred_zero_in_column p j).isSome)) :=
    (step_3_loop p (List.finRange n) (p.is_covered_column, 0)).1 j
  rw [h]
  simp [hc.no_column, List.mem_finRange, find_starred_zero_in_column_isSome]

theorem step_3_done {n : Nat} (p : Problem n) :
    (step_3 p).2 = Step.Done ↔ ∀ j, ∃ i, p.S i j = true := by
  have h0 : (step_3 p).2 = if (0 + List.countP
      (fun j => (find_starred_zero_in_column p j).isSome) (List.finRange n)) = n
      then Step.Done else Step.Four := by
    rw [← (step_3_loop p (List.finRange n) (p.is_covered_column, 0)).2]
    rfl
  rw [h0]
  have hlen : (List.finRange n).length = n := List.length_finRange n
  have hiff : List.countP (fun j => (find_starred_zero_in_column p j).isSome)
      (List.finRange n) = (List.finRange n).length ↔
      ∀ j ∈ List.finRange n, (find_starred_zero_in_column p j).isSome = true :=
    List.countP_eq_length
  constructor
  · intro h
    split at h
    · rename_i heq
      have := hiff.1 (by omega)
      intro j
      exact (find_starred_zero_in_column_isSome p j).1 (this j (List.mem_finRange j))
    · cases h
  · intro h
    have := hiff.2 (fun j _ => (find_starred_zero_in_column_isSome p j).2 (h j))
    rw [if_pos (by omega)]

theorem step_3_phase {n : Nat} (p : Problem n) :
    (step_3 p).2 = Step.Done ∨ (step_3 p).2 = Step.Four := by
  unfold step_3
  simp only
  split
  · exact Or.inl rfl
  · exact Or.inr rfl

theorem covered_row_count_zero {n : Nat} (p : Problem n)
    (h : ∀ i, p.is_covered_row i = false) : covered_row_count p = 0 := by
  unfold covered_row_count
  simp [h]

theorem inv_step_3 {n : Nat} (p : Problem n) (h1 : StarInv p) (h2 : PhaseInv p Step.Three) :
    StarInv (step_3 p).1 ∧ PhaseInv (step_3 p).1 (step_3 p).2 := by
  have hc : Clear p := h2
  have hcov := step_3_covered p hc
  have hS : (step_3 p).1.S = p.S := rfl
  have hP : (step_3 p).1.P = p.P := rfl
  have hR : (step_3 p).1.is_covered_row = p.is_covered_row := rfl
  have hC : (step_3 p).1.C = p.C := rfl
  refine ⟨⟨h1.bounded, h1.star_row, h1.star_col, h1.star_zero, h1.prime_zero⟩, ?_⟩
  rcases step_3_phase p with hd | hf
  · rw [hd]
    exact (step_3_done p).1 hd
  · rw [hf]
    have hnd : ¬ ∀ j, ∃ i, p.S i j = true := by
      intro hall
      have := (step_3_done p).2 hall
      rw [hf] at this
      cases this
    push_neg at hnd
    obtain ⟨j0, hj0⟩ := hnd
    refine ⟨⟨⟨j0, fun i => by simpa using hj0 i⟩, ?_, ?_, ?_, ?_, ?_⟩, ⟨fun _ => 0, ?_, ?_⟩⟩
    · intro i j hij
      rw [hR, hc.no_row]
      have : (step_3 p).1.is_covered_column j = true := (hcov j).2 ⟨i, hij⟩
      simp [this]
    · intro j hj
      exact (hcov j).1 hj
    · intro i hi
      rw [hR, hc.no_row] at hi
      cases hi
    · intro i hi
      rw [hR, hc.no_row] at hi
      cases hi
    · intro i j hij
      rw [hP, hc.no_prime] at hij
      cases hij
    · intro i hi
      rw [hR, hc.no_row] at hi
      cases hi
    · intro i j k hij
      rw [hP, hc.no_prime] at hij
      cases hij

/-! ## Step 4 -/

theorem covered_row_count_le {n : Nat} (p : Problem n) : covered_row_count p ≤ n := by
  unfold covered_row_count
  calc (Finset.univ.filter fun i : Fin n => p.is_covered_row i = true).card
      ≤ (Finset.univ : Finset (Fin n)).card := Finset.card_filter_le _ _
    _ = n := by simp

theorem covered_row_count_cover {n : Nat} (p q : Problem n) (i : Fin n)
    (hi : p.is_covered_row i = false)
    (hq : q.is_covered_row = write1 p.is_covered_row i true) :
    covered_row_count q = covered_row_count p + 1 := by
  unfold covered_row_count
  have hset : (Finset.univ.filter fun r : Fin n => q.is_covered_row r = true) =
      insert i (Finset.univ.filter fun r : Fin n => p.is_covered_row r = true) := by
    ext r
    simp only [hq, write1_apply, Finset.mem_filter, Finset.mem_univ, true_and,
      Finset.mem_insert]
    by_cases hr : r = i <;> simp [hr]
  rw [hset, Finset.card_insert_of_not_mem]
  simp [hi]

theorem covered_row_count_lt {n : Nat} (p : Problem n) (i : Fin n)
    (hi : p.is_covered_row i = false) : covered_row_count p < n := by
  have h := covered_row_count_cover p
    { p with is_covered_row := write1 p.is_covered_row i true } i hi rfl
  have h2 := covered_row_count_le
    { p with is_covered_row := write1 p.is_covered_row i true }
  omega

theorem step_4_cover_inv {n : Nat} (p : Problem n) (i j k : Fin n) (t : Fin n → Nat)
    (h1 : StarInv p) (h2 : SearchInv p) (h3 : RankInv p t)
    (hi : p.is_covered_row i = false) (hj : p.is_covered_column j = false)
    (hz : p.C i j = 0) (hk : p.S i k = true) (q : Problem n)
    (hC : q.C = p.C) (hS : q.S = p.S) (hP : q.P = write2 p.P i j true)
    (hR : q.is_covered_row = write1 p.is_covered_row i true)
    (hCol : q.is_covered_column = write1 p.is_covered_column k false) :
    StarInv q ∧ SearchInv q ∧
      RankInv q (fun r => if r = i then covered_row_count p else t r) := by
  have hcount := covered_row_count_cover p q i hi hR
  have hjk : j ≠ k := by
    intro hjk
    subst hjk
    have := (h2.star_cover i j hk).2 hj
    simp [hi] at this
  refine ⟨⟨?_, ?_, ?_, ?_, ?_⟩, ⟨?_, ?_, ?_, ?_, ?_, ?_⟩, ⟨?_, ?_⟩⟩
  · rw [hC]; exact h1.bounded
  · rw [hS]; exact h1.star_row
  · rw [hS]; exact h1.star_col
  · rw [hS, hC]; exact h1.star_zero
  · intro a b hab
    rw [hP, write2_apply] at hab
    rw [hC]
    by_cases hc : a = i ∧ b = j
    · rw [hc.1, hc.2]; exact hz
    · rw [if_neg hc] at hab
      exact h1.prime_zero a b hab
  · rw [hS]; exact h2.free_column
  · intro a b hab
    rw [hS] at hab
    rw [hR, hCol, write1_apply, write1_apply]
    by_cases ha : a = i
    · subst ha
      have hbk : b = k := h1.star_row a b k hab hk
      simp [hbk]
    · have hbk : b ≠ k := by
        intro hbk
        subst hbk
        exact ha (h1.star_col a i b hab hk)
      simp only [ha, hbk, if_false]
      exact h2.star_cover a b hab
  · intro b hb
    rw [hCol, write1_apply] at hb
    rw [hS]
    by_cases hbk : b = k
    · simp [hbk] at hb
    · rw [if_neg hbk] at hb
      exact h2.column_star b hb
  · intro a ha
    rw [hR, write1_apply] at ha
    rw [hS]
    by_cases hai : a = i
    · subst hai; exact ⟨k, hk⟩
    · rw [if_neg hai] at ha
      exact h2.row_star a ha
  · intro a ha
    rw [hR, write1_apply] at ha
    rw [hP]
    by_cases hai : a = i
    · subst hai; exact ⟨j, by simp⟩
    · rw [if_neg hai] at ha
      obtain ⟨b, hb⟩ := h2.row_prime a ha
      exact ⟨b, by simp [hai, hb]⟩
  · intro a b hab
    rw [hP, write2_apply] at hab
    rw [hCol, write1_apply]
    by_cases hbk : b = k
    · simp [hbk]
    · rw [if_neg hbk]
      by_cases hc : a = i ∧ b = j
      · rw [hc.2]; exact hj
      · rw [if_neg hc] at hab
        exact h2.prime_column a b hab
  · intro a ha
    rw [hR, write1_apply] at ha
    rw [hcount]
    by_cases hai : a = i
    · simp [hai]
    · rw [if_neg hai] at ha
      have := h3.covered_lt a ha
      simp only [hai, if_false]
      omega
  · intro a b c hab hcb
    rw [hS] at hcb
    rw [hP, write2_apply] at hab
    have hb : p.is_covered_column b = false := by
      by_cases hc : a = i ∧ b = j
      · rw [hc.2]; exact hj
      · rw [if_neg hc] at hab
        exact h2.prime_column a b hab
    have hcov : p.is_covered_row c = true := (h2.star_cover c b hcb).2 hb
    have hci : c ≠ i := by
      intro hci
      rw [hci, hi] at hcov
      cases hcov
    simp only [hci, if_false]
    by_cases hai : a = i
    · simp only [hai, if_true]
      exact h3.covered_lt c hcov
    · simp only [hai, if_false]
      rw [if_neg (fun hc => hai hc.1)] at hab
      exact h3.star_lt a b c hab hcb

theorem step_4_seed_inv {n : Nat} (p : Problem n) (i j : Fin n) (t : Fin n → Nat)
    (h1 : StarInv p) (h2 : SearchInv p) (h3 : RankInv p t)
    (hi : p.is_covered_row i = false) (hj : p.is_covered_column j = false)
    (hz : p.C i j = 0) (hk : ∀ k, p.S i k = false) (q : Problem n)
    (hC : q.C = p.C) (hS : q.S = p.S) (hP : q.P = write2 p.P i j true)
    (hR : q.is_covered_row = p.is_covered_row)
    (hCol : q.is_covered_column = p.is_covered_column)
    (hZ : q.uncovered_prime_zero = some (i, j)) :
    StarInv q ∧ PhaseInv q Step.Five := by
  have hcount : covered_row_count q = covered_row_count p := by
    unfold covered_row_count
    rw [hR]
  refine ⟨⟨?_, ?_, ?_, ?_, ?_⟩, ⟨?_, ?_, ?_, ?_, ?_, ?_⟩, (i, j), hZ, ?_, ?_, ?_,
    (fun r => if r = i then covered_row_count p else t r), ⟨?_, ?_⟩, ?_⟩
  · rw [hC]; exact h1.bounded
  · rw [hS]; exact h1.star_row
  · rw [hS]; exact h1.star_col
  · rw [hS, hC]; exact h1.star_zero
  · intro a b hab
    rw [hP, write2_apply] at hab
    rw [hC]
    by_cases hc : a = i ∧ b = j
    · rw [hc.1, hc.2]; exact hz
    · rw [if_neg hc] at hab
      exact h1.prime_zero a b hab
  · rw [hS]; exact h2.free_column
  · rw [hS, hR, hCol]; exact h2.star_cover
  · rw [hS, hCol]; exact h2.column_star
  · rw [hS, hR]; exact h2.row_star
  · intro a ha
    rw [hR] at ha
    rw [hP]
    obtain ⟨b, hb⟩ := h2.row_prime a ha
    refine ⟨b, ?_⟩
    rw [write2_apply]
    split
    · rfl
    · exact hb
  · intro a b hab
    rw [hP, write2_apply] at hab
    rw [hCol]
    by_cases hc : a = i ∧ b = j
    · rw [hc.2]; exact hj
    · rw [if_neg hc] at hab
      exact h2.prime_column a b hab
  · rw [hP]; simp
  · rw [hR]; exact hi
  · rw [hS]; exact hk
  · intro a ha
    rw [hR] at ha
    rw [hcount]
    have hai : a ≠ i := by
      intro hai
      rw [hai, hi] at ha
      cases ha
    simp only [hai, if_false]
    exact h3.covered_lt a ha
  · intro a b c hab hcb
    rw [hS] at hcb
    rw [hP, write2_apply] at hab
    have hb : p.is_covered_column b = false := by
      by_cases hc : a = i ∧ b = j
      · rw [hc.2]; exact hj
      · rw [if_neg hc] at hab
        exact h2.prime_column a b hab
    have hcov : p.is_covered_row c = true := (h2.star_cover c b hcb).2 hb
    have hci : c ≠ i := by
      intro hci
      rw [hci, hi] at hcov
      cases hcov
    simp only [hci, if_false]
    by_cases hai : a = i
    · simp only [hai, if_true]
      exact h3.covered_lt c hcov
    · simp only [hai, if_false]
      rw [if_neg (fun hc => hai hc.1)] at hab
      exact h3.star_lt a b c hab hcb
  · simp [hcount]

theorem inv_step_4 {n : Nat} (fuel : Nat) (p : Problem n) (h1 : StarInv p)
    (h2 : PhaseInv p Step.Four) (r : Problem n × Step) (h : step_4 fuel p = some r) :
    StarInv r.1 ∧ PhaseInv r.1 r.2 := by
  induction fuel generalizing p with
  | zero => simp [step_4] at h
  | succ fuel ih =>
    obtain ⟨hs, t, ht⟩ := h2
    rw [step_4] at h
    cases hf : find_uncovered_zero p with
    | none =>
      rw [hf] at h
      simp only [Option.some.injEq] at h
      subst h
      exact ⟨h1, hs, ⟨t, ht⟩, find_uncovered_zero_none p hf⟩
    | some z =>
      obtain ⟨i, j⟩ := z
      rw [hf] at h
      simp only at h
      obtain ⟨hi, hj, hz⟩ := find_uncovered_zero_some p i j hf
      cases hg : find_starred_zero_in_row { p with P := write2 p.P i j true } i with
      | none =>
        rw [hg] at h
        simp only [Option.some.injEq] at h
        subst h
        exact step_4_seed_inv p i j t h1 hs ht hi hj hz
          (fun k => find_starred_zero_in_row_none _ i hg k) _ rfl rfl rfl rfl rfl rfl
      | some k =>
        rw [hg] at h
        simp only at h
        have hk : p.S i k = true := find_starred_zero_in_row_some _ i k hg
        obtain ⟨g1, g2, g3⟩ := step_4_cover_inv p i j k t h1 hs ht hi hj hz hk
          { p with P := write2 p.P i j true
                   is_covered_row := write1 p.is_covered_row i true
                   is_covered_column := write1 p.is_covered_column k false }
          rfl rfl rfl rfl rfl
        exact ih _ g1 ⟨g2, _, g3⟩ h

theorem step_4_isSome {n : Nat} (fuel : Nat) (p : Problem n)
    (hfuel : n - covered_row_count p < fuel) : ∃ r, step_4 fuel p = some r := by
  induction fuel generalizing p with
  | zero => omega
  | succ fuel ih =>
    rw [step_4]
    cases hf : find_uncovered_zero p with
    | none => exact ⟨_, rfl⟩
    | some z =>
      obtain ⟨i, j⟩ := z
      simp only
      obtain ⟨hi, -, -⟩ := find_uncovered_zero_some p i j hf
      cases hg : find_starred_zero_in_row { p with P := write2 p.P i j true } i with
      | none => exact ⟨_, rfl⟩
      | some k =>
        simp only
        apply ih
        have hlt := covered_row_count_lt p i hi
        have hc := covered_row_count_cover p
          { p with P := write2 p.P i j true
                   is_covered_row := write1 p.is_covered_row i true
                   is_covered_column := write1 p.is_covered_column k false } i hi rfl
        omega

theorem step_4_frame {n : Nat} (fuel : Nat) (p : Problem n) (r : Problem n × Step)
    (h : step_4 fuel p = some r) :
    r.1.C = p.C ∧ r.1.S = p.S ∧ (r.2 = Step.Five ∨ r.2 = Step.Six) ∧
      covered_row_count p ≤ covered_row_count r.1 ∧
      (r.2 = Step.Six → (find_uncovered_zero p).isSome = true →
        covered_row_count p < covered_row_count r.1) := by
  induction fuel generalizing p with
  | zero => simp [step_4] at h
  | succ fuel ih =>
    rw [step_4] at h
    cases hf : find_uncovered_zero p with
    | none =>
      rw [hf] at h
      simp only [Option.some.injEq] at h
      subst h
      simp
    | some z =>
      obtain ⟨i, j⟩ := z
      rw [hf] at h
      simp only at h
      obtain ⟨hi, -, -⟩ := find_uncovered_zero_some p i j hf
      cases hg : find_starred_zero_in_row { p with P := write2 p.P i j true } i with
      | none =>
        rw [hg] at h
        simp only [Option.some.injEq] at h
        subst h
        refine ⟨rfl, rfl, Or.inl rfl, le_refl _, ?_⟩
        intro hc
        cases hc
      | some k =>
        rw [hg] at h
        simp only at h
        obtain ⟨g1, g2, g3, g4, -⟩ := ih _ h
        have hc := covered_row_count_cover p
          { p with P := write2 p.P i j true
                   is_covered_row := write1 p.is_covered_row i true
                   is_covered_column := write1 p.is_covered_column k false } i hi rfl
        refine ⟨g1, g2, g3, by omega, ?_⟩
        intro _ _
        omega

/-! ## Step 6 -/

theorem step_6_fields {n : Nat} (p : Problem n) :
    (step_6 p).1.S = p.S ∧ (step_6 p).1.P = p.P ∧
      (step_6 p).1.is_covered_row = p.is_covered_row ∧
      (step_6 p).1.is_covered_column = p.is_covered_column ∧
      (step_6 p).1.uncovered_prime_zero = p.uncovered_prime_zero ∧
      (step_6 p).2 = Step.Four := by
  rw [step_6_eq]
  exact ⟨rfl, rfl, rfl, rfl, rfl, rfl⟩

theorem covered_row_count_congr {n : Nat} (p q : Problem n)
    (h : q.is_covered_row = p.is_covered_row) :
    covered_row_count q = covered_row_count p := by
  unfold covered_row_count
  rw [h]

theorem inv_step_6 {n : Nat} (p : Problem n) (h1 : StarInv p) (h2 : PhaseInv p Step.Six) :
    StarInv (step_6 p).1 ∧ PhaseInv (step_6 p).1 (step_6 p).2 := by
  obtain ⟨hs, ⟨t, ht⟩, -⟩ := h2
  obtain ⟨fS, fP, fR, fC, -, fn⟩ := step_6_fields p
  have hC := step_6_C p h1.bounded
  refine ⟨⟨?_, ?_, ?_, ?_, ?_⟩, ?_⟩
  · intro i j
    rw [hC]
    have := h1.bounded i j
    split
    · split
      · omega
      · exact this
    · split
      · exact this
      · omega
  · rw [fS]; exact h1.star_row
  · rw [fS]; exact h1.star_col
  · intro i j hij
    rw [fS] at hij
    rw [hC]
    have hz := h1.star_zero i j hij
    have hc := hs.star_cover i j hij
    by_cases hr : p.is_covered_row i = true
    · have := hc.1 hr
      simp [hr, this, hz]
    · simp [hr, hz]
  · intro i j hij
    rw [fP] at hij
    rw [hC]
    have hz := h1.prime_zero i j hij
    have hc := hs.prime_column i j hij
    by_cases hr : p.is_covered_row i = true
    · simp [hr, hc, hz]
    · simp [hr, hc, hz]
  · rw [fn]
    refine ⟨⟨?_, ?_, ?_, ?_, ?_, ?_⟩, t, ⟨?_, ?_⟩⟩
    · rw [fS]; exact hs.free_column
    · rw [fS, fR, fC]; exact hs.star_cover
    · rw [fS, fC]; exact hs.column_star
    · rw [fS, fR]; exact hs.row_star
    · rw [fP, fR]; exact hs.row_prime
    · rw [fP, fC]; exact hs.prime_column
    · rw [fR, covered_row_count_congr _ _ fR]; exact ht.covered_lt
    · rw [fP, fS]; exact ht.star_lt

theorem exists_uncovered_row {n : Nat} (p : Problem n) (h1 : StarInv p) (hs : SearchInv p) :
    ∃ i, p.is_covered_row i = false := by
  by_contra hall
  push_neg at hall
  have hcov : ∀ i, p.is_covered_row i = true := fun i => by simpa using hall i
  choose f hf using fun i => hs.row_star i (hcov i)
  have hinj : Function.Injective f := by
    intro a b hab
    have h1a := hf a
    have h1b := hf b
    rw [hab] at h1a
    exact h1.star_col a b (f b) h1a h1b
  have hsurj : Function.Surjective f := Finite.injective_iff_surjective.1 hinj
  obtain ⟨j0, hj0⟩ := hs.free_column
  obtain ⟨i, hi⟩ := hsurj j0
  have := hf i
  rw [hi, hj0 i] at this
  cases this

theorem exists_uncovered_column {n : Nat} (p : Problem n) (hs : SearchInv p) :
    ∃ j, p.is_covered_column j = false := by
  obtain ⟨j0, hj0⟩ := hs.free_column
  refine ⟨j0, ?_⟩
  by_contra hc
  obtain ⟨i, hi⟩ := hs.column_star j0 (by simpa using hc)
  rw [hj0 i] at hi
  cases hi

theorem minimum_uncovered_cell {n : Nat} (p : Problem n) (h1 : StarInv p)
    (hs : SearchInv p) :
    ∃ i j, p.is_covered_row i = false ∧ p.is_covered_column j = false ∧
      minimum_uncovered p = p.C i j := by
  rcases minimum_uncovered_attained p with h | h
  · obtain ⟨i, hi⟩ := exists_uncovered_row p h1 hs
    obtain ⟨j, hj⟩ := exists_uncovered_column p hs
    refine ⟨i, j, hi, hj, ?_⟩
    have hle := minimum_uncovered_le p i j hi hj
    have hb := h1.bounded i j
    unfold UINT_MAX at h
    omega
  · exact h

theorem step_6_uncovered_zero {n : Nat} (p : Problem n) (h1 : StarInv p)
    (hs : SearchInv p) : (find_uncovered_zero (step_6 p).1).isSome = true := by
  obtain ⟨i, j, hi, hj, hm⟩ := minimum_uncovered_cell p h1 hs
  obtain ⟨-, -, fR, fC, -, -⟩ := step_6_fields p
  have hC := step_6_C p h1.bounded i j
  simp only [hi, hj, Bool.false_eq_true, if_false] at hC
  obtain ⟨z, hz⟩ := find_uncovered_zero_isSome (step_6 p).1 i j (by rw [fR]; exact hi)
    (by rw [fC]; exact hj) (by rw [hC, hm]; omega)
  rw [hz]
  rfl

/-! ## Step 5 -/

theorem foldl_write2_mem {n : Nat} (v : Bool) (l : List (Fin n × Fin n))
    (S : Fin n → Fin n → Bool) (r c : Fin n) :
    l.foldl (fun S x => write2 S x.1 x.2 v) S r c = if (r, c) ∈ l then v else S r c := by
  induction l generalizing S with
  | nil => simp
  | cons a l ih =>
    rw [List.foldl_cons, ih]
    by_cases hm : (r, c) ∈ l
    · simp [hm]
    · by_cases ha : (r, c) = a
      · subst ha
        simp [hm]
      · have ha2 : ¬ (r = a.1 ∧ c = a.2) := fun h => ha (Prod.ext h.1 h.2)
        simp [hm, ha, ha2]

theorem find_primed_zero_in_row_isSome {n : Nat} (p : Problem n) (i j : Fin n)
    (h : p.P i j = true) : ∃ k, find_primed_zero_in_row p i = some k := by
  cases hf : find_primed_zero_in_row p i with
  | none =>
    have := find_primed_zero_in_row_none p i hf j
    rw [h] at this
    cases this
  | some k => exact ⟨k, rfl⟩

theorem walk_inv_init {n : Nat} (p : Problem n) (t : Fin n → Nat) (i0 j0 : Fin n)
    (hP : p.P i0 j0 = true) (hrow : ∀ j, p.S i0 j = false) :
    WalkInv p t i0 j0 [] [] := by
  refine ⟨hP, ?_, ?_, ?_, ?_, ?_, ?_, ?_, ?_, ?_, ?_, ?_, ?_⟩
  · intro x hx; simp at hx
  · intro x hx; simp at hx
  · intro x hx; simp at hx
  · intro x hx; simp at hx
  · intro x hx; simp at hx
  · intro k hk; rw [hrow k] at hk; cases hk
  · intro x hx; simp at hx
  · intro x hx; simp at hx
  · intro x hx; simp at hx
  · intro x hx; simp at hx
  · intro x hx; simp at hx
  · intro x hx; simp at hx

theorem walk_inv_next {n : Nat} (p : Problem n) (t : Fin n → Nat) (h1 : StarInv p)
    (hlt : ∀ i j k, p.P i j = true → p.S k j = true → t k < t i)
    (ic jc : Fin n) (PL0 SL : List (Fin n × Fin n)) (hw : WalkInv p t ic jc PL0 SL)
    (i2 j2 : Fin n) (hS : p.S i2 jc = true) (hP : p.P i2 j2 = true) :
    WalkInv p t i2 j2 (PL0 ++ [(ic, jc)]) (SL ++ [(i2, jc)]) := by
  have hr : t i2 < t ic := hlt ic jc i2 hw.cur_prime hS
  refine ⟨hP, ?_, ?_, ?_, ?_, ?_, ?_, ?_, ?_, ?_, ?_, ?_, ?_⟩
  · intro x hx
    rcases List.mem_append.1 hx with hx | hx
    · exact hw.primed x hx
    · simp only [List.mem_singleton] at hx
      subst hx
      exact hw.cur_prime
  · intro x hx
    rcases List.mem_append.1 hx with hx | hx
    · exact hw.starred x hx
    · simp only [List.mem_singleton] at hx
      subst hx
      exact hS
  · intro x hx
    rcases List.mem_append.1 hx with hx | hx
    · exact lt_trans hr (hw.rank_lt x hx)
    · simp only [List.mem_singleton] at hx
      subst hx
      exact hr
  · intro x hx k hk
    rcases List.mem_append.1 hx with hx | hx
    · exact List.mem_append_left _ (hw.col_stars x hx k hk)
    · simp only [List.mem_singleton] at hx
      subst hx
      have : k = i2 := h1.star_col k i2 jc hk hS
      subst this
      simp
  · intro x hx k hk
    rcases List.mem_append.1 hx with hx | hx
    · exact List.mem_append_left _ (hw.row_stars x hx k hk)
    · simp only [List.mem_singleton] at hx
      subst hx
      exact List.mem_append_left _ (hw.cur_row_stars k hk)
  · intro k hk
    have : k = jc := h1.star_row i2 k jc hk hS
    subst this
    simp
  · intro x hx
    rcases List.mem_append.1 hx with hx | hx
    · obtain ⟨k, hk⟩ := hw.star_row_prime x hx
      rcases hk with hk | ⟨hk1, hk2⟩
      · exact ⟨k, Or.inl (List.mem_append_left _ hk)⟩
      · refine ⟨jc, Or.inl ?_⟩
        rw [hk1]
        simp
    · simp only [List.mem_singleton] at hx
      subst hx
      exact ⟨j2, Or.inr ⟨rfl, rfl⟩⟩
  · intro x hx
    rcases List.mem_append.1 hx with hx | hx
    · obtain ⟨k, hk⟩ := hw.star_col_prime x hx
      exact ⟨k, List.mem_append_left _ hk⟩
    · simp only [List.mem_singleton] at hx
      subst hx
      exact ⟨ic, by simp⟩
  · intro x hx
    rcases List.mem_append.1 hx with hx | hx
    · obtain ⟨r, hr1, hr2⟩ := hw.col_has_star x hx
      exact ⟨r, hr1, by omega⟩
    · simp only [List.mem_singleton] at hx
      subst hx
      exact ⟨i2, hS, le_refl _⟩
  · intro x hx hxj
    have hstar : ∃ r, p.S r x.2 = true ∧ t i2 ≤ t r := by
      rcases List.mem_append.1 hx with hx | hx
      · obtain ⟨r, hr1, hr2⟩ := hw.col_has_star x hx
        exact ⟨r, hr1, by omega⟩
      · simp only [List.mem_singleton] at hx
        subst hx
        exact ⟨i2, hS, le_refl _⟩
    obtain ⟨r, hr1, hr2⟩ := hstar
    rw [hxj] at hr1
    have := hlt i2 j2 r hP hr1
    omega
  · intro x hx y hy hxy
    rcases List.mem_append.1 hx with hx | hx
    · rcases List.mem_append.1 hy with hy | hy
      · exact hw.rows_inj x hx y hy hxy
      · simp only [List.mem_singleton] at hy
        subst hy
        have := hw.rank_lt x hx
        have hxy2 : x.1 = ic := hxy
        rw [hxy2] at this
        omega
    · rcases List.mem_append.1 hy with hy | hy
      · simp only [List.mem_singleton] at hx
        subst hx
        have := hw.rank_lt y hy
        have hxy2 : ic = y.1 := hxy
        rw [← hxy2] at this
        omega
      · simp only [List.mem_singleton] at hx hy
        rw [hx, hy]
  · intro x hx y hy hxy
    rcases List.mem_append.1 hx with hx | hx
    · rcases List.mem_append.1 hy with hy | hy
      · exact hw.cols_inj x hx y hy hxy
      · simp only [List.mem_singleton] at hy
        subst hy
        exact absurd hxy (hw.cur_col_new x hx)
    · rcases List.mem_append.1 hy with hy | hy
      · simp only [List.mem_singleton] at hx
        subst hx
        exact absurd hxy.symm (hw.cur_col_new y hy)
      · simp only [List.mem_singleton] at hx hy
        rw [hx, hy]

theorem step_5_walk_sound {n : Nat} (fuel : Nat) (p : Problem n) (t : Fin n → Nat)
    (h1 : StarInv p) (hs : SearchInv p)
    (hlt : ∀ i j k, p.P i j = true → p.S k j = true → t k < t i)
    (ic jc : Fin n) (PL0 SL : List (Fin n × Fin n)) (hw : WalkInv p t ic jc PL0 SL)
    (res : List (Fin n × Fin n) × List (Fin n × Fin n))
    (h : step_5_walk fuel p jc (PL0 ++ [(ic, jc)]) SL = some res) :
    ∃ ie je PLe, res.1 = PLe ++ [(ie, je)] ∧ WalkInv p t ie je PLe res.2 ∧
      ∀ k, p.S k je = false := by
  induction fuel generalizing ic jc PL0 SL with
  | zero => simp [step_5_walk] at h
  | succ fuel ih =>
    rw [step_5_walk] at h
    cases hf : find_starred_zero_in_column p jc with
    | none =>
      rw [hf] at h
      simp only [Option.some.injEq] at h
      subst h
      exact ⟨ic, jc, PL0, rfl, hw, find_starred_zero_in_column_none p jc hf⟩
    | some i2 =>
      rw [hf] at h
      simp only at h
      have hS : p.S i2 jc = true := find_starred_zero_in_column_some p i2 jc hf
      have hcol : p.is_covered_column jc = false := hs.prime_column ic jc hw.cur_prime
      have hrow : p.is_covered_row i2 = true := (hs.star_cover i2 jc hS).2 hcol
      obtain ⟨j1, hj1⟩ := hs.row_prime i2 hrow
      obtain ⟨j2, hj2⟩ := find_primed_zero_in_row_isSome p i2 j1 hj1
      rw [hj2] at h
      simp only [Option.getD_some] at h
      have hP : p.P i2 j2 = true := find_primed_zero_in_row_some p i2 j2 hj2
      exact ih i2 j2 _ _ (walk_inv_next p t h1 hlt ic jc PL0 SL hw i2 j2 hS hP) h

theorem step_5_walk_isSome {n : Nat} (fuel : Nat) (p : Problem n) (t : Fin n → Nat)
    (h1 : StarInv p) (hs : SearchInv p)
    (hlt : ∀ i j k, p.P i j = true → p.S k j = true → t k < t i)
    (ic jc : Fin n) (PL0 SL : List (Fin n × Fin n)) (hw : WalkInv p t ic jc PL0 SL)
    (hfuel : t ic < fuel) :
    ∃ res, step_5_walk fuel p jc (PL0 ++ [(ic, jc)]) SL = some res := by
  induction fuel generalizing ic jc PL0 SL with
  | zero => omega
  | succ fuel ih =>
    rw [step_5_walk]
    cases hf : find_starred_zero_in_column p jc with
    | none => exact ⟨_, rfl⟩
    | some i2 =>
      simp only
      have hS : p.S i2 jc = true := find_starred_zero_in_column_some p i2 jc hf
      have hcol : p.is_covered_column jc = false := hs.prime_column ic jc hw.cur_prime
      have hrow : p.is_covered_row i2 = true := (hs.star_cover i2 jc hS).2 hcol
      obtain ⟨j1, hj1⟩ := hs.row_prime i2 hrow
      obtain ⟨j2, hj2⟩ := find_primed_zero_in_row_isSome p i2 j1 hj1
      rw [hj2]
      simp only [Option.getD_some]
      have hP : p.P i2 j2 = true := find_primed_zero_in_row_some p i2 j2 hj2
      have hr : t i2 < t ic := hlt ic jc i2 hw.cur_prime hS
      exact ih i2 j2 _ _ (walk_inv_next p t h1 hlt ic jc PL0 SL hw i2 j2 hS hP) (by omega)

/-- The star mask after the flip of `step_5`. -/
theorem flip_apply {n : Nat} (S : Fin n → Fin n → Bool) (PL SL : List (Fin n × Fin n))
    (r c : Fin n) :
    SL.foldl (fun S l => write2 S l.1 l.2 false)
        (PL.foldl (fun S l => write2 S l.1 l.2 true) S) r c =
      if (r, c) ∈ SL then false else if (r, c) ∈ PL then true else S r c := by
  rw [foldl_write2_mem, foldl_write2_mem]

theorem flip_true_iff {n : Nat} (S : Fin n → Fin n → Bool) (PL SL : List (Fin n × Fin n))
    (r c : Fin n) :
    SL.foldl (fun S l => write2 S l.1 l.2 false)
        (PL.foldl (fun S l => write2 S l.1 l.2 true) S) r c = true ↔
      (r, c) ∉ SL ∧ ((r, c) ∈ PL ∨ S r c = true) := by
  rw [flip_apply]
  by_cases h1 : (r, c) ∈ SL
  · simp [h1]
  · by_cases h2 : (r, c) ∈ PL
    · simp [h1, h2]
    · simp [h1, h2]

/-- What the final state of the walk says about the whole list of primed cells. -/
theorem walk_final_facts {n : Nat} (p : Problem n) (t : Fin n → Nat)
    (hlt : ∀ i j k, p.P i j = true → p.S k j = true → t k < t i)
    (ie je : Fin n) (PLe SLe : List (Fin n × Fin n)) (hw : WalkInv p t ie je PLe SLe)
    (hend : ∀ k, p.S k je = false) :
    (∀ x ∈ PLe ++ [(ie, je)], p.P x.1 x.2 = true) ∧
    (∀ x ∈ PLe ++ [(ie, je)], ∀ k, p.S x.1 k = true → (x.1, k) ∈ SLe) ∧
    (∀ x ∈ PLe ++ [(ie, je)], ∀ k, p.S k x.2 = true → (k, x.2) ∈ SLe) ∧
    (∀ x ∈ PLe ++ [(ie, je)], ∀ y ∈ PLe ++ [(ie, je)], x.1 = y.1 → x = y) ∧
    (∀ x ∈ PLe ++ [(ie, je)], ∀ y ∈ PLe ++ [(ie, je)], x.2 = y.2 → x = y) ∧
    (∀ x ∈ PLe ++ [(ie, je)], x ∉ SLe) ∧
    (∀ x ∈ SLe, ∃ k, (k, x.2) ∈ PLe ++ [(ie, je)]) ∧
    (∀ x ∈ PLe ++ [(ie, je)], x.2 = je ∨ ∃ r, p.S r x.2 = true) ∧
    (∀ x ∈ SLe, ∃ k, (x.1, k) ∈ PLe ++ [(ie, je)]) := by
  have hmem : ∀ x, x ∈ PLe ++ [(ie, je)] ↔ x ∈ PLe ∨ x = (ie, je) := by
    intro x
    simp [List.mem_append]
  have hF1 : ∀ x ∈ PLe ++ [(ie, je)], p.P x.1 x.2 = true := by
    intro x hx
    rcases (hmem x).1 hx with hx | hx
    · exact hw.primed x hx
    · subst hx; exact hw.cur_prime
  refine ⟨hF1, ?_, ?_, ?_, ?_, ?_, ?_, ?_, ?_⟩
  · intro x hx k hk
    rcases (hmem x).1 hx with hx | hx
    · exact hw.row_stars x hx k hk
    · subst hx; exact hw.cur_row_stars k hk
  · intro x hx k hk
    rcases (hmem x).1 hx with hx | hx
    · exact hw.col_stars x hx k hk
    · subst hx
      rw [hend k] at hk
      cases hk
  · intro x hx y hy hxy
    rcases (hmem x).1 hx with hx | hx
    · rcases (hmem y).1 hy with hy | hy
      · exact hw.rows_inj x hx y hy hxy
      · subst hy
        have := hw.rank_lt x hx
        have hxy2 : x.1 = ie := hxy
        rw [hxy2] at this
        omega
    · rcases (hmem y).1 hy with hy | hy
      · subst hx
        have := hw.rank_lt y hy
        have hxy2 : ie = y.1 := hxy
        rw [← hxy2] at this
        omega
      · rw [hx, hy]
  · intro x hx y hy hxy
    rcases (hmem x).1 hx with hx | hx
    · rcases (hmem y).1 hy with hy | hy
      · exact hw.cols_inj x hx y hy hxy
      · subst hy
        exact absurd hxy (hw.cur_col_new x hx)
    · rcases (hmem y).1 hy with hy | hy
      · subst hx
        exact absurd hxy.symm (hw.cur_col_new y hy)
      · rw [hx, hy]
  · intro x hx hxs
    have h1 := hF1 x hx
    have h2 := hw.starred x hxs
    have := hlt x.1 x.2 x.1 h1 h2
    omega
  · intro x hx
    obtain ⟨k, hk⟩ := hw.star_col_prime x hx
    exact ⟨k, (hmem _).2 (Or.inl hk)⟩
  · intro x hx
    rcases (hmem x).1 hx with hx | hx
    · obtain ⟨r, hr, -⟩ := hw.col_has_star x hx
      exact Or.inr ⟨r, hr⟩
    · subst hx; exact Or.inl rfl
  · intro x hx
    obtain ⟨k, hk⟩ := hw.star_row_prime x hx
    rcases hk with hk | ⟨hk1, hk2⟩
    · exact ⟨k, (hmem _).2 (Or.inl hk)⟩
    · exact ⟨je, (hmem _).2 (Or.inr (by rw [hk1]))⟩

theorem free_column_count_pos {n : Nat} (p : Problem n) (j : Fin n)
    (h : ∀ i, p.S i j = false) : 0 < free_column_count p := by
  unfold free_column_count
  exact Finset.card_pos.2 ⟨j, by simp [h]⟩

theorem inv_step_5 {n : Nat} (fuel : Nat) (p : Problem n) (h1 : StarInv p)
    (h2 : PhaseInv p Step.Five) (r : Problem n × Step) (h : step_5 fuel p = some r) :
    StarInv r.1 ∧ PhaseInv r.1 r.2 ∧ r.2 = Step.Three ∧ r.1.C = p.C ∧
      free_column_count r.1 + 1 = free_column_count p ∧
      ∀ i, (∀ j, r.1.S i j = false) → ∀ j, p.S i j = false := by
  obtain ⟨hs, z, hz, hzP, hzR, hzS, t, ht, -⟩ := h2
  unfold step_5 at h
  rw [hz] at h
  simp only at h
  cases hwalk : step_5_walk fuel p z.2 [z] [] with
  | none => rw [hwalk] at h; cases h
  | some res =>
    rw [hwalk] at h
    simp only [Option.some.injEq] at h
    have hinit := walk_inv_init p t z.1 z.2 hzP hzS
    obtain ⟨ie, je, PLe, hres, hw, hend⟩ := step_5_walk_sound fuel p t h1 hs ht.star_lt
      z.1 z.2 [] [] hinit res (by simpa using hwalk)
    obtain ⟨f1, f2, f3, f4, f5, f6, f7, f8, f9⟩ :=
      walk_final_facts p t ht.star_lt ie je PLe res.2 hw hend
    rw [← hres] at f1 f2 f3 f4 f5 f6 f7 f8 f9
    subst h
    have hflip := flip_true_iff p.S res.1 res.2
    refine ⟨⟨h1.bounded, ?_, ?_, ?_, ?_⟩, ⟨?_, ?_, ?_⟩, rfl, rfl, ?_, ?_⟩
    · intro i j k hj hk
      rw [hflip] at hj hk
      obtain ⟨hj1, hj2⟩ := hj
      obtain ⟨hk1, hk2⟩ := hk
      rcases hj2 with hj2 | hj2
      · rcases hk2 with hk2 | hk2
        · have := f4 _ hj2 _ hk2 rfl
          exact (Prod.mk.inj this).2
        · exact absurd (f2 _ hj2 k hk2) hk1
      · rcases hk2 with hk2 | hk2
        · exact absurd (f2 _ hk2 j hj2) hj1
        · exact h1.star_row i j k hj2 hk2
    · intro i k j hi hk
      rw [hflip] at hi hk
      obtain ⟨hi1, hi2⟩ := hi
      obtain ⟨hk1, hk2⟩ := hk
      rcases hi2 with hi2 | hi2
      · rcases hk2 with hk2 | hk2
        · have := f5 _ hi2 _ hk2 rfl
          exact (Prod.mk.inj this).1
        · exact absurd (f3 _ hi2 k hk2) hk1
      · rcases hk2 with hk2 | hk2
        · exact absurd (f3 _ hk2 i hi2) hi1
        · exact h1.star_col i k j hi2 hk2
    · intro i j hij
      rw [hflip] at hij
      rcases hij.2 with hij2 | hij2
      · exact h1.prime_zero i j (f1 _ hij2)
      · exact h1.star_zero i j hij2
    · intro i j hij
      simp at hij
    · intro i j; rfl
    · intro i; rfl
    · intro j; rfl
    · have hje : (ie, je) ∈ res.1 := by rw [hres]; simp
      have hset : (Finset.univ.filter fun j : Fin n => ∀ i, p.S i j = false) =
          insert je (Finset.univ.filter fun j : Fin n => ∀ i,
            (List.foldl (fun S l => write2 S l.1 l.2 false)
              (List.foldl (fun S l => write2 S l.1 l.2 true) p.S res.1) res.2) i j = false) := by
        ext j
        simp only [Finset.mem_filter, Finset.mem_univ, true_and, Finset.mem_insert]
        constructor
        · intro hfree
          by_cases hj : j = je
          · exact Or.inl hj
          · right
            intro i
            by_contra hne
            have htrue := (hflip i j).1 (by simpa using hne)
            rcases htrue.2 with hp | hp
            · rcases f8 _ hp with h8 | ⟨r, hr⟩
              · exact hj h8
              · rw [hfree r] at hr; cases hr
            · rw [hfree i] at hp; cases hp
        · rintro (hj | hfree)
          · rw [hj]; exact hend
          · intro i
            by_contra hne
            have hS : p.S i j = true := by simpa using hne
            by_cases hmem : (i, j) ∈ res.2
            · obtain ⟨k, hk⟩ := f7 _ hmem
              have := (hflip k j).2 ⟨f6 _ hk, Or.inl hk⟩
              rw [hfree k] at this
              cases this
            · have := (hflip i j).2 ⟨hmem, Or.inr hS⟩
              rw [hfree i] at this
              cases this
      have hnot : je ∉ (Finset.univ.filter fun j : Fin n => ∀ i,
            (List.foldl (fun S l => write2 S l.1 l.2 false)
              (List.foldl (fun S l => write2 S l.1 l.2 true) p.S res.1) res.2) i j = false) := by
        simp only [Finset.mem_filter, Finset.mem_univ, true_and]
        intro hfree
        have := (hflip ie je).2 ⟨f6 _ hje, Or.inl hje⟩
        rw [hfree ie] at this
        cases this
      unfold free_column_count
      simp only
      rw [hset, Finset.card_insert_of_not_mem hnot]
    · intro i hfree j
      by_contra hne
      have hS : p.S i j = true := by simpa using hne
      by_cases hmem : (i, j) ∈ res.2
      · obtain ⟨k, hk⟩ := f9 _ hmem
        have := (hflip i k).2 ⟨f6 _ hk, Or.inl hk⟩
        have h0 := hfree k
        simp only at h0
        rw [h0] at this
        cases this
      · have := (hflip i j).2 ⟨hmem, Or.inr hS⟩
        have h0 := hfree j
        simp only at h0
        rw [h0] at this
        cases this

theorem step_5_isSome {n : Nat} (fuel : Nat) (p : Problem n) (h1 : StarInv p)
    (h2 : PhaseInv p Step.Five) (hfuel : n < fuel) : ∃ r, step_5 fuel p = some r := by
  obtain ⟨hs, z, hz, hzP, hzR, hzS, t, ht, hle⟩ := h2
  have hinit := walk_inv_init p t z.1 z.2 hzP hzS
  have hn := covered_row_count_le p
  obtain ⟨res, hres⟩ := step_5_walk_isSome fuel p t h1 hs ht.star_lt z.1 z.2 [] [] hinit
    (by omega)
  unfold step_5
  rw [hz]
  simp only
  rw [show step_5_walk fuel p z.2 [z] [] = some res by simpa using hres]
  exact ⟨_, rfl⟩

/-! ## The invariant along `step` -/

theorem starInv_set_step {n : Nat} (q : Problem n) (s : Step) (h : StarInv q) :
    StarInv { q with current_step := s } :=
  ⟨h.bounded, h.star_row, h.star_col, h.star_zero, h.prime_zero⟩

theorem clear_set_step {n : Nat} (q : Problem n) (s : Step) (h : Clear q) :
    Clear { q with current_step := s } :=
  ⟨h.no_prime, h.no_row, h.no_column⟩

theorem searchInv_set_step {n : Nat} (q : Problem n) (s : Step) (h : SearchInv q) :
    SearchInv { q with current_step := s } :=
  ⟨h.free_column, h.star_cover, h.column_star, h.row_star, h.row_prime, h.prime_column⟩

theorem rankInv_set_step {n : Nat} (q : Problem n) (s : Step) (t : Fin n → Nat)
    (h : RankInv q t) : RankInv { q with current_step := s } t :=
  ⟨h.covered_lt, h.star_lt⟩

theorem phaseInv_set_step {n : Nat} (q : Problem n) (s t : Step) (h : PhaseInv q t) :
    PhaseInv { q with current_step := s } t := by
  cases t with
  | Done => exact h
  | One => exact ⟨clear_set_step q s h.1, h.2⟩
  | Two => exact ⟨clear_set_step q s h.1, h.2⟩
  | Three => exact clear_set_step q s h
  | Four =>
    obtain ⟨h1, t, h2⟩ := h
    exact ⟨searchInv_set_step q s h1, t, rankInv_set_step q s t h2⟩
  | Five =>
    obtain ⟨h1, z, hz, h2, h3, h4, t, h5, h6⟩ := h
    exact ⟨searchInv_set_step q s h1, z, hz, h2, h3, h4, t, rankInv_set_step q s t h5, h6⟩
  | Six =>
    obtain ⟨h1, ⟨t, h2⟩, h3⟩ := h
    exact ⟨searchInv_set_step q s h1, ⟨t, rankInv_set_step q s t h2⟩, h3⟩

theorem step_eq_some {n : Nat} (fuel : Nat) (p : Problem n) (r : Problem n × Bool)
    (h : step fuel p = some r) :
    ∃ x : Problem n × Step,
      (match p.current_step with
        | Step.One => some (step_1 p)
        | Step.Two => some (step_2 p)
        | Step.Three => some (step_3 p)
        | Step.Four => step_4 fuel p
        | Step.Five => step_5 fuel p
        | Step.Six => some (step_6 p)
        | Step.Done => some (p, Step.Done)) = some x ∧
      r = ({ x.1 with current_step := x.2 }, decide (x.2 = Step.Done)) := by
  unfold step at h
  simp only [Option.map_eq_some'] at h
  obtain ⟨x, hx, hr⟩ := h
  exact ⟨x, hx, hr.symm⟩

theorem inv_step {n : Nat} (fuel : Nat) (p : Problem n) (r : Problem n × Bool)
    (hp : Inv p) (h : step fuel p = some r) : Inv r.1 := by
  obtain ⟨x, hx, hr⟩ := step_eq_some fuel p r h
  obtain ⟨h1, h2⟩ := hp
  have key : StarInv x.1 ∧ PhaseInv x.1 x.2 := by
    cases hc : p.current_step with
    | One =>
      rw [hc] at hx h2
      simp only [Option.some.injEq] at hx
      subst hx
      exact inv_step_1 p h1 h2
    | Two =>
      rw [hc] at hx h2
      simp only [Option.some.injEq] at hx
      subst hx
      exact inv_step_2 p h1 h2
    | Three =>
      rw [hc] at hx h2
      simp only [Option.some.injEq] at hx
      subst hx
      exact inv_step_3 p h1 h2
    | Four =>
      rw [hc] at hx h2
      exact inv_step_4 fuel p h1 h2 x hx
    | Five =>
      rw [hc] at hx h2
      obtain ⟨g1, g2, -⟩ := inv_step_5 fuel p h1 h2 x hx
      exact ⟨g1, g2⟩
    | Six =>
      rw [hc] at hx h2
      simp only [Option.some.injEq] at hx
      subst hx
      exact inv_step_6 p h1 h2
    | Done =>
      rw [hc] at hx h2
      simp only [Option.some.injEq] at hx
      subst hx
      exact ⟨h1, h2⟩
  rw [hr]
  exact ⟨starInv_set_step _ _ key.1, phaseInv_set_step _ _ _ key.2⟩

theorem inv_of_reachable {n : Nat} (M : Fin n → Fin n → Nat) (hM : ∀ i j, M i j < 2 ^ 32)
    (p : Problem n) (h : Reachable M p) : Inv p := by
  induction h with
  | init => exact inv_construct M hM
  | next fuel p r _ hstep ih => exact inv_step fuel p r ih hstep

theorem step_isSome {n : Nat} (fuel : Nat) (p : Problem n) (hp : Inv p) (hfuel : n < fuel) :
    ∃ r, step fuel p = some r := by
  obtain ⟨h1, h2⟩ := hp
  unfold step
  cases hc : p.current_step with
  | One => exact ⟨_, rfl⟩
  | Two => exact ⟨_, rfl⟩
  | Three => exact ⟨_, rfl⟩
  | Four =>
    obtain ⟨x, hx⟩ := step_4_isSome fuel p (by omega)
    simp only [hx]
    exact ⟨_, rfl⟩
  | Five =>
    rw [hc] at h2
    obtain ⟨x, hx⟩ := step_5_isSome fuel p h1 h2 hfuel
    simp only [hx]
    exact ⟨_, rfl⟩
  | Six => exact ⟨_, rfl⟩
  | Done => exact ⟨_, rfl⟩

/-! ## Termination of `solve` -/

theorem free_column_count_le {n : Nat} (p : Problem n) : free_column_count p ≤ n := by
  unfold free_column_count
  calc (Finset.univ.filter fun j : Fin n => ∀ i, p.S i j = false).card
      ≤ (Finset.univ : Finset (Fin n)).card := Finset.card_filter_le _ _
    _ = n := by simp

theorem free_column_count_congr {n : Nat} (p q : Problem n) (h : q.S = p.S) :
    free_column_count q = free_column_count p := by
  unfold free_column_count
  rw [h]

theorem steps_left_step {n : Nat} (fuel : Nat) (p : Problem n) (r : Problem n × Bool)
    (hp : Inv p) (hnd : p.current_step ≠ Step.Done) (h : step fuel p = some r) :
    steps_left r.1 < steps_left p := by
  obtain ⟨x, hx, hr⟩ := step_eq_some fuel p r h
  obtain ⟨h1, h2⟩ := hp
  have hfc : free_column_count r.1 = free_column_count x.1 := by rw [hr]; rfl
  have hcc : covered_row_count r.1 = covered_row_count x.1 := by rw [hr]; rfl
  have hfz : find_uncovered_zero r.1 = find_uncovered_zero x.1 := by rw [hr]; rfl
  have hcs : r.1.current_step = x.2 := by rw [hr]
  cases hc : p.current_step with
  | Done => exact absurd hc hnd
  | One =>
    rw [hc] at hx
    simp only [Option.some.injEq] at hx
    have h2 : x.2 = Step.Two := by rw [← hx, step_1_eq]
    simp only [steps_left, hcs, h2, hc]
    omega
  | Two =>
    rw [hc] at hx
    simp only [Option.some.injEq] at hx
    have h2 : x.2 = Step.Three := by rw [← hx]; rfl
    simp only [steps_left, hcs, h2, hc, hfc]
    have := Nat.mul_le_mul_right (2 * n + 6) (free_column_count_le x.1)
    omega
  | Three =>
    rw [hc] at hx
    simp only [Option.some.injEq] at hx
    have hS : x.1.S = p.S := by rw [← hx]; rfl
    have hf := free_column_count_congr p x.1 hS
    rcases step_3_phase p with hd | hd
    · have h2 : x.2 = Step.Done := by rw [← hx]; exact hd
      simp only [steps_left, hcs, h2, hc]
      omega
    · have h2 : x.2 = Step.Four := by rw [← hx]; exact hd
      simp only [steps_left, hcs, h2, hc, hfc, hcc, hfz, hf]
      split <;> omega
  | Four =>
    rw [hc] at hx h2
    obtain ⟨-, hS, hph, hle, hlt⟩ := step_4_frame fuel p x hx
    have hf := free_column_count_congr p x.1 hS
    have hn := covered_row_count_le x.1
    obtain ⟨j0, hj0⟩ := h2.1.free_column
    have hpos := free_column_count_pos p j0 hj0
    have hmul : 6 ≤ free_column_count p * (2 * n + 6) := by
      calc 6 ≤ 1 * (2 * n + 6) := by omega
        _ ≤ free_column_count p * (2 * n + 6) := Nat.mul_le_mul_right _ hpos
    rcases hph with h5 | h6
    · simp only [steps_left, hcs, h5, hc, hfc, hf]
      omega
    · simp only [steps_left, hcs, h6, hc, hfc, hcc, hf]
      by_cases hz : (find_uncovered_zero p).isSome = true
      · have := hlt h6 hz
        rw [if_pos hz]
        omega
      · rw [if_neg hz]
        omega
  | Five =>
    rw [hc] at hx h2
    obtain ⟨-, -, h3, -, hcount, -⟩ := inv_step_5 fuel p h1 h2 x hx
    simp only [steps_left, hcs, h3, hc, hfc]
    have hmul : free_column_count p * (2 * n + 6) =
        free_column_count x.1 * (2 * n + 6) + (2 * n + 6) := by
      rw [← hcount]; ring
    omega
  | Six =>
    rw [hc] at hx h2
    simp only [Option.some.injEq] at hx
    obtain ⟨fS, -, fR, -, -, f4⟩ := step_6_fields p
    have hz := step_6_uncovered_zero p h1 h2.1
    rw [hx] at fS fR f4 hz
    have hf := free_column_count_congr p x.1 fS
    have hcov := covered_row_count_congr p x.1 fR
    simp only [steps_left, hcs, f4, hc, hfc, hcc, hfz, hf, hcov, hz, if_true]
    omega

/-! ## More fuel changes nothing -/

theorem step_4_mono {n : Nat} (f : Nat) (p : Problem n) (r : Problem n × Step)
    (h : step_4 f p = some r) (g : Nat) (hfg : f ≤ g) : step_4 g p = some r := by
  induction f generalizing p g with
  | zero => simp [step_4] at h
  | succ f ih =>
    obtain ⟨g, rfl⟩ : ∃ k, g = k + 1 := ⟨g - 1, by omega⟩
    rw [step_4] at h ⊢
    cases hf : find_uncovered_zero p with
    | none => rw [hf] at h; exact h
    | some z =>
      obtain ⟨i, j⟩ := z
      rw [hf] at h
      simp only at h ⊢
      cases hg : find_starred_zero_in_row { p with P := write2 p.P i j true } i with
      | none => rw [hg] at h; exact h
      | some k =>
        rw [hg] at h
        simp only at h ⊢
        exact ih _ h g (by omega)

theorem step_5_walk_mono {n : Nat} (f : Nat) (p : Problem n) (j : Fin n)
    (PL SL : List (Fin n × Fin n)) (res : List (Fin n × Fin n) × List (Fin n × Fin n))
    (h : step_5_walk f p j PL SL = some res) (g : Nat) (hfg : f ≤ g) :
    step_5_walk g p j PL SL = some res := by
  induction f generalizing j PL SL g with
  | zero => simp [step_5_walk] at h
  | succ f ih =>
    obtain ⟨g, rfl⟩ : ∃ k, g = k + 1 := ⟨g - 1, by omega⟩
    rw [step_5_walk] at h ⊢
    cases hf : find_starred_zero_in_column p j with
    | none => rw [hf] at h; exact h
    | some i =>
      rw [hf] at h
      simp only at h ⊢
      exact ih _ _ _ h g (by omega)

theorem step_5_mono {n : Nat} (f : Nat) (p : Problem n) (r : Problem n × Step)
    (h : step_5 f p = some r) (g : Nat) (hfg : f ≤ g) : step_5 g p = some r := by
  unfold step_5 at h ⊢
  cases hz : p.uncovered_prime_zero with
  | none => rw [hz] at h; cases h
  | some z =>
    rw [hz] at h
    simp only at h ⊢
    cases hw : step_5_walk f p z.2 [z] [] with
    | none => rw [hw] at h; cases h
    | some res =>
      rw [hw] at h
      rw [step_5_walk_mono f p z.2 [z] [] res hw g hfg]
      exact h

theorem step_mono {n : Nat} (f : Nat) (p : Problem n) (r : Problem n × Bool)
    (h : step f p = some r) (g : Nat) (hfg : f ≤ g) : step g p = some r := by
  unfold step at h ⊢
  cases hc : p.current_step with
  | Four =>
    rw [hc] at h
    simp only [Option.map_eq_some'] at h ⊢
    obtain ⟨x, hx, hr⟩ := h
    exact ⟨x, step_4_mono f p x hx g hfg, hr⟩
  | Five =>
    rw [hc] at h
    simp only [Option.map_eq_some'] at h ⊢
    obtain ⟨x, hx, hr⟩ := h
    exact ⟨x, step_5_mono f p x hx g hfg, hr⟩
  | One => rw [hc] at h; exact h
  | Two => rw [hc] at h; exact h
  | Three => rw [hc] at h; exact h
  | Six => rw [hc] at h; exact h
  | Done => rw [hc] at h; exact h

theorem solve_loop_mono {n : Nat} (inner f : Nat) (p q : Problem n)
    (h : solve_loop inner f p = some q) (inner2 g : Nat) (hi : inner ≤ inner2)
    (hfg : f ≤ g) : solve_loop inner2 g p = some q := by
  induction f generalizing p g with
  | zero =>
    rw [solve_loop] at h
    by_cases hd : p.current_step = Step.Done
    · rw [if_pos hd] at h
      cases g with
      | zero => rw [solve_loop, if_pos hd]; exact h
      | succ g => rw [solve_loop, if_pos hd]; exact h
    · rw [if_neg hd] at h; cases h
  | succ f ih =>
    obtain ⟨g, rfl⟩ : ∃ k, g = k + 1 := ⟨g - 1, by omega⟩
    rw [solve_loop] at h ⊢
    by_cases hd : p.current_step = Step.Done
    · rw [if_pos hd] at h ⊢; exact h
    · rw [if_neg hd] at h ⊢
      cases hs : step inner p with
      | none => rw [hs] at h; cases h
      | some r =>
        rw [hs] at h
        rw [step_mono inner p r hs inner2 hi]
        simp only at h ⊢
        exact ih _ h g (by omega)

/-! ## `solve` reaches `Done` -/

theorem solve_loop_reachable {n : Nat} (M : Fin n → Fin n → Nat) (inner fuel : Nat)
    (p q : Problem n) (hp : Reachable M p) (h : solve_loop inner fuel p = some q) :
    Reachable M q ∧ q.current_step = Step.Done := by
  induction fuel generalizing p with
  | zero =>
    rw [solve_loop] at h
    by_cases hd : p.current_step = Step.Done
    · rw [if_pos hd] at h
      simp only [Option.some.injEq] at h
      subst h
      exact ⟨hp, hd⟩
    · rw [if_neg hd] at h; cases h
  | succ fuel ih =>
    rw [solve_loop] at h
    by_cases hd : p.current_step = Step.Done
    · rw [if_pos hd] at h
      simp only [Option.some.injEq] at h
      subst h
      exact ⟨hp, hd⟩
    · rw [if_neg hd] at h
      cases hs : step inner p with
      | none => rw [hs] at h; cases h
      | some r =>
        rw [hs] at h
        exact ih r.1 (Reachable.next inner p r hp hs) h

theorem solve_loop_total {n : Nat} (inner fuel : Nat) (p : Problem n) (hp : Inv p)
    (hi : n < inner) (hf : steps_left p ≤ fuel) : ∃ q, solve_loop inner fuel p = some q := by
  induction fuel generalizing p with
  | zero =>
    rw [solve_loop]
    by_cases hd : p.current_step = Step.Done
    · rw [if_pos hd]; exact ⟨_, rfl⟩
    · obtain ⟨r, hr⟩ := step_isSome inner p hp hi
      have := steps_left_step inner p r hp hd hr
      omega
  | succ fuel ih =>
    rw [solve_loop]
    by_cases hd : p.current_step = Step.Done
    · rw [if_pos hd]; exact ⟨_, rfl⟩
    · rw [if_neg hd]
      obtain ⟨r, hr⟩ := step_isSome inner p hp hi
      have := steps_left_step inner p r hp hd hr
      rw [hr]
      exact ih r.1 (inv_step inner p r hp hr) (by omega)

theorem steps_left_construct {n : Nat} (M : Fin n → Fin n → Nat) :
    steps_left (construct n M) = 2 * (n + 1) * (n + 3) := by
  simp only [steps_left, construct]
  ring

/-! ## The final state and the output -/

theorem done_row_star {n : Nat} (p : Problem n) (h1 : StarInv p)
    (hd : ∀ j, ∃ i, p.S i j = true) (i : Fin n) : ∃ j, p.S i j = true := by
  choose f hf using hd
  have hinj : Function.Injective f := by
    intro a b hab
    have ha := hf a
    have hb := hf b
    rw [hab] at ha
    exact h1.star_row (f b) a b ha hb
  obtain ⟨j, hj⟩ := (Finite.injective_iff_surjective.1 hinj) i
  exact ⟨j, hj ▸ hf j⟩

theorem find_starred_zero_in_column_eq {n : Nat} (p : Problem n) (h1 : StarInv p)
    (i j : Fin n) (h : p.S i j = true) : find_starred_zero_in_column p j = some i := by
  cases hf : find_starred_zero_in_column p j with
  | none =>
    have := find_starred_zero_in_column_none p j hf i
    rw [h] at this
    cases this
  | some k =>
    have := find_starred_zero_in_column_some p k j hf
    rw [h1.star_col k i j this h]

theorem output_solution_loop_frame {n : Nat} (p : Problem n) (l : List (Fin n))
    (a : Fin n → Nat) (i : Fin n) (h : ∀ j ∈ l, p.S i j = false) :
    l.foldl (fun a j =>
      match find_starred_zero_in_column p j with
      | some i => write1 a i j.val
      | none => a) a i = a i := by
  induction l generalizing a with
  | nil => rfl
  | cons x l ih =>
    rw [List.foldl_cons, ih _ (fun j hj => h j (List.mem_cons_of_mem _ hj))]
    cases hf : find_starred_zero_in_column p x with
    | none => rfl
    | some k =>
      have hk := find_starred_zero_in_column_some p k x hf
      have hne : i ≠ k := by
        intro hik
        have := h x (List.mem_cons_self _ _)
        rw [hik, hk] at this
        cases this
      simp [hne]

theorem output_solution_loop_star {n : Nat} (p : Problem n) (h1 : StarInv p)
    (l : List (Fin n)) (hl : l.Nodup) (a : Fin n → Nat) (i j : Fin n) (hj : j ∈ l)
    (h : p.S i j = true) :
    l.foldl (fun a j =>
      match find_starred_zero_in_column p j with
      | some i => write1 a i j.val
      | none => a) a i = j.val := by
  induction l generalizing a with
  | nil => simp at hj
  | cons x l ih =>
    rw [List.nodup_cons] at hl
    rw [List.foldl_cons]
    rcases List.mem_cons.1 hj with hjx | hjl
    · subst hjx
      rw [output_solution_loop_frame p l _ i]
      · rw [find_starred_zero_in_column_eq p h1 i j h]
        simp
      · intro k hk
        by_contra hne
        have hS : p.S i k = true := by simpa using hne
        have := h1.star_row i j k h hS
        rw [← this] at hk
        exact hl.1 hk
    · exact ih hl.2 _ hjl

theorem output_solution_star {n : Nat} (p : Problem n) (h1 : StarInv p) (a : Fin n → Nat)
    (i j : Fin n) (h : p.S i j = true) : output_solution p a i = j.val :=
  output_solution_loop_star p h1 (List.finRange n) (List.nodup_finRange n) a i j
    (List.mem_finRange j) h

theorem output_solution_frame {n : Nat} (p : Problem n) (a : Fin n → Nat) (i : Fin n)
    (h : ∀ j, p.S i j = false) : output_solution p a i = a i :=
  output_solution_loop_frame p (List.finRange n) a i (fun j _ => h j)

/-! ## Potentials: the working matrix is a reduction of the input -/

theorem exists_free_row {n : Nat} (p : Problem n) (h1 : StarInv p)
    (hfree : ∃ j, ∀ i, p.S i j = false) : ∃ r, ∀ j, p.S r j = false := by
  by_contra hall
  push_neg at hall
  have hstar : ∀ i, ∃ j, p.S i j = true := fun i => by
    obtain ⟨j, hj⟩ := hall i
    exact ⟨j, by simpa using hj⟩
  choose f hf using hstar
  have hinj : Function.Injective f := by
    intro a b hab
    have ha := hf a
    have hb := hf b
    rw [hab] at ha
    exact h1.star_col a b (f b) ha hb
  obtain ⟨j0, hj0⟩ := hfree
  obtain ⟨i, hi⟩ := (Finite.injective_iff_surjective.1 hinj) j0
  have := hf i
  rw [hi, hj0 i] at this
  cases this

theorem pot_step_1 {n : Nat} (M : Fin n → Fin n → Nat) (p : Problem n) (u v : Fin n → Int)
    (h1 : StarInv p) (h2 : PhaseInv p Step.One) (hpot : PotInv M p u v) :
    PotInv M (step_1 p).1 (fun i => u i + (minimum_in_row p i : Int)) v := by
  have hS : (step_1 p).1.S = p.S := by rw [step_1_eq]
  refine ⟨?_, hpot.col_nonneg, ?_⟩
  · intro i j
    rw [step_1_C p h1.bounded]
    have := minimum_in_row_le p i j
    have := hpot.reduced i j
    omega
  · intro i _
    have := hpot.free_row_nonneg i (fun j => h2.2 i j)
    omega

theorem step_6_no_wrap {n : Nat} (M : Fin n → Fin n → Nat) (hB : ∀ i j, M i j < 2 ^ 31)
    (p : Problem n) (u v : Fin n → Int) (h1 : StarInv p) (hs : SearchInv p)
    (hpot : PotInv M p u v) (i j : Fin n) (hi : p.is_covered_row i = true) :
    p.C i j + minimum_uncovered p < 2 ^ 32 := by
  obtain ⟨s, hs1⟩ := hs.row_star i hi
  have hcs : p.is_covered_column s = false := (hs.star_cover i s hs1).1 hi
  have hz := h1.star_zero i s hs1
  obtain ⟨r, hr⟩ := exists_free_row p h1 hs.free_column
  have hru : p.is_covered_row r = false := by
    by_contra hc
    obtain ⟨k, hk⟩ := hs.row_star r (by simpa using hc)
    rw [hr k] at hk
    cases hk
  have hm := minimum_uncovered_le p r s hru hcs
  have e1 := hpot.reduced r s
  have e2 := hpot.reduced i s
  have e3 := hpot.reduced i j
  have e4 := hpot.free_row_nonneg r hr
  have e5 := hpot.col_nonneg j
  have b1 := hB r s
  have b2 := hB i j
  rw [hz] at e2
  omega

theorem pot_step_6 {n : Nat} (M : Fin n → Fin n → Nat) (hB : ∀ i j, M i j < 2 ^ 31)
    (p : Problem n) (u v : Fin n → Int) (h1 : StarInv p) (hs : SearchInv p)
    (hpot : PotInv M p u v) :
    PotInv M (step_6 p).1
      (fun i => if p.is_covered_row i = true then u i - (minimum_uncovered p : Int) else u i)
      (fun j => if p.is_covered_column j = true then v j
        else v j + (minimum_uncovered p : Int)) := by
  obtain ⟨fS, -, -, -, -, -⟩ := step_6_fields p
  refine ⟨?_, ?_, ?_⟩
  · intro i j
    rw [step_6_C p h1.bounded]
    have e := hpot.reduced i j
    cases hr : p.is_covered_row i <;> cases hc : p.is_covered_column j <;>
      simp only [Bool.false_eq_true, if_false, if_true]
    · have := minimum_uncovered_le p i j hr hc
      omega
    · omega
    · omega
    · have := step_6_no_wrap M hB p u v h1 hs hpot i j hr
      rw [Nat.mod_eq_of_lt this]
      push_cast
      omega
  · intro j
    have := hpot.col_nonneg j
    split <;> omega
  · intro i hi
    rw [fS] at hi
    have hr : ¬ p.is_covered_row i = true := by
      intro hc
      obtain ⟨k, hk⟩ := hs.row_star i hc
      rw [hi k] at hk
      cases hk
    rw [if_neg hr]
    exact hpot.free_row_nonneg i hi

theorem potInv_set_step {n : Nat} (M : Fin n → Fin n → Nat) (q : Problem n) (s : Step)
    (u v : Fin n → Int) (h : PotInv M q u v) : PotInv M { q with current_step := s } u v :=
  ⟨h.reduced, h.col_nonneg, h.free_row_nonneg⟩

theorem pot_step {n : Nat} (M : Fin n → Fin n → Nat) (hB : ∀ i j, M i j < 2 ^ 31)
    (fuel : Nat) (p : Problem n) (r : Problem n × Bool) (hp : Inv p)
    (hpot : ∃ u v, PotInv M p u v) (h : step fuel p = some r) :
    ∃ u v, PotInv M r.1 u v := by
  obtain ⟨x, hx, hr⟩ := step_eq_some fuel p r h
  obtain ⟨h1, h2⟩ := hp
  obtain ⟨u, v, hpot⟩ := hpot
  have key : ∃ u v, PotInv M x.1 u v := by
    cases hc : p.current_step with
    | One =>
      rw [hc] at hx h2
      simp only [Option.some.injEq] at hx
      subst hx
      exact ⟨_, _, pot_step_1 M p u v h1 h2 hpot⟩
    | Two =>
      rw [hc] at hx h2
      simp only [Option.some.injEq] at hx
      subst hx
      refine ⟨u, v, hpot.reduced, hpot.col_nonneg, ?_⟩
      intro i _
      exact hpot.free_row_nonneg i (fun j => h2.2 i j)
    | Three =>
      rw [hc] at hx h2
      simp only [Option.some.injEq] at hx
      subst hx
      exact ⟨u, v, hpot.reduced, hpot.col_nonneg, hpot.free_row_nonneg⟩
    | Four =>
      rw [hc] at hx h2
      obtain ⟨hC, hS, -⟩ := step_4_frame fuel p x hx
      refine ⟨u, v, ?_, hpot.col_nonneg, ?_⟩
      · rw [hC]; exact hpot.reduced
      · rw [hS]; exact hpot.free_row_nonneg
    | Five =>
      rw [hc] at hx h2
      obtain ⟨-, -, -, hC, -, hrows⟩ := inv_step_5 fuel p h1 h2 x hx
      refine ⟨u, v, ?_, hpot.col_nonneg, ?_⟩
      · rw [hC]; exact hpot.reduced
      · intro i hi
        exact hpot.free_row_nonneg i (hrows i hi)
    | Six =>
      rw [hc] at hx h2
      simp only [Option.some.injEq] at hx
      subst hx
      exact ⟨_, _, pot_step_6 M hB p u v h1 h2.1 hpot⟩
    | Done =>
      rw [hc] at hx
      simp only [Option.some.injEq] at hx
      subst hx
      exact ⟨u, v, hpot⟩
  obtain ⟨u2, v2, h3⟩ := key
  rw [hr]
  exact ⟨u2, v2, potInv_set_step M _ _ u2 v2 h3⟩

theorem pot_of_reachable {n : Nat} (M : Fin n → Fin n → Nat) (hB : ∀ i j, M i j < 2 ^ 31)
    (p : Problem n) (h : Reachable M p) : ∃ u v, PotInv M p u v := by
  have hM : ∀ i j, M i j < 2 ^ 32 := fun i j => by
    have := hB i j
    omega
  induction h with
  | init =>
    refine ⟨fun _ => 0, fun _ => 0, ?_, ?_, ?_⟩
    · intro i j; simp [construct]
    · intro j; exact le_refl _
    · intro i _; exact le_refl _
  | next fuel p r hreach hstep ih =>
    exact pot_step M hB fuel p r (inv_of_reachable M hM p hreach) ih hstep

/-! ## Optimality of a complete set of stars -/

theorem stars_optimal {n : Nat} (M : Fin n → Fin n → Nat) (p : Problem n)
    (u v : Fin n → Int) (h1 : StarInv p) (hpot : PotInv M p u v)
    (σ τ : Equiv.Perm (Fin n)) (hσ : ∀ i, p.S i (σ i) = true) :
    ∑ i, M i (σ i) ≤ ∑ i, M i (τ i) := by
  have hsum : ∀ ρ : Equiv.Perm (Fin n),
      ((∑ i, M i (ρ i) : Nat) : Int) =
        (∑ i, (p.C i (ρ i) : Int)) + (∑ i, u i) + ∑ i, v i := by
    intro ρ
    have hv : ∑ i, v (ρ i) = ∑ i, v i := Equiv.sum_comp ρ v
    rw [← hv, ← Finset.sum_add_distrib, ← Finset.sum_add_distrib]
    push_cast
    apply Finset.sum_congr rfl
    intro i _
    have := hpot.reduced i (ρ i)
    omega
  have hσ0 : (∑ i, (p.C i (σ i) : Int)) = 0 := by
    apply Finset.sum_eq_zero
    intro i _
    rw [h1.star_zero i (σ i) (hσ i)]
    rfl
  have hτ0 : 0 ≤ (∑ i, (p.C i (τ i) : Int)) :=
    Finset.sum_nonneg (fun i _ => Int.natCast_nonneg _)
  have e1 := hsum σ
  have e2 := hsum τ
  have : ((∑ i, M i (σ i) : Nat) : Int) ≤ ((∑ i, M i (τ i) : Nat) : Int) := by
    rw [e1, e2, hσ0]
    omega
  exact_mod_cast this

/-! ## The result of `solve` -/

theorem enough_fuel_gt (n : Nat) : n < enough_fuel n := by
  unfold enough_fuel
  nlinarith

theorem solve_loop_done {n : Nat} (inner fuel : Nat) (p : Problem n)
    (h : p.current_step = Step.Done) : solve_loop inner fuel p = some p := by
  cases fuel with
  | zero => rw [solve_loop, if_pos h]
  | succ f => rw [solve_loop, if_pos h]

/-- The star of every row of a complete state, as a permutation. -/
theorem exists_star_perm {n : Nat} (p : Problem n) (h1 : StarInv p)
    (hd : ∀ j, ∃ i, p.S i j = true) :
    ∃ σ : Equiv.Perm (Fin n), ∀ i, p.S i (σ i) = true := by
  choose f hf using done_row_star p h1 hd
  have hinj : Function.Injective f := by
    intro a b hab
    have ha := hf a
    have hb := hf b
    rw [hab] at ha
    exact h1.star_col a b (f b) ha hb
  exact ⟨Equiv.ofBijective f ⟨hinj, Finite.injective_iff_surjective.1 hinj⟩, hf⟩

theorem solve_result {n : Nat} (M : Fin n → Fin n → Nat) (hM : ∀ i j, M i j < 2 ^ 32) :
    ∃ (q : Problem n) (σ : Equiv.Perm (Fin n)),
      Reachable M q ∧ q.current_step = Step.Done ∧ (∀ i, q.S i (σ i) = true) ∧
      ∀ fuel, enough_fuel n ≤ fuel → ∀ A,
        solve fuel (construct n M) A = some (q, fun i => (σ i).val) := by
  have hinv := inv_construct M hM
  have hleft : steps_left (construct n M) ≤ enough_fuel n := by
    rw [steps_left_construct]
    exact le_refl _
  obtain ⟨q, hq⟩ := solve_loop_total (enough_fuel n) (enough_fuel n) (construct n M) hinv
    (enough_fuel_gt n) hleft
  obtain ⟨hreach, hdone⟩ := solve_loop_reachable M _ _ _ q Reachable.init hq
  have hqinv := inv_of_reachable M hM q hreach
  have h1 : StarInv q := hqinv.1
  have h2 : ∀ j, ∃ i, q.S i j = true := by
    have := hqinv.2
    rw [hdone] at this
    exact this
  obtain ⟨σ, hσ⟩ := exists_star_perm q h1 h2
  refine ⟨q, σ, hreach, hdone, hσ, ?_⟩
  intro fuel hfuel A
  unfold solve
  rw [solve_loop_mono _ _ _ q hq fuel fuel hfuel hfuel]
  simp only [Option.map_some', Option.some.injEq, Prod.mk.injEq, true_and]
  funext i
  exact output_solution_star q h1 A i (σ i) (hσ i)

theorem reachable_run_steps {n : Nat} (M : Fin n → Fin n → Nat) (fuel k : Nat)
    (p q : Problem n) (hp : Reachable M p) (h : run_steps fuel k p = some q) :
    Reachable M q := by
  induction k generalizing p with
  | zero =>
    simp only [run_steps, Option.some.injEq] at h
    subst h
    exact hp
  | succ k ih =>
    rw [run_steps] at h
    cases hs : step fuel p with
    | none => rw [hs] at h; cases h
    | some r =>
      rw [hs] at h
      exact ih r.1 (Reachable.next fuel p r hp hs) h

theorem total_cost_perm {n : Nat} (M : Fin n → Fin n → Nat) (σ : Fin n → Fin n) :
    total_cost M (fun i => (σ i).val) = ∑ i, M i (σ i) := by
  unfold total_cost
  apply Finset.sum_congr rfl
  intro i _
  simp

/-- With entries below `2 ^ 31` the assignment written by `solve` is a permutation
of minimum total cost. -/
theorem solve_optimal {n : Nat} (M : Fin n → Fin n → Nat) (hB : ∀ i j, M i j < 2 ^ 31) :
    ∃ (q : Problem n) (σ : Equiv.Perm (Fin n)),
      Reachable M q ∧ q.current_step = Step.Done ∧ (∀ i, q.S i (σ i) = true) ∧
      (∀ fuel, enough_fuel n ≤ fuel → ∀ A,
        solve fuel (construct n M) A = some (q, fun i => (σ i).val)) ∧
      ∀ τ : Equiv.Perm (Fin n), ∑ i, M i (σ i) ≤ ∑ i, M i (τ i) := by
  have hM : ∀ i j, M i j < 2 ^ 32 := fun i j => by
    have := hB i j
    omega
  obtain ⟨q, σ, hreach, hdone, hσ, hsolve⟩ := solve_result M hM
  obtain ⟨u, v, hpot⟩ := pot_of_reachable M hB q hreach
  have hqinv := inv_of_reachable M hM q hreach
  exact ⟨q, σ, hreach, hdone, hσ, hsolve, fun τ => stars_optimal M q u v hqinv.1 hpot σ τ hσ⟩

/-! ## The anti-diagonal scenario of the tests -/

theorem compute_cost_matrix_inner {n : Nat} (c : Nat → Nat → Nat) (i : Fin n)
    (l : List (Fin n)) (M : Fin n → Fin n → Nat) (r k : Fin n) :
    l.foldl (fun M j => write2 M i j (c i.val j.val % 2 ^ 32)) M r k =
      if r = i ∧ k ∈ l then c r.val k.val % 2 ^ 32 else M r k := by
  induction l generalizing M with
  | nil => simp
  | cons a l ih =>
    rw [List.foldl_cons, ih]
    by_cases hr : r = i
    · by_cases hk : k ∈ l
      · simp [hr, hk]
      · by_cases hka : k = a
        · simp [hr, hka]
        · simp [hr, hk, hka]
    · simp [hr]

theorem compute_cost_matrix_outer {n : Nat} (c : Nat → Nat → Nat) (L : List (Fin n))
    (M : Fin n → Fin n → Nat) (r k : Fin n) :
    L.foldl (fun M i => (List.finRange n).foldl
      (fun M j => write2 M i j (c i.val j.val % 2 ^ 32)) M) M r k =
      if r ∈ L then c r.val k.val % 2 ^ 32 else M r k := by
  induction L generalizing M with
  | nil => simp
  | cons a L ih =>
    rw [List.foldl_cons, ih, compute_cost_matrix_inner]
    by_cases hr : r ∈ L
    · simp [hr]
    · by_cases hra : r = a
      · simp [hra, List.mem_finRange]
      · simp [hr, hra]

theorem compute_cost_matrix_eq (n : Nat) (c : Nat → Nat → Nat) (C : Fin n → Fin n → Nat) :
    compute_cost_matrix n c C = fun i j => c i.val j.val % 2 ^ 32 := by
  funext i j
  unfold compute_cost_matrix
  rw [compute_cost_matrix_outer]
  simp [List.mem_finRange]

theorem strictMono_le_apply {n : Nat} (f : Fin n → Fin n) (h : StrictMono f) :
    ∀ (k : Nat) (i : Fin n), i.val = k → i ≤ f i := by
  intro k
  induction k using Nat.strong_induction_on with
  | _ k ih =>
    intro i hi
    by_contra hlt
    have hlt2 : f i < i := lt_of_not_le hlt
    have h1 : f (f i) < f i := h hlt2
    have h2 : f i ≤ f (f i) := ih (f i).val (by rw [← hi]; exact hlt2) (f i) rfl
    exact absurd h1 (not_lt_of_le h2)

theorem strictMono_perm_eq_id {n : Nat} (ρ : Equiv.Perm (Fin n)) (h : StrictMono ρ) :
    ∀ i, ρ i = i := by
  have hsymm : StrictMono ρ.symm := by
    intro a b hab
    by_contra hnot
    have hle : ρ.symm b ≤ ρ.symm a := le_of_not_lt hnot
    have := h.monotone hle
    simp only [Equiv.apply_symm_apply] at this
    exact absurd hab (not_lt_of_le this)
  intro i
  apply le_antisymm
  · have := strictMono_le_apply ρ.symm hsymm (ρ i).val (ρ i) rfl
    simpa using this
  · exact strictMono_le_apply ρ h i.val i rfl

/-- The only assignment of minimum total cost for the costs `(i + 1) * (j + 1)` is the
anti-diagonal. -/
theorem anti_diagonal_unique {n : Nat} (σ : Equiv.Perm (Fin n))
    (hopt : ∀ τ : Equiv.Perm (Fin n),
      ∑ i : Fin n, (i.val + 1) * ((σ i).val + 1) ≤ ∑ i : Fin n, (i.val + 1) * ((τ i).val + 1))
    (i : Fin n) : (σ i).val = n - 1 - i.val := by
  let f : Fin n → Nat := fun i => i.val + 1
  let g : Fin n → Nat := fun i => (Fin.rev i).val + 1
  have hfg : Antivary f g := by
    intro a b hab
    simp only [f, g, Fin.val_rev] at hab ⊢
    omega
  let ρ : Equiv.Perm (Fin n) := σ.trans Fin.revPerm
  have hσρ : ∀ k, (σ k).val + 1 = g (ρ k) := by
    intro k
    have := (σ k).isLt
    simp only [g, ρ, Equiv.trans_apply, Fin.revPerm_apply, Fin.val_rev]
    omega
  have hle : ∑ k, f k * g (ρ k) ≤ ∑ k, f k * g k := by
    have h := hopt Fin.revPerm
    have e1 : ∑ k : Fin n, (k.val + 1) * ((σ k).val + 1) = ∑ k, f k * g (ρ k) :=
      Finset.sum_congr rfl (fun k _ => by rw [hσρ k])
    have e2 : ∑ k : Fin n, (k.val + 1) * ((Fin.revPerm k).val + 1) = ∑ k, f k * g k :=
      Finset.sum_congr rfl (fun k _ => by simp [f, g])
    rw [e1, e2] at h
    exact h
  have hge : ∑ k, f k * g k ≤ ∑ k, f k * g (ρ k) := hfg.sum_mul_le_sum_mul_comp_perm
  have hanti : Antivary f (g ∘ ρ) :=
    hfg.sum_mul_eq_sum_mul_comp_perm_iff.1 (le_antisymm hle hge)
  have hmono : StrictMono ρ := by
    intro a b hab
    rcases lt_trichotomy (ρ a) (ρ b) with h | h | h
    · exact h
    · exact absurd (ρ.injective h) (ne_of_lt hab)
    · have h2 : (g ∘ ρ) a < (g ∘ ρ) b := by
        have h3 : (ρ b).val < (ρ a).val := h
        simp only [Function.comp, g, Fin.val_rev]
        omega
      have h4 := hanti h2
      simp only [f] at h4
      have : a.val < b.val := hab
      omega
  have hid := strictMono_perm_eq_id ρ hmono i
  have hrev : (ρ i).val = n - ((σ i).val + 1) := by
    simp [ρ, Fin.val_rev]
  rw [hid] at hrev
  have := (σ i).isLt
  omega

/-! ## Evaluating `step` on explicit states -/

theorem of_rows_rows_of {n : Nat} {α : Type} (d : α) (f : Fin n → Fin n → α) :
    of_rows d n (rows_of f) = f := by
  funext i j
  simp [of_rows, rows_of, List.getD_eq_getElem?_getD, List.getElem?_map]

theorem of_entries_entries_of {n : Nat} {α : Type} (d : α) (f : Fin n → α) :
    of_entries d n (entries_of f) = f := by
  funext i
  simp [of_entries, entries_of, List.getD_eq_getElem?_getD, List.getElem?_map]

theorem of_snapshot_snapshot {n : Nat} (p : Problem n) : of_snapshot n (snapshot p) = p := by
  cases p with
  | mk C S P R K Z s =>
    simp only [of_snapshot, snapshot, of_rows_rows_of, of_entries_entries_of,
      Problem.mk.injEq, true_and, and_true]
    cases Z with
    | none => rfl
    | some z => simp

theorem step_of_snapshot {n : Nat} (fuel : Nat) (p : Problem n) (t : Snapshot) (b : Bool)
    (h : (step fuel p).map (fun r => (snapshot r.1, r.2)) = some (t, b)) :
    step fuel p = some (of_snapshot n t, b) := by
  cases hs : step fuel p with
  | none => rw [hs] at h; cases h
  | some r =>
    rw [hs] at h
    simp only [Option.map_some', Option.some.injEq, Prod.mk.injEq] at h
    rw [← h.1, ← h.2, of_snapshot_snapshot]

theorem solve_loop_succ {n : Nat} (inner fuel : Nat) (p : Problem n) (r : Problem n × Bool)
    (hnd : p.current_step ≠ Step.Done) (hs : step inner p = some r) :
    solve_loop inner (fuel + 1) p = solve_loop inner fuel r.1 := by
  rw [solve_loop, if_neg hnd, hs]

/-! ## The run on `overflow_matrix`, step by step -/

theorem overflow_step_0 :
    step 12 (construct 4 overflow_matrix) = some (of_snapshot 4 overflow_state_1, false) :=
  step_of_snapshot _ _ _ _ (by decide)

theorem overflow_step_1 :
    step 12 (of_snapshot 4 overflow_state_1) = some (of_snapshot 4 overflow_state_2, false) :=
  step_of_snapshot _ _ _ _ (by decide)

theorem overflow_step_2 :
    step 12 (of_snapshot 4 overflow_state_2) = some (of_snapshot 4 overflow_state_3, false) :=
  step_of_snapshot _ _ _ _ (by decide)

theorem overflow_step_3 :
    step 12 (of_snapshot 4 overflow_state_3) = some (of_snapshot 4 overflow_state_4, false) :=
  step_of_snapshot _ _ _ _ (by decide)

theorem overflow_step_4 :
    step 12 (of_snapshot 4 overflow_state_4) = some (of_snapshot 4 overflow_state_5, false) :=
  step_of_snapshot _ _ _ _ (by decide)

theorem overflow_step_5 :
    step 12 (of_snapshot 4 overflow_state_5) = some (of_snapshot 4 overflow_state_6, false) :=
  step_of_snapshot _ _ _ _ (by decide)

theorem overflow_step_6 :
    step 12 (of_snapshot 4 overflow_state_6) = some (of_snapshot 4 overflow_state_7, false) :=
  step_of_snapshot _ _ _ _ (by decide)

theorem overflow_step_7 :
    step 12 (of_snapshot 4 overflow_state_7) = some (of_snapshot 4 overflow_state_8, false) :=
  step_of_snapshot _ _ _ _ (by decide)

theorem overflow_step_8 :
    step 12 (of_snapshot 4 overflow_state_8) = some (of_snapshot 4 overflow_state_9, false) :=
  step_of_snapshot _ _ _ _ (by decide)

theorem overflow_step_9 :
    step 12 (of_snapshot 4 overflow_state_9) = some (of_snapshot 4 overflow_state_10, false) :=
  step_of_snapshot _ _ _ _ (by decide)

theorem overflow_step_10 :
    step 12 (of_snapshot 4 overflow_state_10) = some (of_snapshot 4 overflow_state_11, true) :=
  step_of_snapshot _ _ _ _ (by decide)

theorem overflow_solve_loop :
    solve_loop 12 12 (construct 4 overflow_matrix) = some (of_snapshot 4 overflow_state_11) := by
  rw [solve_loop_succ 12 11 _ _ (by decide) overflow_step_0]
  rw [solve_loop_succ 12 10 _ _ (by decide) overflow_step_1]
  rw [solve_loop_succ 12 9 _ _ (by decide) overflow_step_2]
  rw [solve_loop_succ 12 8 _ _ (by decide) overflow_step_3]
  rw [solve_loop_succ 12 7 _ _ (by decide) overflow_step_4]
  rw [solve_loop_succ 12 6 _ _ (by decide) overflow_step_5]
  rw [solve_loop_succ 12 5 _ _ (by decide) overflow_step_6]
  rw [solve_loop_succ 12 4 _ _ (by decide) overflow_step_7]
  rw [solve_loop_succ 12 3 _ _ (by decide) overflow_step_8]
  rw [solve_loop_succ 12 2 _ _ (by decide) overflow_step_9]
  rw [solve_loop_succ 12 1 _ _ (by decide) overflow_step_10]
  exact solve_loop_done _ _ _ (by decide)

/-! ## The run on `example_matrix`, step by step -/

theorem example_step_0 :
    step 8 (construct 2 example_matrix) = some (of_snapshot 2 example_state_1, false) :=
  step_of_snapshot _ _ _ _ (by decide)

theorem example_step_1 :
    step 8 (of_snapshot 2 example_state_1) = some (of_snapshot 2 example_state_2, false) :=
  step_of_snapshot _ _ _ _ (by decide)

theorem example_step_2 :
    step 8 (of_snapshot 2 example_state_2) = some (of_snapshot 2 example_state_3, false) :=
  step_of_snapshot _ _ _ _ (by decide)

theorem example_step_3 :
    step 8 (of_snapshot 2 example_state_3) = some (of_snapshot 2 example_state_4, false) :=
  step_of_snapshot _ _ _ _ (by decide)

theorem example_step_4 :
    step 8 (of_snapshot 2 example_state_4) = some (of_snapshot 2 example_state_5, false) :=
  step_of_snapshot _ _ _ _ (by decide)

theorem example_step_5 :
    step 8 (of_snapshot 2 example_state_5) = some (of_snapshot 2 example_state_6, false) :=
  step_of_snapshot _ _ _ _ (by decide)

theorem example_step_6 :
    step 8 (of_snapshot 2 example_state_6) = some (of_snapshot 2 example_state_7, false) :=
  step_of_snapshot _ _ _ _ (by decide)

theorem example_step_7 :
    step 8 (of_snapshot 2 example_state_7) = some (of_snapshot 2 example_state_8, true) :=
  step_of_snapshot _ _ _ _ (by decide)

theorem example_solve_loop :
    solve_loop 8 8 (construct 2 example_matrix) = some (of_snapshot 2 example_state_8) := by
  rw [solve_loop_succ 8 7 _ _ (by decide) example_step_0]
  rw [solve_loop_succ 8 6 _ _ (by decide) example_step_1]
  rw [solve_loop_succ 8 5 _ _ (by decide) example_step_2]
  rw [solve_loop_succ 8 4 _ _ (by decide) example_step_3]
  rw [solve_loop_succ 8 3 _ _ (by decide) example_step_4]
  rw [solve_loop_succ 8 2 _ _ (by decide) example_step_5]
  rw [solve_loop_succ 8 1 _ _ (by decide) example_step_6]
  rw [solve_loop_succ 8 0 _ _ (by decide) example_step_7]
  exact solve_loop_done _ _ _ (by decide)

theorem example_reachable_1 :
    Reachable example_matrix (of_snapshot 2 example_state_1) :=
  Reachable.next 8 _ _ Reachable.init example_step_0

theorem example_reachable_2 :
    Reachable example_matrix (of_snapshot 2 example_state_2) :=
  Reachable.next 8 _ _ example_reachable_1 example_step_1

theorem example_reachable_3 :
    Reachable example_matrix (of_snapshot 2 example_state_3) :=
  Reachable.next 8 _ _ example_reachable_2 example_step_2

theorem example_reachable_4 :
    Reachable example_matrix (of_snapshot 2 example_state_4) :=
  Reachable.next 8 _ _ example_reachable_3 example_step_3

theorem example_reachable_5 :
    Reachable example_matrix (of_snapshot 2 example_state_5) :=
  Reachable.next 8 _ _ example_reachable_4 example_step_4

theorem example_reachable_6 :
    Reachable example_matrix (of_snapshot 2 example_state_6) :=
  Reachable.next 8 _ _ example_reachable_5 example_step_5

theorem example_reachable_7 :
    Reachable example_matrix (of_snapshot 2 example_state_7) :=
  Reachable.next 8 _ _ example_reachable_6 example_step_6

theorem example_reachable_8 :
    Reachable example_matrix (of_snapshot 2 example_state_8) :=
  Reachable.next 8 _ _ example_reachable_7 example_step_7

/-! ## Runs of `step` -/

theorem run_steps_of_snapshot {n : Nat} (fuel k : Nat) (p : Problem n) (t : Snapshot)
    (h : (run_steps fuel k p).map snapshot = some t) :
    run_steps fuel k p = some (of_snapshot n t) := by
  cases hs : run_steps fuel k p with
  | none => rw [hs] at h; cases h
  | some r =>
    rw [hs] at h
    simp only [Option.map_some', Option.some.injEq] at h
    rw [← h, of_snapshot_snapshot]

theorem solve_loop_run_steps {n : Nat} (inner fuel : Nat) (p q : Problem n)
    (h : solve_loop inner fuel p = some q) : ∃ k, k ≤ fuel ∧ run_steps inner k p = some q := by
  induction fuel generalizing p with
  | zero =>
    rw [solve_loop] at h
    by_cases hd : p.current_step = Step.Done
    · rw [if_pos hd] at h
      exact ⟨0, le_refl _, by rw [run_steps]; exact h⟩
    · rw [if_neg hd] at h; cases h
  | succ fuel ih =>
    rw [solve_loop] at h
    by_cases hd : p.current_step = Step.Done
    · rw [if_pos hd] at h
      exact ⟨0, Nat.zero_le _, by rw [run_steps]; exact h⟩
    · rw [if_neg hd] at h
      cases hs : step inner p with
      | none => rw [hs] at h; cases h
      | some r =>
        rw [hs] at h
        obtain ⟨k, hk, hrun⟩ := ih r.1 h
        refine ⟨k + 1, by omega, ?_⟩
        rw [run_steps, hs]
        exact hrun

/-! ## Shifting a row of the input -/

theorem minimum_in_row_shift {n : Nat} (p q : Problem n) (i : Fin n) (k : Nat)
    (h : ∀ c, q.C i c = p.C i c + k) : minimum_in_row q i = minimum_in_row p i + k := by
  obtain ⟨j0, hj0⟩ := minimum_in_row_attained q i
  obtain ⟨j1, hj1⟩ := minimum_in_row_attained p i
  have h1 := minimum_in_row_le q i j1
  have h2 := minimum_in_row_le p i j0
  rw [h j1] at h1
  rw [h j0] at hj0
  omega

theorem step_1_shift_row {n : Nat} (M : Fin n → Fin n → Nat) (i : Fin n) (k : Nat)
    (hM : ∀ r c, shift_row M i k r c < 2 ^ 32) :
    step_1 (construct n (shift_row M i k)) = step_1 (construct n M) := by
  have hM0 : ∀ r c, M r c < 2 ^ 32 := by
    intro r c
    have := hM r c
    unfold shift_row at this
    split at this <;> omega
  rw [step_1_eq, step_1_eq]
  simp only [construct, Prod.mk.injEq, and_true, Problem.mk.injEq]
  funext r c
  have e1 := add_assign_neg (shift_row M i k r c)
    (minimum_in_row (construct n (shift_row M i k)) r) (hM r c)
    (minimum_in_row_le (construct n (shift_row M i k)) r c)
  have e2 := add_assign_neg (M r c) (minimum_in_row (construct n M) r) (hM0 r c)
    (minimum_in_row_le (construct n M) r c)
  have e3 := minimum_in_row_le (construct n M) r c
  simp only [construct] at e1 e2 e3
  rw [e1, e2]
  by_cases hr : r = i
  · have hs := minimum_in_row_shift (construct n M) (construct n (shift_row M i k)) r k
      (fun c => by simp [construct, shift_row, hr])
    simp only [construct] at hs
    rw [hs]
    simp only [shift_row, hr, if_true]
    rw [hr] at e3
    omega
  · have hs := minimum_in_row_congr (construct n M) (construct n (shift_row M i k)) r
      (fun c => by simp [construct, shift_row, hr])
    simp only [construct] at hs
    rw [hs]
    simp [shift_row, hr]

theorem step_shift_row {n : Nat} (M : Fin n → Fin n → Nat) (i : Fin n) (k : Nat)
    (hM : ∀ r c, shift_row M i k r c < 2 ^ 32) (fuel : Nat) :
    step fuel (construct n (shift_row M i k)) = step fuel (construct n M) := by
  have h := step_1_shift_row M i k hM
  have e1 : step fuel (construct n (shift_row M i k)) =
      (some (step_1 (construct n (shift_row M i k)))).map
        fun x => ({ x.1 with current_step := x.2 }, decide (x.2 = Step.Done)) := rfl
  have e2 : step fuel (construct n M) =
      (some (step_1 (construct n M))).map
        fun x => ({ x.1 with current_step := x.2 }, decide (x.2 = Step.Done)) := rfl
  rw [e1, e2, h]

theorem solve_shift_row {n : Nat} (M : Fin n → Fin n → Nat) (i : Fin n) (k : Nat)
    (hM : ∀ r c, shift_row M i k r c < 2 ^ 32) (fuel : Nat) (A : Fin n → Nat) :
    solve fuel (construct n (shift_row M i k)) A = solve fuel (construct n M) A := by
  unfold solve
  have hloop : solve_loop fuel fuel (construct n (shift_row M i k)) =
      solve_loop fuel fuel (construct n M) := by
    cases fuel with
    | zero => rfl
    | succ f =>
      have h1 : (construct n (shift_row M i k)).current_step ≠ Step.Done := by
        simp [construct]
      have h2 : (construct n M).current_step ≠ Step.Done := by
        simp [construct]
      rw [solve_loop, solve_loop, if_neg h1, if_neg h2, step_shift_row M i k hM]
  rw [hloop]

/-! ## Shifting a column of the input -/

theorem sum_shift_column {n : Nat} (M : Fin n → Fin n → Nat) (j : Fin n) (k : Nat)
    (τ : Equiv.Perm (Fin n)) :
    ∑ i, shift_column M j k i (τ i) = (∑ i, M i (τ i)) + k := by
  have h1 : ∀ i, shift_column M j k i (τ i) = M i (τ i) + if i = τ.symm j then k else 0 := by
    intro i
    unfold shift_column
    by_cases h : τ i = j
    · have : i = τ.symm j := by rw [← h]; simp
      simp [h, this]
    · have : i ≠ τ.symm j := by
        intro hc
        apply h
        rw [hc]
        simp
      simp [h, this]
  simp only [h1, Finset.sum_add_distrib, Finset.sum_ite_eq', Finset.mem_univ, if_true]

/-! ## One call of `step` -/

theorem step_5_phase {n : Nat} (fuel : Nat) (p : Problem n) (x : Problem n × Step)
    (h : step_5 fuel p = some x) : x.2 = Step.Three := by
  unfold step_5 at h
  cases hz : p.uncovered_prime_zero with
  | none => rw [hz] at h; cases h
  | some z =>
    rw [hz] at h
    simp only at h
    cases hw : step_5_walk fuel p z.2 [z] [] with
    | none => rw [hw] at h; cases h
    | some res =>
      rw [hw] at h
      simp only [Option.some.injEq] at h
      rw [← h]

/-! ## The claims -/

theorem solve_for_matrix_of_two_le {n : Nat} (hn : 2 ≤ n) (fuel : Nat)
    (M : Fin n → Fin n → Nat) (A : Fin n → Nat) :
    solve_for_minimum_cost_assignment fuel n M A =
      (solve fuel (construct n M) A).map fun r => (r.1.C, r.2) := by
  unfold solve_for_minimum_cost_assignment
  rw [if_neg (by omega), if_neg (by omega)]

/-- C1 (the code at a failing input): every entry of `overflow_matrix` fits an
`unsigned int`, and `solve_for_minimum_cost_assignment` writes the assignment
`[3, 2, 1, 0]` for it, whose total cost is `4294967298`, although the assignment
`[2, 3, 0, 1]` has total cost `2`: the total cost of the written assignment is
not the minimum over the permutations. -/
theorem overflow_matrix_not_minimal :
    (∀ i j, overflow_matrix i j < 2 ^ 32) ∧
    (∀ fuel, (solve_for_minimum_cost_assignment (12 + fuel) 4 overflow_matrix
      (fun _ => 0)).map (fun r => entries_of r.2) = some [3, 2, 1, 0]) ∧
    total_cost overflow_matrix (of_entries 0 4 [3, 2, 1, 0]) = 4294967298 ∧
    total_cost overflow_matrix (of_entries 0 4 [2, 3, 0, 1]) = 2 := by
  refine ⟨by decide, ?_, by decide, by decide⟩
  intro fuel
  rw [solve_for_matrix_of_two_le (by decide)]
  unfold solve
  rw [solve_loop_mono 12 12 _ _ overflow_solve_loop (12 + fuel) (12 + fuel) (by omega)
    (by omega)]
  simp only [Option.map_some', Option.some.injEq]
  decide

/-- C2: for every `n ≥ 1` and every `n` by `n` matrix of `unsigned int` entries, the
assignment written by `solve_for_minimum_cost_assignment` is a bijection on
`0..n-1`: there is one array `a`, the same for every initial content of the buffer
(so every entry is written), with every `a i` below `n` and `a i ≠ a k` whenever
`i ≠ k`. -/
theorem assignment_is_bijection (n : Nat) (hn : 1 ≤ n) (M : Fin n → Fin n → Nat)
    (hM : ∀ i j, M i j < 2 ^ 32) :
    ∃ a : Fin n → Nat,
      (∀ fuel, enough_fuel n ≤ fuel → ∀ A, ∃ C,
        solve_for_minimum_cost_assignment fuel n M A = some (C, a)) ∧
      (∀ i, a i < n) ∧ ∀ i k, i ≠ k → a i ≠ a k := by
  by_cases h1 : n = 1
  · subst h1
    refine ⟨fun _ => 0, ?_, fun _ => Nat.zero_lt_one, ?_⟩
    · intro fuel _ A
      refine ⟨M, ?_⟩
      unfold solve_for_minimum_cost_assignment
      simp only [one_ne_zero, if_false, if_true, Option.some.injEq, Prod.mk.injEq, true_and]
      funext i
      have : i.val = 0 := by omega
      simp [this]
    · intro i k hik
      exact absurd (Subsingleton.elim i k) hik
  · obtain ⟨q, σ, -, -, -, hsolve⟩ := solve_result M hM
    refine ⟨fun i => (σ i).val, ?_, fun i => (σ i).isLt, ?_⟩
    · intro fuel hfuel A
      rw [solve_for_matrix_of_two_le (by omega), hsolve fuel hfuel A]
      exact ⟨q.C, rfl⟩
    · intro i k hik hval
      exact hik (σ.injective (Fin.ext hval))

/-- C2 (witness): the statement at `example_matrix`, of size two. -/
theorem assignment_is_bijection_witness :
    1 ≤ 2 ∧ (∀ i j, example_matrix i j < 2 ^ 32) ∧
    ∃ a : Fin 2 → Nat,
      (∀ fuel, enough_fuel 2 ≤ fuel → ∀ A, ∃ C,
        solve_for_minimum_cost_assignment fuel 2 example_matrix A = some (C, a)) ∧
      (∀ i, a i < 2) ∧ ∀ i k, i ≠ k → a i ≠ a k :=
  ⟨by decide, by decide, assignment_is_bijection 2 (by decide) example_matrix (by decide)⟩

/-- C3: for every `n ≥ 2` and every `n` by `n` matrix of `unsigned int` entries,
`Problem::solve` terminates: with `enough_fuel n` or more fuel for each of its
loops, the loop of `solve` started in the constructed state ends in a state whose
step is `Done`, and that state is reached by at most `enough_fuel n` calls of
`step`, none of which runs out of fuel in the loops of `step_4` and `step_5`. -/
theorem solve_terminates (n : Nat) (_hn : 2 ≤ n) (M : Fin n → Fin n → Nat)
    (hM : ∀ i j, M i j < 2 ^ 32) (fuel : Nat) (hfuel : enough_fuel n ≤ fuel) :
    ∃ q, solve_loop fuel fuel (construct n M) = some q ∧ q.current_step = Step.Done ∧
      ∃ k, k ≤ enough_fuel n ∧ run_steps fuel k (construct n M) = some q := by
  have hinv := inv_construct M hM
  have hleft : steps_left (construct n M) ≤ enough_fuel n := by
    rw [steps_left_construct]
    exact le_refl _
  have hgt := enough_fuel_gt n
  obtain ⟨q, hq⟩ := solve_loop_total fuel (enough_fuel n) (construct n M) hinv
    (by omega) hleft
  obtain ⟨-, hdone⟩ := solve_loop_reachable M _ _ _ q Reachable.init hq
  exact ⟨q, solve_loop_mono _ _ _ q hq fuel fuel (le_refl _) hfuel, hdone,
    solve_loop_run_steps fuel (enough_fuel n) _ q hq⟩

/-- C3 (witness): the statement at `example_matrix`, with fuel `30`. -/
theorem solve_terminates_witness :
    2 ≤ 2 ∧ (∀ i j, example_matrix i j < 2 ^ 32) ∧ enough_fuel 2 ≤ 30 ∧
    ∃ q, solve_loop 30 30 (construct 2 example_matrix) = some q ∧
      q.current_step = Step.Done ∧
      ∃ k, k ≤ enough_fuel 2 ∧ run_steps 30 k (construct 2 example_matrix) = some q :=
  ⟨by decide, by decide, by decide,
    solve_terminates 2 (by decide) example_matrix (by decide) 30 (by decide)⟩

/-- C4: for every `n ≥ 2` and matrix of `unsigned int` entries, in every state
reachable from the constructed one by `step` calls whose step is `Done`, every row
contains exactly one starred cell, and `solve` writes into `assignment[i]` the
column of the starred cell of row `i`. -/
theorem done_rows_have_one_star (n : Nat) (_hn : 2 ≤ n) (M : Fin n → Fin n → Nat)
    (hM : ∀ i j, M i j < 2 ^ 32) (p : Problem n) (hp : Reachable M p)
    (hd : p.current_step = Step.Done) :
    (∀ i, ∃! j, p.S i j = true) ∧
    ∀ fuel A, ∃ a, solve fuel p A = some (p, a) ∧ ∀ i j, p.S i j = true → a i = j.val := by
  have hinv := inv_of_reachable M hM p hp
  have h1 : StarInv p := hinv.1
  have h2 : ∀ j, ∃ i, p.S i j = true := by
    have := hinv.2
    rw [hd] at this
    exact this
  refine ⟨?_, ?_⟩
  · intro i
    obtain ⟨j, hj⟩ := done_row_star p h1 h2 i
    exact ⟨j, hj, fun k hk => h1.star_row i k j hk hj⟩
  · intro fuel A
    refine ⟨output_solution p A, ?_, ?_⟩
    · unfold solve
      rw [solve_loop_done fuel fuel p hd]
      rfl
    · intro i j hij
      exact output_solution_star p h1 A i j hij

/-- C4 (witness): the statement at the last state of the run on `example_matrix`. -/
theorem done_rows_have_one_star_witness :
    2 ≤ 2 ∧ (∀ i j, example_matrix i j < 2 ^ 32) ∧
    Reachable example_matrix (of_snapshot 2 example_state_8) ∧
    (of_snapshot 2 example_state_8).current_step = Step.Done ∧
    (∀ i, ∃! j, (of_snapshot 2 example_state_8).S i j = true) ∧
    ∀ fuel A, ∃ a, solve fuel (of_snapshot 2 example_state_8) A =
        some (of_snapshot 2 example_state_8, a) ∧
      ∀ i j, (of_snapshot 2 example_state_8).S i j = true → a i = j.val :=
  ⟨by decide, by decide, example_reachable_8, by decide,
    done_rows_have_one_star 2 (by decide) example_matrix (by decide)
      (of_snapshot 2 example_state_8) example_reachable_8 (by decide)⟩

theorem worst_case_matrix_eq (n : Nat) (hnb : n ≤ 46340) (i j : Fin n) :
    compute_cost_matrix n worst_case_cost (fun _ _ => 0) i j = (i.val + 1) * (j.val + 1) := by
  rw [compute_cost_matrix_eq]
  have hi := i.isLt
  have hj := j.isLt
  have hmul : (i.val + 1) * (j.val + 1) ≤ 46340 * 46340 :=
    Nat.mul_le_mul (by omega) (by omega)
  have e1 : (i.val + 1) % 2 ^ 32 = i.val + 1 := Nat.mod_eq_of_lt (by omega)
  have e2 : (j.val + 1) % 2 ^ 32 = j.val + 1 := Nat.mod_eq_of_lt (by omega)
  simp only [worst_case_cost, e1, e2, Nat.mod_mod]
  exact Nat.mod_eq_of_lt (by omega)

theorem worst_case_of_small (n : Nat) (hn : 2 ≤ n) (hnb : n ≤ 46340) (fuel : Nat)
    (hfuel : enough_fuel n ≤ fuel) (A : Fin n → Nat) :
    solve_for_minimum_cost_assignment_fn fuel n worst_case_cost A =
      some fun i => n - 1 - i.val := by
  have hB : ∀ i j, compute_cost_matrix n worst_case_cost (fun _ _ => 0) i j < 2 ^ 31 := by
    intro i j
    rw [worst_case_matrix_eq n hnb]
    have hi := i.isLt
    have hj := j.isLt
    have hmul : (i.val + 1) * (j.val + 1) ≤ 46340 * 46340 :=
      Nat.mul_le_mul (by omega) (by omega)
    omega
  obtain ⟨q, σ, -, -, -, hsolve, hopt⟩ := solve_optimal _ hB
  have hσ : ∀ i, (σ i).val = n - 1 - i.val := by
    apply anti_diagonal_unique σ
    intro τ
    have h := hopt τ
    simp only [worst_case_matrix_eq n hnb] at h
    exact h
  unfold solve_for_minimum_cost_assignment_fn
  rw [solve_for_matrix_of_two_le hn, hsolve fuel hfuel A]
  simp only [Option.map_some', Option.some.injEq]
  funext i
  exact hσ i

/-- C5: for each `n` among `2, 3, 4, 5, 10, 50`, solving the costs
`C(i, j) = (i + 1) * (j + 1)` through the cost-function overload writes
`assignment[i] = n - 1 - i` for every `i` in `0..n-1`. -/
theorem worst_case_anti_diagonal (n : Nat) (hn : n ∈ [2, 3, 4, 5, 10, 50]) (fuel : Nat)
    (hfuel : enough_fuel n ≤ fuel) (A : Fin n → Nat) :
    ∃ a, solve_for_minimum_cost_assignment_fn fuel n worst_case_cost A = some a ∧
      ∀ i : Fin n, a i = n - 1 - i.val := by
  have h2 : 2 ≤ n ∧ n ≤ 46340 := by
    simp only [List.mem_cons, List.mem_singleton, List.not_mem_nil, or_false] at hn
    omega
  exact ⟨_, worst_case_of_small n h2.1 h2.2 fuel hfuel A, fun _ => rfl⟩

/-- C5 (witness): the statement at `n = 50`, with fuel `6000`. -/
theorem worst_case_anti_diagonal_witness :
    50 ∈ [2, 3, 4, 5, 10, 50] ∧ enough_fuel 50 ≤ 6000 ∧
    ∃ a, solve_for_minimum_cost_assignment_fn 6000 50 worst_case_cost (fun _ => 0) = some a ∧
      ∀ i : Fin 50, a i = 50 - 1 - i.val :=
  ⟨by decide, by decide,
    worst_case_anti_diagonal 50 (by decide) 6000 (by decide) (fun _ => 0)⟩

/-- C6 (counterexample): adding `1` to every entry of column `0` of the two by two
matrix of zeros changes the returned assignment from `[0, 1]` to `[1, 0]`. -/
theorem column_shift_changes_assignment :
    (solve_for_minimum_cost_assignment 30 2 zero_matrix (fun _ => 0)).map
      (fun r => entries_of r.2) = some [0, 1] ∧
    (solve_for_minimum_cost_assignment 30 2 (shift_column zero_matrix 0 1)
      (fun _ => 0)).map (fun r => entries_of r.2) = some [1, 0] := by
  constructor <;> decide

/-- C6 (amended): for every `n ≥ 2`, every `n` by `n` matrix `M`, every column `j`
and every `k` such that the entries stay below `2 ^ 31` after adding `k` to
column `j`, solving `M` writes an assignment `a` and solving the shifted matrix
writes an assignment `b`; both are permutations of `0..n-1` (`a` is `σ` and `b` is
`ρ`), they have the same total cost in `M`, and this cost is the minimum over all
permutations, attained by `σ` and by `ρ`; `b` and `a` are the same array when `M` has
only one permutation of minimum total cost. -/
theorem column_shift_same_cost (n : Nat) (hn : 2 ≤ n) (M : Fin n → Fin n → Nat)
    (j : Fin n) (k : Nat) (hB : ∀ r c, shift_column M j k r c < 2 ^ 31) :
    ∃ (a b : Fin n → Nat) (σ ρ : Equiv.Perm (Fin n)),
      (∀ i, a i = (σ i).val) ∧ (∀ i, b i = (ρ i).val) ∧
      (∀ fuel, enough_fuel n ≤ fuel → ∀ A,
        (solve_for_minimum_cost_assignment fuel n M A).map (fun r => r.2) = some a) ∧
      (∀ fuel, enough_fuel n ≤ fuel → ∀ A,
        (solve_for_minimum_cost_assignment fuel n (shift_column M j k) A).map
          (fun r => r.2) = some b) ∧
      total_cost M a = ∑ i, M i (σ i) ∧
      total_cost M b = ∑ i, M i (ρ i) ∧
      total_cost M b = total_cost M a ∧
      (∀ τ : Equiv.Perm (Fin n), total_cost M a ≤ ∑ i, M i (τ i)) ∧
      ((∀ τ : Equiv.Perm (Fin n), ∑ i, M i (τ i) = total_cost M a →
        ∀ i, (τ i).val = a i) → b = a) := by
  have hB0 : ∀ r c, M r c < 2 ^ 31 := by
    intro r c
    have := hB r c
    unfold shift_column at this
    split at this <;> omega
  obtain ⟨q, σ, -, -, -, hsolve, hopt⟩ := solve_optimal M hB0
  obtain ⟨q2, ρ, -, -, -, hsolve2, hopt2⟩ := solve_optimal (shift_column M j k) hB
  have hcost : ∑ i, M i (ρ i) = ∑ i, M i (σ i) := by
    have h1 := hopt ρ
    have h2 := hopt2 σ
    rw [sum_shift_column, sum_shift_column] at h2
    omega
  refine ⟨fun i => (σ i).val, fun i => (ρ i).val, σ, ρ, fun _ => rfl, fun _ => rfl,
    ?_, ?_, total_cost_perm M σ, total_cost_perm M ρ, ?_, ?_, ?_⟩
  · intro fuel hfuel A
    rw [solve_for_matrix_of_two_le hn, hsolve fuel hfuel A]
    rfl
  · intro fuel hfuel A
    rw [solve_for_matrix_of_two_le hn, hsolve2 fuel hfuel A]
    rfl
  · rw [total_cost_perm, total_cost_perm]
    exact hcost
  · intro τ
    rw [total_cost_perm]
    exact hopt τ
  · intro huniq
    funext i
    exact huniq ρ (by rw [total_cost_perm]; exact hcost) i

/-- C6 (witness of the amended claim): the statement at the matrix of zeros, column `0`
and `k = 1`. -/
theorem column_shift_same_cost_witness :
    2 ≤ 2 ∧ (∀ r c, shift_column zero_matrix 0 1 r c < 2 ^ 31) ∧
    ∃ (a b : Fin 2 → Nat) (σ ρ : Equiv.Perm (Fin 2)),
      (∀ i, a i = (σ i).val) ∧ (∀ i, b i = (ρ i).val) ∧
      (∀ fuel, enough_fuel 2 ≤ fuel → ∀ A,
        (solve_for_minimum_cost_assignment fuel 2 zero_matrix A).map (fun r => r.2) =
          some a) ∧
      (∀ fuel, enough_fuel 2 ≤ fuel → ∀ A,
        (solve_for_minimum_cost_assignment fuel 2 (shift_column zero_matrix 0 1) A).map
          (fun r => r.2) = some b) ∧
      total_cost zero_matrix a = ∑ i, zero_matrix i (σ i) ∧
      total_cost zero_matrix b = ∑ i, zero_matrix i (ρ i) ∧
      total_cost zero_matrix b = total_cost zero_matrix a ∧
      (∀ τ : Equiv.Perm (Fin 2), total_cost zero_matrix a ≤ ∑ i, zero_matrix i (τ i)) ∧
      ((∀ τ : Equiv.Perm (Fin 2), ∑ i, zero_matrix i (τ i) = total_cost zero_matrix a →
        ∀ i, (τ i).val = a i) → b = a) :=
  ⟨by decide, by decide,
    column_shift_same_cost 2 (by decide) zero_matrix 0 1 (by decide)⟩

/-- C7: for every `n ≥ 2`, every `n` by `n` matrix `M`, every row `i` and every
`k ≥ 0` such that the shifted entries still fit an `unsigned int`, solving the
matrix obtained from `M` by adding `k` to every entry of row `i` returns exactly
the same assignment array as solving `M`. -/
theorem row_shift_same_assignment (n : Nat) (hn : 2 ≤ n) (M : Fin n → Fin n → Nat)
    (i : Fin n) (k : Nat) (hM : ∀ r c, shift_row M i k r c < 2 ^ 32) :
    (∀ fuel A,
      (solve_for_minimum_cost_assignment fuel n (shift_row M i k) A).map (fun r => r.2) =
        (solve_for_minimum_cost_assignment fuel n M A).map (fun r => r.2)) ∧
    ∃ a, ∀ fuel, enough_fuel n ≤ fuel → ∀ A,
      (solve_for_minimum_cost_assignment fuel n M A).map (fun r => r.2) = some a := by
  have hM0 : ∀ r c, M r c < 2 ^ 32 := by
    intro r c
    have := hM r c
    unfold shift_row at this
    split at this <;> omega
  refine ⟨?_, ?_⟩
  · intro fuel A
    rw [solve_for_matrix_of_two_le hn, solve_for_matrix_of_two_le hn,
      solve_shift_row M i k hM]
  · obtain ⟨q, σ, -, -, -, hsolve⟩ := solve_result M hM0
    refine ⟨fun r => (σ r).val, ?_⟩
    intro fuel hfuel A
    rw [solve_for_matrix_of_two_le hn, hsolve fuel hfuel A]
    rfl

/-- C7 (witness): the statement at `example_matrix`, row `0` and `k = 5`. -/
theorem row_shift_same_assignment_witness :
    2 ≤ 2 ∧ (∀ r c, shift_row example_matrix 0 5 r c < 2 ^ 32) ∧
    (∀ fuel A,
      (solve_for_minimum_cost_assignment fuel 2 (shift_row example_matrix 0 5) A).map
          (fun r => r.2) =
        (solve_for_minimum_cost_assignment fuel 2 example_matrix A).map (fun r => r.2)) ∧
    ∃ a, ∀ fuel, enough_fuel 2 ≤ fuel → ∀ A,
      (solve_for_minimum_cost_assignment fuel 2 example_matrix A).map (fun r => r.2) =
        some a :=
  ⟨by decide, by decide,
    row_shift_same_assignment 2 (by decide) example_matrix 0 5 (by decide)⟩

/-- C8: for every `n ≥ 2` and matrix of `unsigned int` entries, in every state
reachable from the constructed one by any number of `step` calls the star mask has
at most one starred cell in each row and at most one starred cell in each column. -/
theorem stars_form_partial_matching (n : Nat) (_hn : 2 ≤ n) (M : Fin n → Fin n → Nat)
    (hM : ∀ i j, M i j < 2 ^ 32) (p : Problem n) (hp : Reachable M p) :
    (∀ i j k, p.S i j = true → p.S i k = true → j = k) ∧
    (∀ i k j, p.S i j = true → p.S k j = true → i = k) :=
  ⟨(inv_of_reachable M hM p hp).1.star_row, (inv_of_reachable M hM p hp).1.star_col⟩

/-- C8 (witness): the statement at the state of the run on `example_matrix` that
follows the augmentation, in which two cells are starred. -/
theorem stars_form_partial_matching_witness :
    2 ≤ 2 ∧ (∀ i j, example_matrix i j < 2 ^ 32) ∧
    Reachable example_matrix (of_snapshot 2 example_state_7) ∧
    (∀ i j k, (of_snapshot 2 example_state_7).S i j = true →
      (of_snapshot 2 example_state_7).S i k = true → j = k) ∧
    (∀ i k j, (of_snapshot 2 example_state_7).S i j = true →
      (of_snapshot 2 example_state_7).S k j = true → i = k) :=
  ⟨by decide, by decide, example_reachable_7,
    stars_form_partial_matching 2 (by decide) example_matrix (by decide)
      (of_snapshot 2 example_state_7) example_reachable_7⟩

/-- C9: for `problem_size ≤ 1` the function `solve_for_minimum_cost_assignment`
produces the trivial assignment whatever the cost matrix holds and without running
a step (no fuel is needed): for `n = 0` the assignment buffer and the matrix are
left untouched, and for `n = 1` the matrix is left untouched, `assignment[0] = 0`
is written and no other entry of the buffer changes. -/
theorem trivial_sizes :
    (∀ fuel M A, solve_for_minimum_cost_assignment fuel 0 M A = some (M, A)) ∧
    (∀ fuel M A, ∃ a, solve_for_minimum_cost_assignment fuel 1 M A = some (M, a) ∧
      a 0 = 0 ∧ ∀ i, i.val ≠ 0 → a i = A i) := by
  refine ⟨?_, ?_⟩
  · intro fuel M A
    rfl
  · intro fuel M A
    refine ⟨fun i => if i.val = 0 then 0 else A i, rfl, rfl, ?_⟩
    intro i hi
    exact if_neg hi

/-- C10: for every solver state whose step is not `Done`, one call of `step` runs
exactly the current step function, stores the step that function returns, which
is one allowed by the table (`One → Two`, `Two → Three`, `Three → Done` or `Four`,
`Four → Five` or `Six`, `Five → Three`, `Six → Four`), and returns `true` if and
only if the step stored is `Done`.  With more fuel than `n` the call does return,
in step `Five` provided the state is reachable from a constructed one. -/
theorem step_follows_table (n : Nat) (fuel : Nat) (p : Problem n)
    (hnd : p.current_step ≠ Step.Done) :
    (∀ r, step fuel p = some r →
      allowed_next p.current_step r.1.current_step = true ∧
      (r.2 = true ↔ r.1.current_step = Step.Done) ∧
      ∃ x : Problem n × Step, r.1 = { x.1 with current_step := x.2 } ∧
        (p.current_step = Step.One → x = step_1 p) ∧
        (p.current_step = Step.Two → x = step_2 p) ∧
        (p.current_step = Step.Three → x = step_3 p) ∧
        (p.current_step = Step.Four → step_4 fuel p = some x) ∧
        (p.current_step = Step.Five → step_5 fuel p = some x) ∧
        (p.current_step = Step.Six → x = step_6 p)) ∧
    (n < fuel →
      (p.current_step = Step.Five →
        ∃ M, (∀ i j, M i j < 2 ^ 32) ∧ Reachable M p) →
      ∃ r, step fuel p = some r) := by
  refine ⟨?_, ?_⟩
  · intro r h
    obtain ⟨x, hx, hr⟩ := step_eq_some fuel p r h
    have hcs : r.1.current_step = x.2 := by rw [hr]
    have hret : r.2 = decide (x.2 = Step.Done) := by rw [hr]
    refine ⟨?_, ?_, x, by rw [hr], ?_⟩
    · rw [hcs]
      cases hc : p.current_step with
      | Done => exact absurd hc hnd
      | One =>
        rw [hc] at hx
        simp only [Option.some.injEq] at hx
        rw [← hx, step_1_eq]
        rfl
      | Two =>
        rw [hc] at hx
        simp only [Option.some.injEq] at hx
        rw [← hx]
        rfl
      | Three =>
        rw [hc] at hx
        simp only [Option.some.injEq] at hx
        rw [← hx]
        rcases step_3_phase p with h3 | h3 <;> rw [h3] <;> rfl
      | Four =>
        rw [hc] at hx
        obtain ⟨-, -, h4, -⟩ := step_4_frame fuel p x hx
        rcases h4 with h4 | h4 <;> rw [h4] <;> rfl
      | Five =>
        rw [hc] at hx
        rw [step_5_phase fuel p x hx]
        rfl
      | Six =>
        rw [hc] at hx
        simp only [Option.some.injEq] at hx
        rw [← hx, (step_6_fields p).2.2.2.2.2]
        rfl
    · rw [hret, hcs]
      simp
    · refine ⟨?_, ?_, ?_, ?_, ?_, ?_⟩ <;> intro hc <;> rw [hc] at hx
      · simpa using hx.symm
      · simpa using hx.symm
      · simpa using hx.symm
      · exact hx
      · exact hx
      · simpa using hx.symm
  · intro hfuel hfive
    unfold step
    cases hc : p.current_step with
    | One => exact ⟨_, rfl⟩
    | Two => exact ⟨_, rfl⟩
    | Three => exact ⟨_, rfl⟩
    | Four =>
      obtain ⟨x, hx⟩ := step_4_isSome fuel p (by omega)
      simp only [hx]
      exact ⟨_, rfl⟩
    | Five =>
      obtain ⟨M, hM, hreach⟩ := hfive hc
      obtain ⟨h1, h2⟩ := inv_of_reachable M hM p hreach
      rw [hc] at h2
      obtain ⟨x, hx⟩ := step_5_isSome fuel p h1 h2 hfuel
      simp only [hx]
      exact ⟨_, rfl⟩
    | Six => exact ⟨_, rfl⟩
    | Done => exact ⟨_, rfl⟩

/-- C10 (witness): the statement at the state of the run on `example_matrix` whose
step is `Five`, with fuel `8`. -/
theorem step_follows_table_witness :
    (of_snapshot 2 example_state_6).current_step ≠ Step.Done ∧
    (∀ r, step 8 (of_snapshot 2 example_state_6) = some r →
      allowed_next (of_snapshot 2 example_state_6).current_step r.1.current_step = true ∧
      (r.2 = true ↔ r.1.current_step = Step.Done) ∧
      ∃ x : Problem 2 × Step, r.1 = { x.1 with current_step := x.2 } ∧
        ((of_snapshot 2 example_state_6).current_step = Step.One →
          x = step_1 (of_snapshot 2 example_state_6)) ∧
        ((of_snapshot 2 example_state_6).current_step = Step.Two →
          x = step_2 (of_snapshot 2 example_state_6)) ∧
        ((of_snapshot 2 example_state_6).current_step = Step.Three →
          x = step_3 (of_snapshot 2 example_state_6)) ∧
        ((of_snapshot 2 example_state_6).current_step = Step.Four →
          step_4 8 (of_snapshot 2 example_state_6) = some x) ∧
        ((of_snapshot 2 example_state_6).current_step = Step.Five →
          step_5 8 (of_snapshot 2 example_state_6) = some x) ∧
        ((of_snapshot 2 example_state_6).current_step = Step.Six →
          x = step_6 (of_snapshot 2 example_state_6))) ∧
    (2 < 8 →
      ((of_snapshot 2 example_state_6).current_step = Step.Five →
        ∃ M, (∀ i j, M i j < 2 ^ 32) ∧ Reachable M (of_snapshot 2 example_state_6)) →
      ∃ r, step 8 (of_snapshot 2 example_state_6) = some r) :=
  ⟨by decide, step_follows_table 2 8 (of_snapshot 2 example_state_6) (by decide)⟩

/-! ## Counting covered columns and starred cells -/

theorem covered_column_count_eq_iff {n : Nat} (p : Problem n) :
    covered_column_count p = n ↔ ∀ j, p.is_covered_column j = true := by
  unfold covered_column_count
  constructor
  · intro h j
    have hsub : Finset.univ.filter (fun j : Fin n => p.is_covered_column j = true) =
        Finset.univ := by
      apply Finset.eq_univ_of_card
      rw [h, Fintype.card_fin]
    have hj : j ∈ Finset.univ.filter (fun j : Fin n => p.is_covered_column j = true) := by
      rw [hsub]
      exact Finset.mem_univ j
    exact (Finset.mem_filter.1 hj).2
  · intro h
    rw [Finset.filter_true_of_mem (fun j _ => h j)]
    simp

/-- With at most one star in a column, the starred cells are as many as the columns
that hold a star. -/
theorem star_count_add_free {n : Nat} (p : Problem n) (h1 : StarInv p) :
    star_count p + free_column_count p = n := by
  unfold star_count free_column_count
  have himg : (Finset.univ.filter fun x : Fin n × Fin n => p.S x.1 x.2 = true).image Prod.snd =
      Finset.univ.filter fun j : Fin n => ¬ ∀ i, p.S i j = false := by
    ext j
    simp only [Finset.mem_image, Finset.mem_filter, Finset.mem_univ, true_and, not_forall,
      Bool.not_eq_false]
    constructor
    · rintro ⟨x, hx, rfl⟩
      exact ⟨x.1, hx⟩
    · rintro ⟨i, hi⟩
      exact ⟨(i, j), hi, rfl⟩
  have hinj : Set.InjOn Prod.snd
      ((Finset.univ.filter fun x : Fin n × Fin n => p.S x.1 x.2 = true) : Set (Fin n × Fin n)) := by
    intro x hx y hy hxy
    have hx2 : p.S x.1 x.2 = true := (Finset.mem_filter.1 hx).2
    have hy2 : p.S y.1 y.2 = true := (Finset.mem_filter.1 hy).2
    rw [← hxy] at hy2
    exact Prod.ext (h1.star_col x.1 y.1 x.2 hx2 hy2) hxy
  rw [← Finset.card_image_of_injOn hinj, himg, add_comm,
    Finset.filter_card_add_filter_neg_card_eq_card]
  simp

/-! ## The calls of `find_primed_zero_in_row` in the path walk -/

/-- Under the walk invariant every call of `find_primed_zero_in_row` made by the rest
of the walk returns a primed cell of the row it was asked about. -/
theorem step_5_walk_calls_some {n : Nat} (fuel : Nat) (p : Problem n) (t : Fin n → Nat)
    (h1 : StarInv p) (hs : SearchInv p)
    (hlt : ∀ i j k, p.P i j = true → p.S k j = true → t k < t i)
    (ic jc : Fin n) (PL0 SL : List (Fin n × Fin n)) (hw : WalkInv p t ic jc PL0 SL) :
    ∀ c ∈ step_5_walk_calls fuel p jc, ∃ k, c.2 = some k ∧ p.P c.1 k = true := by
  induction fuel generalizing ic jc PL0 SL with
  | zero => intro c hc; simp [step_5_walk_calls] at hc
  | succ fuel ih =>
    intro c hc
    rw [step_5_walk_calls] at hc
    cases hf : find_starred_zero_in_column p jc with
    | none => rw [hf] at hc; simp at hc
    | some i2 =>
      rw [hf] at hc
      simp only at hc
      have hS : p.S i2 jc = true := find_starred_zero_in_column_some p i2 jc hf
      have hcol : p.is_covered_column jc = false := hs.prime_column ic jc hw.cur_prime
      have hrow : p.is_covered_row i2 = true := (hs.star_cover i2 jc hS).2 hcol
      obtain ⟨j1, hj1⟩ := hs.row_prime i2 hrow
      obtain ⟨j2, hj2⟩ := find_primed_zero_in_row_isSome p i2 j1 hj1
      have hP : p.P i2 j2 = true := find_primed_zero_in_row_some p i2 j2 hj2
      rw [hj2] at hc
      simp only [Option.getD_some, List.mem_cons] at hc
      rcases hc with hc | hc
      · subst hc
        exact ⟨j2, rfl, hP⟩
      · exact ih i2 j2 _ _ (walk_inv_next p t h1 hlt ic jc PL0 SL hw i2 j2 hS hP) c hc

/-- The rows of the starred cells that the walk collects are the rows it passes to
`find_primed_zero_in_row`, in the same order. -/
theorem step_5_walk_rows {n : Nat} (fuel : Nat) (p : Problem n) (j : Fin n)
    (PL SL : List (Fin n × Fin n)) (res : List (Fin n × Fin n) × List (Fin n × Fin n))
    (h : step_5_walk fuel p j PL SL = some res) :
    res.2.map Prod.fst = SL.map Prod.fst ++ (step_5_walk_calls fuel p j).map Prod.fst := by
  induction fuel generalizing j PL SL with
  | zero => simp [step_5_walk] at h
  | succ fuel ih =>
    rw [step_5_walk] at h
    rw [step_5_walk_calls]
    cases hf : find_starred_zero_in_column p j with
    | none =>
      rw [hf] at h
      simp only [Option.some.injEq] at h
      subst h
      simp
    | some i =>
      rw [hf] at h
      simp only at h
      rw [ih _ _ _ h]
      simp

/-! ## The reduction constant -/

/-- When the working matrix is the input reduced by row and column potentials, the
cost of every permutation drops by the same constant, the sum of all potentials. -/
theorem potInv_perm_sum {n : Nat} (M : Fin n → Fin n → Nat) (p : Problem n)
    (u v : Fin n → Int) (h : PotInv M p u v) (σ : Equiv.Perm (Fin n)) :
    ((∑ i, p.C i (σ i) : Nat) : Int) =
      ((∑ i, M i (σ i) : Nat) : Int) - (∑ i, u i + ∑ j, v j) := by
  push_cast
  have hv : ∑ i, v (σ i) = ∑ j, v j := Equiv.sum_comp σ v
  rw [← hv]
  have : ∀ i, (p.C i (σ i) : Int) = (M i (σ i) : Int) - u i - v (σ i) :=
    fun i => h.reduced i (σ i)
  simp only [this, Finset.sum_sub_distrib]
  ring

/-- For entries below `2 ^ 31` every reachable state has a reduction constant. -/
theorem reduction_constant_of_small {n : Nat} (M : Fin n → Fin n → Nat)
    (hB : ∀ i j, M i j < 2 ^ 31) (p : Problem n) (h : Reachable M p) :
    ∃ K : Int, ∀ σ : Equiv.Perm (Fin n),
      ((∑ i, p.C i (σ i) : Nat) : Int) = ((∑ i, M i (σ i) : Nat) : Int) - K := by
  obtain ⟨u, v, huv⟩ := pot_of_reachable M hB p h
  exact ⟨∑ i, u i + ∑ j, v j, fun σ => potInv_perm_sum M p u v huv σ⟩

/-! ## `step_2` and the procedure documented for it -/

theorem row_has_mark_iff {n : Nat} (S : Fin n → Fin n → Bool) (i : Fin n) :
    row_has_mark S i = true ↔ ∃ k, S i k = true := by
  unfold row_has_mark
  simp [List.any_eq_true, List.mem_finRange]

theorem column_has_mark_iff {n : Nat} (S : Fin n → Fin n → Bool) (j : Fin n) :
    column_has_mark S j = true ↔ ∃ r, S r j = true := by
  unfold column_has_mark
  simp [List.any_eq_true, List.mem_finRange]

theorem row_has_mark_write2_self {n : Nat} (S : Fin n → Fin n → Bool) (i j : Fin n) :
    row_has_mark (write2 S i j true) i = true :=
  (row_has_mark_iff _ i).2 ⟨j, by simp⟩

theorem row_has_mark_write2_ne {n : Nat} (S : Fin n → Fin n → Bool) (a i j : Fin n)
    (h : i ≠ a) : row_has_mark (write2 S a j true) i = row_has_mark S i := by
  unfold row_has_mark
  congr 1
  funext k
  simp [h]

theorem column_has_mark_write2 {n : Nat} (S : Fin n → Fin n → Bool) (a j c : Fin n) :
    column_has_mark (write2 S a j true) c = write1 (column_has_mark S) j true c := by
  by_cases hc : c = j
  · subst hc
    rw [write1_apply, if_pos rfl]
    exact (column_has_mark_iff _ c).2 ⟨a, by simp⟩
  · rw [write1_apply, if_neg hc]
    unfold column_has_mark
    congr 1
    funext r
    simp [hc]

/-- The visit of one row by the documented procedure stars the first zero of the row
whose column holds no star, provided the row holds no star yet. -/
theorem documented_row_loop {n : Nat} (C : Fin n → Fin n → Nat) (i : Fin n)
    (l : List (Fin n)) (S : Fin n → Fin n → Bool) :
    l.foldl (fun S j =>
        if C i j = 0 ∧ row_has_mark S i = false ∧ column_has_mark S j = false then
          write2 S i j true
        else S) S =
      if row_has_mark S i = true then S
      else (l.find? fun j => !column_has_mark S j && decide (C i j = 0)).elim S
        fun j => write2 S i j true := by
  induction l generalizing S with
  | nil => simp
  | cons a l ih =>
    rw [List.foldl_cons]
    cases hr : row_has_mark S i with
    | true =>
      rw [if_neg (by simp), ih S, hr]
      simp
    | false =>
      by_cases hc : C i a = 0 ∧ column_has_mark S a = false
      · rw [if_pos ⟨hc.1, rfl, hc.2⟩, ih, if_pos (row_has_mark_write2_self S i a)]
        simp [List.find?_cons, hc.1, hc.2]
      · rw [if_neg (by tauto), ih S, hr]
        have hp : (!column_has_mark S a && decide (C i a = 0)) = false := by
          by_cases h0 : C i a = 0
          · have : column_has_mark S a = true := by
              cases hcm : column_has_mark S a with
              | true => rfl
              | false => exact absurd ⟨h0, hcm⟩ hc
            simp [this]
          · simp [h0]
        simp [List.find?_cons, hp]

/-- The loop of `step_2` and the documented procedure build the same star mask, as
long as the vector of starred columns agrees with the mask and the rows still to
visit hold no star. -/
theorem step_2_documented_loop {n : Nat} (C : Fin n → Fin n → Nat) (l : List (Fin n))
    (hl : l.Nodup) (acc : (Fin n → Fin n → Bool) × (Fin n → Bool))
    (hcol : ∀ j, acc.2 j = column_has_mark acc.1 j)
    (hrow : ∀ i ∈ l, row_has_mark acc.1 i = false) :
    (l.foldl
      (fun (acc : (Fin n → Fin n → Bool) × (Fin n → Bool)) i =>
        match (List.finRange n).find? fun j => !acc.2 j && decide (C i j = 0) with
        | some j => (write2 acc.1 i j true, write1 acc.2 j true)
        | none => acc) acc).1 =
      l.foldl
        (fun S i => (List.finRange n).foldl
          (fun S j =>
            if C i j = 0 ∧ row_has_mark S i = false ∧ column_has_mark S j = false then
              write2 S i j true
            else S) S) acc.1 := by
  induction l generalizing acc with
  | nil => rfl
  | cons a l ih =>
    rw [List.foldl_cons, List.foldl_cons]
    have ha : row_has_mark acc.1 a = false := hrow a (List.mem_cons_self a l)
    have hnd := List.nodup_cons.1 hl
    have hpred : (fun j => !acc.2 j && decide (C a j = 0)) =
        fun j => !column_has_mark acc.1 j && decide (C a j = 0) := by
      funext j
      rw [hcol j]
    rw [documented_row_loop C a (List.finRange n) acc.1, ha, if_neg (by simp), ← hpred]
    cases hf : (List.finRange n).find? fun j => !acc.2 j && decide (C a j = 0) with
    | none =>
      simp only [Option.elim]
      exact ih hnd.2 acc hcol (fun i hi => hrow i (List.mem_cons_of_mem a hi))
    | some j =>
      simp only [Option.elim]
      refine ih hnd.2 (write2 acc.1 a j true, write1 acc.2 j true) ?_ ?_
      · intro c
        show write1 acc.2 j true c = column_has_mark (write2 acc.1 a j true) c
        rw [column_has_mark_write2, write1_apply, write1_apply, hcol c]
      · intro i hi
        have hia : i ≠ a := fun h => hnd.1 (h ▸ hi)
        show row_has_mark (write2 acc.1 a j true) i = false
        rw [row_has_mark_write2_ne _ _ _ _ hia]
        exact hrow i (List.mem_cons_of_mem a hi)

/-! ## The run on `overflow_matrix` up to its first augmentation -/

theorem overflow_reachable_1 :
    Reachable overflow_matrix (of_snapshot 4 overflow_state_1) :=
  Reachable.next 12 _ _ Reachable.init overflow_step_0

theorem overflow_reachable_2 :
    Reachable overflow_matrix (of_snapshot 4 overflow_state_2) :=
  Reachable.next 12 _ _ overflow_reachable_1 overflow_step_1

theorem overflow_reachable_3 :
    Reachable overflow_matrix (of_snapshot 4 overflow_state_3) :=
  Reachable.next 12 _ _ overflow_reachable_2 overflow_step_2

theorem overflow_reachable_4 :
    Reachable overflow_matrix (of_snapshot 4 overflow_state_4) :=
  Reachable.next 12 _ _ overflow_reachable_3 overflow_step_3

theorem overflow_reachable_5 :
    Reachable overflow_matrix (of_snapshot 4 overflow_state_5) :=
  Reachable.next 12 _ _ overflow_reachable_4 overflow_step_4

theorem overflow_reachable_6 :
    Reachable overflow_matrix (of_snapshot 4 overflow_state_6) :=
  Reachable.next 12 _ _ overflow_reachable_5 overflow_step_5

/-- In the state before the first augmentation of the run on `overflow_matrix` the
path walk makes one call of `find_primed_zero_in_row`, for row 1, and it returns
column 1. -/
theorem overflow_walk_calls :
    step_5_walk_calls 12 (of_snapshot 4 overflow_state_6) 0 = [(1, some 1)] := by
  decide

/-! ## The phases one by one -/

/-- C11: in a state whose phase is `Done`, `step` returns `true` and the state it
returns is the state it was given: phase, cost matrix, star mask, prime mask and
both coverage vectors are unchanged, whatever the fuel. -/
theorem step_on_done_is_noop {n : Nat} (fuel : Nat) (p : Problem n)
    (h : p.current_step = Step.Done) :
    step fuel p = some (p, true) ∧
      ∀ r, step fuel p = some r → r.2 = true ∧ r.1.current_step = Step.Done ∧
        r.1.C = p.C ∧ r.1.S = p.S ∧ r.1.P = p.P ∧
        r.1.is_covered_row = p.is_covered_row ∧
        r.1.is_covered_column = p.is_covered_column := by
  have hs : step fuel p = some (p, true) := by
    cases p with
    | mk C S P cr cc z s =>
      simp only at h
      subst h
      rfl
  refine ⟨hs, ?_⟩
  intro r hr
  rw [hs] at hr
  simp only [Option.some.injEq] at hr
  subst hr
  exact ⟨rfl, h, rfl, rfl, rfl, rfl, rfl⟩

/-- C11 (witness): the final state of the run on `example_matrix`. -/
theorem step_on_done_is_noop_witness :
    (of_snapshot 2 example_state_8).current_step = Step.Done ∧
      (step 0 (of_snapshot 2 example_state_8) = some (of_snapshot 2 example_state_8, true) ∧
      ∀ r, step 0 (of_snapshot 2 example_state_8) = some r →
        r.2 = true ∧ r.1.current_step = Step.Done ∧
        r.1.C = (of_snapshot 2 example_state_8).C ∧
        r.1.S = (of_snapshot 2 example_state_8).S ∧
        r.1.P = (of_snapshot 2 example_state_8).P ∧
        r.1.is_covered_row = (of_snapshot 2 example_state_8).is_covered_row ∧
        r.1.is_covered_column = (of_snapshot 2 example_state_8).is_covered_column) :=
  ⟨rfl, step_on_done_is_noop 0 (of_snapshot 2 example_state_8) rfl⟩

/-- C12: in a reachable state whose phase is `Three`, `step_3` leaves covered exactly
the columns that hold a starred cell; it moves to `Done` exactly when every column
holds a starred cell, which is when the number of covered columns is `n`, and to
`Four` otherwise. -/
theorem step_3_covers_starred_columns {n : Nat} (M : Fin n → Fin n → Nat)
    (hM : ∀ i j, M i j < 2 ^ 32) (p : Problem n) (hr : Reachable M p)
    (h3 : p.current_step = Step.Three) :
    (∀ j, (step_3 p).1.is_covered_column j = true ↔ ∃ i, p.S i j = true) ∧
      ((step_3 p).2 = Step.Done ↔ ∀ j, ∃ i, p.S i j = true) ∧
      ((step_3 p).2 = Step.Done ↔ covered_column_count (step_3 p).1 = n) ∧
      ((step_3 p).2 ≠ Step.Done → (step_3 p).2 = Step.Four) := by
  have hinv := inv_of_reachable M hM p hr
  have hc : Clear p := by
    have := hinv.2
    rw [h3] at this
    exact this
  refine ⟨step_3_covered p hc, step_3_done p, ?_, ?_⟩
  · rw [step_3_done, covered_column_count_eq_iff]
    exact forall_congr' fun j => (step_3_covered p hc j).symm
  · intro hne
    rcases step_3_phase p with h | h
    · exact absurd h hne
    · exact h

/-- C12 (witness): the state of the run on `example_matrix` after `step_2`. -/
theorem step_3_covers_starred_columns_witness :
    (∀ i j, example_matrix i j < 2 ^ 32) ∧
      Reachable example_matrix (of_snapshot 2 example_state_2) ∧
      (of_snapshot 2 example_state_2).current_step = Step.Three ∧
      ((∀ j, (step_3 (of_snapshot 2 example_state_2)).1.is_covered_column j = true ↔
          ∃ i, (of_snapshot 2 example_state_2).S i j = true) ∧
        ((step_3 (of_snapshot 2 example_state_2)).2 = Step.Done ↔
          ∀ j, ∃ i, (of_snapshot 2 example_state_2).S i j = true) ∧
        ((step_3 (of_snapshot 2 example_state_2)).2 = Step.Done ↔
          covered_column_count (step_3 (of_snapshot 2 example_state_2)).1 = 2) ∧
        ((step_3 (of_snapshot 2 example_state_2)).2 ≠ Step.Done →
          (step_3 (of_snapshot 2 example_state_2)).2 = Step.Four)) :=
  ⟨by decide, example_reachable_2, rfl,
    step_3_covers_starred_columns example_matrix (by decide) _ example_reachable_2 rfl⟩

/-- C13: for entries that fit an `unsigned int`, `step_1` replaces every entry of
every row by its exact integer difference with the minimum of that row (the value
`minimum_in_row`, which bounds the row from below and occurs in it), so no
subtraction wraps around, and afterwards every row holds a zero. -/
theorem step_1_subtracts_row_minimum {n : Nat} (p : Problem n)
    (hb : ∀ i j, p.C i j < 2 ^ 32) (i : Fin n) :
    (∀ j, minimum_in_row p i ≤ p.C i j) ∧
      (∃ j, minimum_in_row p i = p.C i j) ∧
      (∀ j, ((step_1 p).1.C i j : Int) = (p.C i j : Int) - (minimum_in_row p i : Int)) ∧
      (∃ j, (step_1 p).1.C i j = 0) ∧
      (step_1 p).2 = Step.Two := by
  refine ⟨minimum_in_row_le p i, minimum_in_row_attained p i, ?_, ?_, rfl⟩
  · intro j
    have := minimum_in_row_le p i j
    rw [step_1_C p hb i j]
    omega
  · obtain ⟨j, hj⟩ := minimum_in_row_attained p i
    refine ⟨j, ?_⟩
    rw [step_1_C p hb i j]
    omega

/-- C13 (witness): the second row of the matrix with rows `3, 5` and `7, 4`. -/
theorem step_1_subtracts_row_minimum_witness :
    (∀ i j, (construct 2 (of_rows 0 2 [[3, 5], [7, 4]])).C i j < 2 ^ 32) ∧
      ((∀ j, minimum_in_row (construct 2 (of_rows 0 2 [[3, 5], [7, 4]])) 1 ≤
          (construct 2 (of_rows 0 2 [[3, 5], [7, 4]])).C 1 j) ∧
      (∃ j, minimum_in_row (construct 2 (of_rows 0 2 [[3, 5], [7, 4]])) 1 =
          (construct 2 (of_rows 0 2 [[3, 5], [7, 4]])).C 1 j) ∧
      (∀ j, ((step_1 (construct 2 (of_rows 0 2 [[3, 5], [7, 4]]))).1.C 1 j : Int) =
          ((construct 2 (of_rows 0 2 [[3, 5], [7, 4]])).C 1 j : Int) -
            (minimum_in_row (construct 2 (of_rows 0 2 [[3, 5], [7, 4]])) 1 : Int)) ∧
      (∃ j, (step_1 (construct 2 (of_rows 0 2 [[3, 5], [7, 4]]))).1.C 1 j = 0) ∧
      (step_1 (construct 2 (of_rows 0 2 [[3, 5], [7, 4]]))).2 = Step.Two) :=
  ⟨by decide,
    step_1_subtracts_row_minimum (construct 2 (of_rows 0 2 [[3, 5], [7, 4]])) (by decide) 1⟩

/-- C14: on an empty star mask the star mask that `step_2` produces is the one that
the documented procedure produces, which visits every cell in row-major order and
stars it if and only if it holds zero and neither its row nor its column already
holds a star. -/
theorem step_2_refines_documented {n : Nat} (p : Problem n)
    (hS : ∀ i j, p.S i j = false) :
    (step_2 p).1.S = step_2_documented p.C := by
  have hS2 : p.S = fun _ _ => false := funext fun i => funext fun j => hS i j
  have h := step_2_documented_loop p.C (List.finRange n) (List.nodup_finRange n)
    (p.S, fun _ => false)
    (fun j => by
      show false = column_has_mark p.S j
      cases hc : column_has_mark p.S j with
      | false => rfl
      | true =>
        obtain ⟨r, hr⟩ := (column_has_mark_iff _ j).1 hc
        rw [hS r j] at hr
        cases hr)
    (fun i _ => by
      show row_has_mark p.S i = false
      cases hc : row_has_mark p.S i with
      | false => rfl
      | true =>
        obtain ⟨k, hk⟩ := (row_has_mark_iff _ i).1 hc
        rw [hS i k] at hk
        cases hk)
  have h2 : (step_2 p).1.S = (List.finRange n).foldl
      (fun S i => (List.finRange n).foldl
        (fun S j =>
          if p.C i j = 0 ∧ row_has_mark S i = false ∧ column_has_mark S j = false then
            write2 S i j true
          else S) S) p.S := h
  rw [h2, hS2]
  rfl

/-- C14 (witness): the state of the run on `overflow_matrix` after `step_1`. -/
theorem step_2_refines_documented_witness :
    (∀ i j, (of_snapshot 4 overflow_state_1).S i j = false) ∧
      (step_2 (of_snapshot 4 overflow_state_1)).1.S =
        step_2_documented (of_snapshot 4 overflow_state_1).C :=
  ⟨by decide, step_2_refines_documented (of_snapshot 4 overflow_state_1) (by decide)⟩

/-- C15: in a reachable state whose phase is `Four`, `step_4` returns (with more
fuel than `n`) and moves to `Five` or `Six`. When it moves to `Five`, the seed it
records is a primed cell that holds zero, whose row and column are uncovered and
whose row holds no starred cell. When it moves to `Six`, no cell whose row and
column are both uncovered holds zero. -/
theorem step_4_outcome {n : Nat} (M : Fin n → Fin n → Nat)
    (hM : ∀ i j, M i j < 2 ^ 32) (p : Problem n) (hr : Reachable M p)
    (h4 : p.current_step = Step.Four) (fuel : Nat) (hfuel : n < fuel) :
    ∃ r, step_4 fuel p = some r ∧ (r.2 = Step.Five ∨ r.2 = Step.Six) ∧
      (r.2 = Step.Five → ∃ i j, r.1.uncovered_prime_zero = some (i, j) ∧
        r.1.C i j = 0 ∧ r.1.P i j = true ∧ r.1.is_covered_row i = false ∧
        r.1.is_covered_column j = false ∧ ∀ k, r.1.S i k = false) ∧
      (r.2 = Step.Six → ∀ i j, r.1.is_covered_row i = false →
        r.1.is_covered_column j = false → r.1.C i j ≠ 0) := by
  have hinv := inv_of_reachable M hM p hr
  have h2 : PhaseInv p Step.Four := by
    have := hinv.2
    rw [h4] at this
    exact this
  obtain ⟨r, hres⟩ := step_4_isSome fuel p (by omega)
  obtain ⟨hs1, hs2⟩ := inv_step_4 fuel p hinv.1 h2 r hres
  obtain ⟨-, -, hphase, -, -⟩ := step_4_frame fuel p r hres
  refine ⟨r, hres, hphase, ?_, ?_⟩
  · intro h5
    rw [h5] at hs2
    obtain ⟨hs, z, hz, hzP, hzR, hzS, -⟩ := hs2
    exact ⟨z.1, z.2, hz, hs1.prime_zero z.1 z.2 hzP, hzP, hzR,
      hs.prime_column z.1 z.2 hzP, hzS⟩
  · intro h6
    rw [h6] at hs2
    exact hs2.2.2

/-- C15 (witness): the state of the run on `example_matrix` after `step_6`, from
which `step_4` moves to `Five`. -/
theorem step_4_outcome_witness :
    (∀ i j, example_matrix i j < 2 ^ 32) ∧
      Reachable example_matrix (of_snapshot 2 example_state_5) ∧
      (of_snapshot 2 example_state_5).current_step = Step.Four ∧ 2 < 8 ∧
      ∃ r, step_4 8 (of_snapshot 2 example_state_5) = some r ∧
        (r.2 = Step.Five ∨ r.2 = Step.Six) ∧
        (r.2 = Step.Five → ∃ i j, r.1.uncovered_prime_zero = some (i, j) ∧
          r.1.C i j = 0 ∧ r.1.P i j = true ∧ r.1.is_covered_row i = false ∧
          r.1.is_covered_column j = false ∧ ∀ k, r.1.S i k = false) ∧
        (r.2 = Step.Six → ∀ i j, r.1.is_covered_row i = false →
          r.1.is_covered_column j = false → r.1.C i j ≠ 0) :=
  ⟨by decide, example_reachable_5, rfl, by decide,
    step_4_outcome example_matrix (by decide) _ example_reachable_5 rfl 8 (by decide)⟩

/-- C16: in a reachable state whose phase is `Five`, `step_5` returns (with more fuel
than `n`); the state it returns has exactly one starred cell more, no primed cell and
no covered row or column, and the next phase is `Three`. -/
theorem step_5_adds_one_star {n : Nat} (M : Fin n → Fin n → Nat)
    (hM : ∀ i j, M i j < 2 ^ 32) (p : Problem n) (hr : Reachable M p)
    (h5 : p.current_step = Step.Five) (fuel : Nat) (hfuel : n < fuel) :
    ∃ r, step_5 fuel p = some r ∧ star_count r.1 = star_count p + 1 ∧
      (∀ i j, r.1.P i j = false) ∧ (∀ i, r.1.is_covered_row i = false) ∧
      (∀ j, r.1.is_covered_column j = false) ∧ r.2 = Step.Three := by
  have hinv := inv_of_reachable M hM p hr
  have h2 : PhaseInv p Step.Five := by
    have := hinv.2
    rw [h5] at this
    exact this
  obtain ⟨r, hres⟩ := step_5_isSome fuel p hinv.1 h2 hfuel
  obtain ⟨hs1, hs2, h3, -, hfree, -⟩ := inv_step_5 fuel p hinv.1 h2 r hres
  rw [h3] at hs2
  have hc : Clear r.1 := hs2
  have hp := star_count_add_free p hinv.1
  have hq := star_count_add_free r.1 hs1
  exact ⟨r, hres, by omega, hc.no_prime, hc.no_row, hc.no_column, h3⟩

/-- C16 (witness): the state of the run on `overflow_matrix` before its first
augmentation. -/
theorem step_5_adds_one_star_witness :
    (∀ i j, overflow_matrix i j < 2 ^ 32) ∧
      Reachable overflow_matrix (of_snapshot 4 overflow_state_6) ∧
      (of_snapshot 4 overflow_state_6).current_step = Step.Five ∧ 4 < 12 ∧
      ∃ r, step_5 12 (of_snapshot 4 overflow_state_6) = some r ∧
        star_count r.1 = star_count (of_snapshot 4 overflow_state_6) + 1 ∧
        (∀ i j, r.1.P i j = false) ∧ (∀ i, r.1.is_covered_row i = false) ∧
        (∀ j, r.1.is_covered_column j = false) ∧ r.2 = Step.Three :=
  ⟨by decide, overflow_reachable_6, rfl, by decide,
    step_5_adds_one_star overflow_matrix (by decide) _ overflow_reachable_6 rfl 12
      (by decide)⟩

/-- C17: in a reachable state whose phase is `Five`, the path walk of `step_5`
returns (with more fuel than `n`), the rows of the starred cells it collects are the
rows it passes to `find_primed_zero_in_row`, and every one of these calls returns a
primed cell of the row. -/
theorem step_5_walk_finds_primes {n : Nat} (M : Fin n → Fin n → Nat)
    (hM : ∀ i j, M i j < 2 ^ 32) (p : Problem n) (hr : Reachable M p)
    (h5 : p.current_step = Step.Five) (fuel : Nat) (hfuel : n < fuel) :
    ∃ z res, p.uncovered_prime_zero = some z ∧
      step_5_walk fuel p z.2 [z] [] = some res ∧
      res.2.map Prod.fst = (step_5_walk_calls fuel p z.2).map Prod.fst ∧
      ∀ c ∈ step_5_walk_calls fuel p z.2, ∃ k, c.2 = some k ∧ p.P c.1 k = true := by
  have hinv := inv_of_reachable M hM p hr
  have h2 : PhaseInv p Step.Five := by
    have := hinv.2
    rw [h5] at this
    exact this
  obtain ⟨hs, z, hz, hzP, hzR, hzS, t, ht, hle⟩ := h2
  have hinit := walk_inv_init p t z.1 z.2 hzP hzS
  have hn := covered_row_count_le p
  obtain ⟨res, hres⟩ := step_5_walk_isSome fuel p t hinv.1 hs ht.star_lt z.1 z.2 [] []
    hinit (by omega)
  have hres2 : step_5_walk fuel p z.2 [z] [] = some res := by simpa using hres
  refine ⟨z, res, hz, hres2, ?_, ?_⟩
  · have := step_5_walk_rows fuel p z.2 [z] [] res hres2
    simpa using this
  · exact step_5_walk_calls_some fuel p t hinv.1 hs ht.star_lt z.1 z.2 [] [] hinit

/-- C17 (witness): the state of the run on `overflow_matrix` before its first
augmentation, in which the walk makes one call. -/
theorem step_5_walk_finds_primes_witness :
    (∀ i j, overflow_matrix i j < 2 ^ 32) ∧
      Reachable overflow_matrix (of_snapshot 4 overflow_state_6) ∧
      (of_snapshot 4 overflow_state_6).current_step = Step.Five ∧ 4 < 12 ∧
      ∃ z res, (of_snapshot 4 overflow_state_6).uncovered_prime_zero = some z ∧
        step_5_walk 12 (of_snapshot 4 overflow_state_6) z.2 [z] [] = some res ∧
        res.2.map Prod.fst =
          (step_5_walk_calls 12 (of_snapshot 4 overflow_state_6) z.2).map Prod.fst ∧
        ∀ c ∈ step_5_walk_calls 12 (of_snapshot 4 overflow_state_6) z.2,
          ∃ k, c.2 = some k ∧ (of_snapshot 4 overflow_state_6).P c.1 k = true :=
  ⟨by decide, overflow_reachable_6, rfl, by decide,
    step_5_walk_finds_primes overflow_matrix (by decide) _ overflow_reachable_6 rfl 12
      (by decide)⟩

/-- C18: in a reachable state whose phase is `Six` some cell has its row and its
column uncovered, and `minimum_uncovered` returns the value of such a cell, which is
the least value of the uncovered cells and is strictly positive. -/
theorem minimum_uncovered_is_positive_cell {n : Nat} (M : Fin n → Fin n → Nat)
    (hM : ∀ i j, M i j < 2 ^ 32) (p : Problem n) (hr : Reachable M p)
    (h6 : p.current_step = Step.Six) :
    (∃ i j, p.is_covered_row i = false ∧ p.is_covered_column j = false ∧
        minimum_uncovered p = p.C i j) ∧
      (∀ i j, p.is_covered_row i = false → p.is_covered_column j = false →
        minimum_uncovered p ≤ p.C i j) ∧
      0 < minimum_uncovered p := by
  have hinv := inv_of_reachable M hM p hr
  have h2 : PhaseInv p Step.Six := by
    have := hinv.2
    rw [h6] at this
    exact this
  obtain ⟨hs, -, hnz⟩ := h2
  obtain ⟨i, j, hi, hj, hij⟩ := minimum_uncovered_cell p hinv.1 hs
  refine ⟨⟨i, j, hi, hj, hij⟩, fun a b ha hb => minimum_uncovered_le p a b ha hb, ?_⟩
  have := hnz i j hi hj
  omega

/-- C18 (witness): the state of the run on `example_matrix` in which `step_6` runs. -/
theorem minimum_uncovered_is_positive_cell_witness :
    (∀ i j, example_matrix i j < 2 ^ 32) ∧
      Reachable example_matrix (of_snapshot 2 example_state_4) ∧
      (of_snapshot 2 example_state_4).current_step = Step.Six ∧
      ((∃ i j, (of_snapshot 2 example_state_4).is_covered_row i = false ∧
          (of_snapshot 2 example_state_4).is_covered_column j = false ∧
          minimum_uncovered (of_snapshot 2 example_state_4) =
            (of_snapshot 2 example_state_4).C i j) ∧
        (∀ i j, (of_snapshot 2 example_state_4).is_covered_row i = false →
          (of_snapshot 2 example_state_4).is_covered_column j = false →
          minimum_uncovered (of_snapshot 2 example_state_4) ≤
            (of_snapshot 2 example_state_4).C i j) ∧
        0 < minimum_uncovered (of_snapshot 2 example_state_4)) :=
  ⟨by decide, example_reachable_4, rfl,
    minimum_uncovered_is_positive_cell example_matrix (by decide) _ example_reachable_4 rfl⟩

/-- C19: the state of the run on `overflow_matrix` after its first `step_6` is
reachable, and no integer `K` relates the permutation sums of its working matrix to
those of the input: the identity permutation asks for `K = 2`, the reversal for
`K = 4294967298`. The reversal has cost `0` in the working matrix, the least
possible, but it is not of minimum cost in the input. -/
theorem overflow_no_reduction_constant :
    (∀ i j, overflow_matrix i j < 2 ^ 32) ∧
    Reachable overflow_matrix (of_snapshot 4 overflow_state_5) ∧
    (¬ ∃ K : Int, ∀ σ : Equiv.Perm (Fin 4),
      ((∑ i, (of_snapshot 4 overflow_state_5).C i (σ i) : Nat) : Int) =
        ((∑ i, overflow_matrix i (σ i) : Nat) : Int) - K) ∧
    (∑ i, (of_snapshot 4 overflow_state_5).C i (Fin.revPerm i)) = 0 ∧
    (∑ i, overflow_matrix i (Equiv.refl (Fin 4) i)) <
      ∑ i, overflow_matrix i (Fin.revPerm i) := by
  have c1 : (∑ i, (of_snapshot 4 overflow_state_5).C i (Equiv.refl (Fin 4) i)) = 0 := by
    decide
  have c2 : (∑ i, (of_snapshot 4 overflow_state_5).C i (Fin.revPerm i)) = 0 := by
    decide
  have m1 : (∑ i, overflow_matrix i (Equiv.refl (Fin 4) i)) = 2 := by
    decide
  have m2 : (∑ i, overflow_matrix i (Fin.revPerm i)) = 4294967298 := by
    decide
  refine ⟨by decide, overflow_reachable_5, ?_, c2, ?_⟩
  · rintro ⟨K, hK⟩
    have h1 := hK (Equiv.refl (Fin 4))
    have h2 := hK Fin.revPerm
    rw [c1, m1] at h1
    rw [c2, m2] at h2
    omega
  · rw [m1, m2]
    decide

/-- C20: for entries that fit an `unsigned int` and `m = minimum_uncovered`, `step_6`
changes a cell whose row and column are both covered to `(C + m) mod 2 ^ 32`, a cell
whose row and column are both uncovered to `(C - m) mod 2 ^ 32`, which is `C - m`
itself because `m ≤ C` there, and leaves every other cell as it was. -/
theorem step_6_cell_update {n : Nat} (p : Problem n) (hb : ∀ i j, p.C i j < 2 ^ 32)
    (r c : Fin n) :
    (p.is_covered_row r = true → p.is_covered_column c = true →
        (step_6 p).1.C r c = (p.C r c + minimum_uncovered p) % 2 ^ 32) ∧
      (p.is_covered_row r = false → p.is_covered_column c = false →
        ((step_6 p).1.C r c : Int) =
            ((p.C r c : Int) - (minimum_uncovered p : Int)) % 2 ^ 32 ∧
          minimum_uncovered p ≤ p.C r c ∧
          ((step_6 p).1.C r c : Int) = (p.C r c : Int) - (minimum_uncovered p : Int)) ∧
      (p.is_covered_row r ≠ p.is_covered_column c → (step_6 p).1.C r c = p.C r c) ∧
      (step_6 p).2 = Step.Four := by
  have h := step_6_C p hb r c
  refine ⟨?_, ?_, ?_, rfl⟩
  · intro hr hc
    rw [h, if_pos hr, if_pos hc]
  · intro hr hc
    have hle := minimum_uncovered_le p r c hr hc
    have hlt := hb r c
    rw [h, if_neg (by simp [hr]), if_neg (by simp [hc])]
    refine ⟨?_, hle, ?_⟩ <;> omega
  · intro hne
    rw [h]
    cases hr : p.is_covered_row r <;> cases hc : p.is_covered_column c
    · rw [hr, hc] at hne
      exact absurd rfl hne
    · simp
    · simp
    · rw [hr, hc] at hne
      exact absurd rfl hne

/-- C20 (witness): the cell of the run on `overflow_matrix` whose addition wraps. -/
theorem step_6_cell_update_witness :
    (∀ i j, (of_snapshot 4 overflow_state_4).C i j < 2 ^ 32) ∧
      ((of_snapshot 4 overflow_state_4).is_covered_row 1 = true →
        (of_snapshot 4 overflow_state_4).is_covered_column 2 = true →
        (step_6 (of_snapshot 4 overflow_state_4)).1.C 1 2 =
          ((of_snapshot 4 overflow_state_4).C 1 2 +
            minimum_uncovered (of_snapshot 4 overflow_state_4)) % 2 ^ 32) ∧
      ((of_snapshot 4 overflow_state_4).is_covered_row 1 = false →
        (of_snapshot 4 overflow_state_4).is_covered_column 2 = false →
        ((step_6 (of_snapshot 4 overflow_state_4)).1.C 1 2 : Int) =
            (((of_snapshot 4 overflow_state_4).C 1 2 : Int) -
              (minimum_uncovered (of_snapshot 4 overflow_state_4) : Int)) % 2 ^ 32 ∧
          minimum_uncovered (of_snapshot 4 overflow_state_4) ≤
            (of_snapshot 4 overflow_state_4).C 1 2 ∧
          ((step_6 (of_snapshot 4 overflow_state_4)).1.C 1 2 : Int) =
            ((of_snapshot 4 overflow_state_4).C 1 2 : Int) -
              (minimum_uncovered (of_snapshot 4 overflow_state_4) : Int)) ∧
      ((of_snapshot 4 overflow_state_4).is_covered_row 1 ≠
          (of_snapshot 4 overflow_state_4).is_covered_column 2 →
        (step_6 (of_snapshot 4 overflow_state_4)).1.C 1 2 =
          (of_snapshot 4 overflow_state_4).C 1 2) ∧
      (step_6 (of_snapshot 4 overflow_state_4)).2 = Step.Four :=
  ⟨by decide, step_6_cell_update (of_snapshot 4 overflow_state_4) (by decide) 1 2⟩

/-! ## Marked cells -/

/-- C21: in every state reachable from `construct` by `step` calls, for a matrix of
`unsigned int` entries, every starred cell and every primed cell holds `0` in the
working matrix. In a state whose phase is `Six`, `step_6` keeps the two masks and
leaves every starred and every primed cell at `0`. -/
theorem marked_cells_hold_zero {n : Nat} (M : Fin n → Fin n → Nat)
    (hM : ∀ i j, M i j < 2 ^ 32) (p : Problem n) (hr : Reachable M p) :
    (∀ i j, p.S i j = true → p.C i j = 0) ∧
      (∀ i j, p.P i j = true → p.C i j = 0) ∧
      (p.current_step = Step.Six →
        (step_6 p).1.S = p.S ∧ (step_6 p).1.P = p.P ∧
        ∀ i j, p.S i j = true ∨ p.P i j = true → (step_6 p).1.C i j = 0) := by
  have hinv := inv_of_reachable M hM p hr
  refine ⟨hinv.1.star_zero, hinv.1.prime_zero, ?_⟩
  intro h6
  have h2 : PhaseInv p Step.Six := by
    have := hinv.2
    rw [h6] at this
    exact this
  obtain ⟨hs, -, hnz⟩ := h2
  obtain ⟨fS, fP, -⟩ := step_6_fields p
  refine ⟨fS, fP, ?_⟩
  intro i j hij
  rw [step_6_C p hinv.1.bounded i j]
  rcases hij with hS | hP
  · have hz := hinv.1.star_zero i j hS
    have hcov := hs.star_cover i j hS
    cases hrow : p.is_covered_row i with
    | true =>
      rw [if_pos rfl, if_neg (by rw [hcov.1 hrow]; simp)]
      exact hz
    | false =>
      have hcol : p.is_covered_column j = true := by
        cases hc : p.is_covered_column j with
        | true => rfl
        | false =>
          have := hcov.2 hc
          rw [hrow] at this
          cases this
      rw [if_neg (by simp), if_pos hcol]
      exact hz
  · have hz := hinv.1.prime_zero i j hP
    have hcol := hs.prime_column i j hP
    have hrow : p.is_covered_row i = true := by
      cases hc : p.is_covered_row i with
      | true => rfl
      | false => exact absurd hz (hnz i j hc hcol)
    rw [if_pos hrow, if_neg (by rw [hcol]; simp)]
    exact hz

/-- C21 (witness): the state of the run on `overflow_matrix` in which `step_6` runs
for the first time, with two starred cells and one primed cell. -/
theorem marked_cells_hold_zero_witness :
    (∀ i j, overflow_matrix i j < 2 ^ 32) ∧
      Reachable overflow_matrix (of_snapshot 4 overflow_state_4) ∧
      ((∀ i j, (of_snapshot 4 overflow_state_4).S i j = true →
          (of_snapshot 4 overflow_state_4).C i j = 0) ∧
        (∀ i j, (of_snapshot 4 overflow_state_4).P i j = true →
          (of_snapshot 4 overflow_state_4).C i j = 0) ∧
        ((of_snapshot 4 overflow_state_4).current_step = Step.Six →
          (step_6 (of_snapshot 4 overflow_state_4)).1.S =
            (of_snapshot 4 overflow_state_4).S ∧
          (step_6 (of_snapshot 4 overflow_state_4)).1.P =
            (of_snapshot 4 overflow_state_4).P ∧
          ∀ i j, (of_snapshot 4 overflow_state_4).S i j = true ∨
              (of_snapshot 4 overflow_state_4).P i j = true →
            (step_6 (of_snapshot 4 overflow_state_4)).1.C i j = 0)) :=
  ⟨by decide, overflow_reachable_4,
    marked_cells_hold_zero overflow_matrix (by decide) _ overflow_reachable_4⟩

end Hungarian
